import Mathlib

set_option linter.unusedSectionVars false

/-!
Verification of the persistent red-black tree implemented in
`src/immutable_map.h` (class `immutable_map<K, T>`).

The C++ code is embedded shallowly: `shared_ptr<const node>` values become
values of the inductive type `node_t` (a null pointer is `node_t.null`),
the transient `path` object (a stack of node pointers, deepest node first)
becomes a `List (node_t α β)` with the deepest node at the head, and each
member function becomes a Lean function on these values.  `clone()` followed
by setter calls on the clone becomes a functional update of the value.
Functions that mutate the path by reference return the residual path where
the caller goes on using it.  Key comparisons use a `LinearOrder` on the key
type, mirroring `operator==` / `operator>` of the C++ template parameter.
Code sites that would dereference a null pointer in C++ (documented below at
each occurrence) are given harmless default results; all of them are proved
unreachable from the public API in the theorems of this file.
-/

/-- Models `enum color_t { BLACK = 0, RED = 1 }`. -/
inductive color_t where
  | BLACK
  | RED
  deriving DecidableEq, Repr

/-- Models `enum side_t { LEFT = 0, RIGHT = 1 }`. -/
inductive side_t where
  | LEFT
  | RIGHT
  deriving DecidableEq, Repr

/-- Models the index arithmetic `1 - side` used to flip a side. -/
def side_t.other : side_t → side_t
  | .LEFT => .RIGHT
  | .RIGHT => .LEFT

/-- Models `class node`: a `node_t α β` is a `std::shared_ptr<const node>`
value, where `null` is the null pointer and `node kvp left right color`
is a node object holding the fields `kvp_`, `children_[0]`, `children_[1]`,
`color_`. -/
inductive node_t (α β : Type) where
  | null
  | node (kvp : α × β) (left right : node_t α β) (color : color_t)
  deriving DecidableEq, Repr

variable {α β : Type} [LinearOrder α]

/-- `get_child(side)`; on a null pointer (never dereferenced in the C++ at
the call sites we model) this returns `null`. -/
def node_t.get_child : node_t α β → side_t → node_t α β
  | .null, _ => .null
  | .node _ l _ _, .LEFT => l
  | .node _ _ r _, .RIGHT => r

/-- `is_red()`; a null pointer is treated as not red, matching the guarded
uses `child && child->is_red()` in the source. -/
def node_t.is_red : node_t α β → Bool
  | .node _ _ _ .RED => true
  | _ => false

/-- `is_black()`; `null` is treated as black (the C++ never calls it on
null). -/
def node_t.is_black : node_t α β → Bool
  | .node _ _ _ .BLACK => true
  | .node _ _ _ .RED => false
  | .null => true

/-- `get_color()`; `null` gives `BLACK` (the C++ never calls it on null). -/
def node_t.get_color : node_t α β → color_t
  | .node _ _ _ c => c
  | .null => .BLACK

/-- `has_red_child()`. -/
def node_t.has_red_child (n : node_t α β) : Bool :=
  (n.get_child .LEFT).is_red || (n.get_child .RIGHT).is_red

/-- Whether the pointer is null. -/
def node_t.isNull : node_t α β → Bool
  | .null => true
  | _ => false

/-- The key of a node, when it is not null. -/
def node_t.key? : node_t α β → Option α
  | .null => none
  | .node kvp _ _ _ => some kvp.1

/-- `clone()` + `set_child(side, child)` on the clone: a functional child
update.  On `null` (never reached from the public API) it is the
identity. -/
def node_t.set_child : node_t α β → side_t → node_t α β → node_t α β
  | .null, _, _ => .null
  | .node kvp _ r c, .LEFT, x => .node kvp x r c
  | .node kvp l _ c, .RIGHT, x => .node kvp l x c

/-- `clone()` + `set_color(color)` on the clone. -/
def node_t.set_color : node_t α β → color_t → node_t α β
  | .null, _ => .null
  | .node kvp l r _, c => .node kvp l r c

/-- `clone()` + `set_pair(kvp)` on the clone. -/
def node_t.set_pair : node_t α β → α × β → node_t α β
  | .null, _ => .null
  | .node _ l r c, kvp => .node kvp l r c

/-- The in-order visit sequence of `node::foreach`: the pairs passed to the
visitor, left subtree first, then the node's own pair, then the right
subtree. -/
def node_t.foreach : node_t α β → List (α × β)
  | .null => []
  | .node kvp l r _ => l.foreach ++ kvp :: r.foreach

/-- Models `node::validate()`: returns the black depth, or the message of
the `std::runtime_error` the C++ throws.  A missing child contributes
depth `0` exactly as the `else depth1 = 0` branches do. -/
def node_t.validate : node_t α β → Except String Nat
  | .null => .ok 0
  | .node _ l r c =>
    if c = .RED ∧ (l.is_red ∨ r.is_red) then .error "red node with red child"
    else
      match l.validate, r.validate with
      | .ok d1, .ok d2 =>
        if d1 ≠ d2 then .error "invalid black depth"
        else .ok (d1 + (if c = .RED then 0 else 1))
      | .error e, _ => .error e
      | _, .error e => .error e

/-- The transient `path` object: a stack of the visited nodes, deepest node
(`p.get_node()`) at the head of the list. -/
abbrev path_t (α β : Type) := List (node_t α β)

/-- The ternary `parent->get_key() > n->get_key() ? LEFT : RIGHT` used
throughout the source to recompute on which side `n` hangs below `parent`.
Both arguments are proper nodes at every use site; if either were null the
C++ would dereference a null pointer, and we return `RIGHT` as a junk
value. -/
def key_side (parent n : node_t α β) : side_t :=
  match parent.key?, n.key? with
  | some a, some b => if a > b then .LEFT else .RIGHT
  | _, _ => .RIGHT

/-- The static `find(root, p, key)`: pushes every visited node, returns
`true` on an exact key match.  The returned path extends the one passed
in. -/
def find_loop : node_t α β → path_t α β → α → path_t α β × Bool
  | .null, p, _ => (p, false)
  | .node kvp l r c, p, key =>
    let p' := node_t.node kvp l r c :: p
    if kvp.1 = key then (p', true)
    else if kvp.1 > key then find_loop l p' key
    else find_loop r p' key

/-- The two-argument `clone_path(p, n)`: rebuilds the tree bottom-up from
the whole path, attaching the growing subtree on the side chosen by key
comparison.  Consumes the whole path (the C++ loops until the path is
empty). -/
def clone_path : path_t α β → node_t α β → node_t α β
  | [], n => n
  | parent :: rest, n => clone_path rest (parent.set_child (key_side parent n) n)

/-- The three-argument `clone_path(p, n, depth)`: same rebuild, but stops
once the path size is down to `depth`.  Returns the rebuilt subtree and the
residual path. -/
def clone_path_depth : path_t α β → node_t α β → Nat → node_t α β × path_t α β
  | [], n, _ => (n, [])
  | parent :: rest, n, depth =>
    if (parent :: rest).length > depth then
      clone_path_depth rest (parent.set_child (key_side parent n) n) depth
    else (n, parent :: rest)

/-- The four-argument `clone_path(p, n, side, depth)`: like the previous
one but the attachment side of the first step is passed explicitly (the
replacement may be null there); the side of each later step is recomputed
from the keys of the parent and grandparent. -/
def clone_path_side : path_t α β → node_t α β → side_t → Nat → node_t α β × path_t α β
  | [], n, _, _ => (n, [])
  | parent :: rest, n, side, depth =>
    if (parent :: rest).length > depth then
      clone_path_side rest (parent.set_child side n) (key_side (rest.headD .null) parent) depth
    else (n, parent :: rest)

/-- `insert_fix(p, n)`: the bottom-up insertion fixup.  `n` is always a
proper red-rooted node here.  The branch where the parent is red but the
path has no second entry would dereference a null `grand_parent` pointer in
the C++; it is unreachable because the root is black, and we return `null`
there. -/
def insert_fix : path_t α β → node_t α β → node_t α β
  | [], n => n.set_color .BLACK
  | parent :: rest, n =>
    if parent.is_black then
      clone_path (parent :: rest) n
    else
      match rest with
      | [] => .null
      | grand_parent :: rest2 =>
        let parent_side := key_side grand_parent parent
        let node_side := key_side parent n
        let uncle := grand_parent.get_child parent_side.other
        if uncle.is_red then
          let new_parent := (parent.set_color .BLACK).set_child node_side n
          let new_uncle := uncle.set_color .BLACK
          let new_grand_parent :=
            ((grand_parent.set_color .RED).set_child parent_side new_parent).set_child
              parent_side.other new_uncle
          insert_fix rest2 new_grand_parent
        else
          if parent_side ≠ node_side then
            let new_parent := parent.set_child node_side (n.get_child parent_side)
            let new_grand_parent :=
              (grand_parent.set_child parent_side (n.get_child node_side)).set_color .RED
            let n' :=
              (((n.set_child parent_side new_parent).set_child node_side
                new_grand_parent).set_color .BLACK)
            clone_path rest2 n'
          else
            let new_grand_parent :=
              (grand_parent.set_child parent_side
                (parent.get_child parent_side.other)).set_color .RED
            let new_parent :=
              (((parent.set_child parent_side.other new_grand_parent).set_child
                parent_side n).set_color .BLACK)
            clone_path rest2 new_parent

/-- `has_black_sibling_with_red_child(parent, side)`.  A null sibling (which
the C++ would dereference; proved unreachable) behaves as black with no red
child. -/
def has_black_sibling_with_red_child (parent : node_t α β) (side : side_t) : Bool :=
  let sibling := parent.get_child side.other
  if sibling.is_red then false else sibling.has_red_child

/-- `has_black_sibling_with_black_children(parent, side)`. -/
def has_black_sibling_with_black_children (parent : node_t α β) (side : side_t) : Bool :=
  let sibling := parent.get_child side.other
  if sibling.is_red then false else !sibling.has_red_child

/-- `delete_fixup_1(parent, side)`: the terminal rebalancing case where the
sibling is black with a red child.  The C++ mutates the freshly cloned
nodes after linking them, through shared pointers; the net result is the
final values assembled here. -/
def delete_fixup_1 (parent : node_t α β) (side : side_t) : node_t α β :=
  let parent_color := parent.get_color
  let sibling := parent.get_child side.other
  let child_1 := sibling.get_child side
  if child_1.is_red then
    let new_parent := (parent.set_color .BLACK).set_child side.other (child_1.get_child side)
    let new_sibling := sibling.set_child side (child_1.get_child side.other)
    ((child_1.set_color parent_color).set_child side new_parent).set_child
      side.other new_sibling
  else
    let child_2 := sibling.get_child side.other
    let new_child_2 := child_2.set_color .BLACK
    let new_parent := (parent.set_color .BLACK).set_child side.other (sibling.get_child side)
    ((sibling.set_color parent_color).set_child side new_parent).set_child
      side.other new_child_2

/-- `delete_fixup_2(parent, side)`: the recoloring case. -/
def delete_fixup_2 (parent : node_t α β) (side : side_t) : node_t α β :=
  let sibling := parent.get_child side.other
  let new_sibling := sibling.set_color .RED
  (parent.set_color .BLACK).set_child side.other new_sibling

/-- `delete_fixup_3(parent, side)`: the red-sibling adjustment, which
re-dispatches to the two cases above under the rotated sibling. -/
def delete_fixup_3 (parent : node_t α β) (side : side_t) : node_t α β :=
  let sibling := parent.get_child side.other
  let new_parent :=
    (parent.set_color .RED).set_child side.other (sibling.get_child side)
  let new_parent' :=
    if has_black_sibling_with_red_child new_parent side then
      delete_fixup_1 new_parent side
    else if has_black_sibling_with_black_children new_parent side then
      delete_fixup_2 new_parent side
    else new_parent
  (sibling.set_color parent.get_color).set_child side new_parent'

/-- `delete_fixup(p, parent, side)`: walks the path upward, recursing only
in the recoloring case when the (black) deficit propagates. -/
def delete_fixup : path_t α β → node_t α β → side_t → node_t α β
  | p, parent, side =>
    if has_black_sibling_with_red_child parent side then
      clone_path p (delete_fixup_1 parent side)
    else if has_black_sibling_with_black_children parent side then
      let parent_color := parent.get_color
      let new_parent := delete_fixup_2 parent side
      match p with
      | grand_parent :: rest =>
        if parent_color = .BLACK then
          let parent_side := key_side grand_parent parent
          delete_fixup rest (grand_parent.set_child parent_side new_parent) parent_side
        else clone_path (grand_parent :: rest) new_parent
      | [] => new_parent
    else
      clone_path p (delete_fixup_3 parent side)

/-- `find_predecessor(p)`: pushes the left child of the path's tail and then
descends right as far as possible. -/
def find_pred_loop : node_t α β → path_t α β → path_t α β
  | .null, p => p
  | .node kvp l r c, p => find_pred_loop r (node_t.node kvp l r c :: p)

/-- `find_predecessor(p)` entry point. -/
def find_predecessor (p : path_t α β) : path_t α β :=
  find_pred_loop ((p.headD .null).get_child .LEFT) p

/-- `erase_intermediate_node(p)`: removal of a node with two children, by
moving the in-order predecessor into its place.  The path mutations of the
C++ (pops inside the `clone_path` overloads) appear as the residual paths
returned by those functions. -/
def erase_intermediate_node (p : path_t α β) : node_t α β :=
  match p with
  | [] => .null
  | erased_node :: _ =>
    let node_color := erased_node.get_color
    let depth := p.length
    let p1 := find_predecessor p
    let predecessor := p1.headD .null
    let predecessor_depth := p1.length
    let predecessor_side : side_t :=
      if predecessor_depth - depth > 1 then .RIGHT else .LEFT
    let predecessor_color := predecessor.get_color
    let new_node0 := predecessor.set_color node_color
    if predecessor_color = .RED then
      let p2 := p1.tail
      let st := clone_path_side p2 .null predecessor_side depth
      let new_node :=
        (new_node0.set_child .LEFT st.1).set_child .RIGHT (erased_node.get_child .RIGHT)
      clone_path st.2.tail new_node
    else
      if !(predecessor.get_child .LEFT).isNull then
        let new_child := (predecessor.get_child .LEFT).set_color .BLACK
        let p2 := p1.tail
        let st := clone_path_depth p2 new_child depth
        let new_node :=
          (new_node0.set_child .LEFT st.1).set_child .RIGHT (erased_node.get_child .RIGHT)
        clone_path st.2.tail new_node
      else
        let p2 := p1.tail
        let sel := if predecessor_side = .LEFT then predecessor else p2.headD .null
        match sel with
        | .null => .null
        | .node kvp _ _ _ =>
          let st := clone_path_side p2 .null predecessor_side depth
          let new_node :=
            (new_node0.set_child .LEFT st.1).set_child .RIGHT (erased_node.get_child .RIGHT)
          let temp_root := clone_path st.2.tail new_node
          let p5 := (find_loop temp_root [] kvp.1).1
          delete_fixup p5.tail (p5.headD .null) predecessor_side

/-- `erase_imp(p)`: dispatch on the children of the matched node.  The `p`
always ends at the matched node (`find` returned `true`), so the empty-path
case is unreachable and returns `null`. -/
def erase_imp : path_t α β → node_t α β
  | [] => .null
  | n :: rest =>
    if !(n.get_child .LEFT).isNull && !(n.get_child .RIGHT).isNull then
      erase_intermediate_node (n :: rest)
    else if !(n.get_child .LEFT).isNull then
      clone_path rest ((n.get_child .LEFT).set_color .BLACK)
    else if !(n.get_child .RIGHT).isNull then
      clone_path rest ((n.get_child .RIGHT).set_color .BLACK)
    else if n.is_red then
      match rest with
      | [] => .null
      | parent :: rest2 =>
        let parent_side := key_side parent n
        clone_path rest2 (parent.set_child parent_side .null)
    else
      match rest with
      | [] => .null
      | parent :: rest2 =>
        let parent_side := key_side parent n
        delete_fixup rest2 (parent.set_child parent_side .null) parent_side

/-- Models `class immutable_map`: the pair of the root pointer and the
element count. -/
structure immutable_map (α β : Type) where
  root_ : node_t α β
  size_ : Nat
  deriving DecidableEq, Repr

/-- The default constructor: empty map. -/
def immutable_map.empty : immutable_map α β := ⟨.null, 0⟩

/-- `size()`. -/
def immutable_map.size (m : immutable_map α β) : Nat := m.size_

/-- `empty()`. -/
def immutable_map.isEmpty (m : immutable_map α β) : Bool := m.size_ == 0

/-- The private `insert_imp(kvp)` reached from both public `insert`
overloads. -/
def immutable_map.insert (m : immutable_map α β) (kvp : α × β) : immutable_map α β :=
  let fp := find_loop m.root_ [] kvp.1
  if fp.2 then
    match fp.1 with
    | found :: rest => ⟨clone_path rest (found.set_pair kvp), m.size_⟩
    | [] => m
  else
    match m.root_ with
    | .null => ⟨.node kvp .null .null .BLACK, m.size_ + 1⟩
    | _ => ⟨insert_fix fp.1 (.node kvp .null .null .RED), m.size_ + 1⟩

/-- `erase(key)`. -/
def immutable_map.erase (m : immutable_map α β) (key : α) : immutable_map α β :=
  let fp := find_loop m.root_ [] key
  if fp.2 then ⟨erase_imp fp.1, m.size_ - 1⟩ else m

/-- `contains(key)`. -/
def immutable_map.contains (m : immutable_map α β) (key : α) : Bool :=
  (find_loop m.root_ [] key).2

/-- `at(key)`: the stored value, or `none` where the C++ throws
`std::out_of_range` (the spec's `KeyNotFound`). -/
def immutable_map.atKey (m : immutable_map α β) (key : α) : Option β :=
  let fp := find_loop m.root_ [] key
  if fp.2 then
    match fp.1.headD .null with
    | .node kvp _ _ _ => some kvp.2
    | .null => none
  else none

/-- `foreach(f)`: the in-order visit sequence delivered to the visitor. -/
def immutable_map.foreach (m : immutable_map α β) : List (α × β) :=
  m.root_.foreach

/-- `validate()`: `ok` when no invariant violation is detected, otherwise
the message of the `std::runtime_error`. -/
def immutable_map.validate (m : immutable_map α β) : Except String Unit :=
  if m.root_.is_red then .error "root is red"
  else
    match m.root_.validate with
    | .ok _ => .ok ()
    | .error e => .error e

/-! ### Reference list-level specifications -/

/-- Lookup of a key in an association list (first match). -/
def lookupKey : List (α × β) → α → Option β
  | [], _ => none
  | kv :: rest, k => if kv.1 = k then some kv.2 else lookupKey rest k

/-- Insertion into a key-sorted association list: replaces the pair if the
key is present, splices it in otherwise. -/
def listInsert (kvp : α × β) : List (α × β) → List (α × β)
  | [] => [kvp]
  | kv :: rest =>
    if kv.1 < kvp.1 then kv :: listInsert kvp rest
    else if kv.1 = kvp.1 then kvp :: rest
    else kvp :: kv :: rest

/-- Removal of a key from an association list. -/
def listErase (k : α) : List (α × β) → List (α × β)
  | [] => []
  | kv :: rest => if kv.1 = k then rest else kv :: listErase k rest

/-! ### Ordering and balance invariants -/

/-- `bddLo lo k`: the optional strict lower bound `lo` admits `k`. -/
def bddLo : Option α → α → Prop
  | none, _ => True
  | some a, k => a < k

/-- `bddHi k hi`: the optional strict upper bound `hi` admits `k`. -/
def bddHi : α → Option α → Prop
  | _, none => True
  | k, some b => k < b

/-- `k` lies strictly inside the interval `(lo, hi)`. -/
def bdd (lo : Option α) (k : α) (hi : Option α) : Prop := bddLo lo k ∧ bddHi k hi

instance : (lo : Option α) → (k : α) → Decidable (bddLo lo k)
  | none, _ => .isTrue trivial
  | some _, _ => inferInstanceAs (Decidable (_ < _))

instance : (k : α) → (hi : Option α) → Decidable (bddHi k hi)
  | _, none => .isTrue trivial
  | _, some _ => inferInstanceAs (Decidable (_ < _))

instance (lo : Option α) (k : α) (hi : Option α) : Decidable (bdd lo k hi) :=
  inferInstanceAs (Decidable (_ ∧ _))

/-- Binary-search-tree ordering within the open interval `(lo, hi)`:
every key lies in the interval, left subtree keys below the node key,
right subtree keys above. -/
def OrderedB : Option α → Option α → node_t α β → Prop
  | _, _, .null => True
  | lo, hi, .node kvp l r _ =>
    bdd lo kvp.1 hi ∧ OrderedB lo (some kvp.1) l ∧ OrderedB (some kvp.1) hi r

instance instDecOrderedB : (lo hi : Option α) → (t : node_t α β) → Decidable (OrderedB lo hi t)
  | _, _, .null => .isTrue trivial
  | lo, hi, .node kvp l r _ =>
    haveI := instDecOrderedB lo (some kvp.1) l
    haveI := instDecOrderedB (some kvp.1) hi r
    inferInstanceAs (Decidable (_ ∧ _ ∧ _))

/-- The red-black balance invariant: `BalancedRB t c n` says the subtree `t`
has root color `c` and black-height `n`, no red node has a red child, and
all downward paths have the same number of black nodes. -/
inductive BalancedRB : node_t α β → color_t → Nat → Prop where
  | null : BalancedRB .null .BLACK 0
  | red {kvp : α × β} {l r : node_t α β} {n : Nat} :
      BalancedRB l .BLACK n → BalancedRB r .BLACK n → BalancedRB (.node kvp l r .RED) .RED n
  | black {kvp : α × β} {l r : node_t α β} {c₁ c₂ : color_t} {n : Nat} :
      BalancedRB l c₁ n → BalancedRB r c₂ n → BalancedRB (.node kvp l r .BLACK) .BLACK (n + 1)

/--
The combined invariant of a search path (deepest node first), following the
zipper-balance idea used for verified red-black trees.  `PathOK c₀ n₀ lo₀
hi₀ p lo hi c n ll rr` means: `p` is an ancestor chain whose outermost
rebuild produces a tree lying in the interval `(lo₀, hi₀)` and balanced
`(c₀, n₀)`, provided its innermost hole — whose key interval is `(lo, hi)`
— is filled with a tree balanced `(c, n)` whose keys lie in `(lo, hi)`; the
pairs `ll`/`rr` are the contents hanging to the left/right of the hole.
The child on the hole side of each stored node is unconstrained because
every rebuild overwrites it.
-/
inductive PathOK (c₀ : color_t) (n₀ : Nat) (lo₀ hi₀ : Option α) :
    path_t α β → Option α → Option α → color_t → Nat → List (α × β) → List (α × β) → Prop where
  | root : PathOK c₀ n₀ lo₀ hi₀ [] lo₀ hi₀ c₀ n₀ [] []
  | redL {rest : path_t α β} {lo hi : Option α} {n : Nat} {ll rr : List (α × β)}
      {k : α} {v : β} {l r : node_t α β} :
      PathOK c₀ n₀ lo₀ hi₀ rest lo hi .RED n ll rr →
      bdd lo k hi → BalancedRB r .BLACK n → OrderedB (some k) hi r →
      PathOK c₀ n₀ lo₀ hi₀ (.node (k, v) l r .RED :: rest) lo (some k) .BLACK n
        ll ((k, v) :: (r.foreach ++ rr))
  | redR {rest : path_t α β} {lo hi : Option α} {n : Nat} {ll rr : List (α × β)}
      {k : α} {v : β} {l r : node_t α β} :
      PathOK c₀ n₀ lo₀ hi₀ rest lo hi .RED n ll rr →
      bdd lo k hi → BalancedRB l .BLACK n → OrderedB lo (some k) l →
      PathOK c₀ n₀ lo₀ hi₀ (.node (k, v) l r .RED :: rest) (some k) hi .BLACK n
        (ll ++ l.foreach ++ [(k, v)]) rr
  | blackL {rest : path_t α β} {lo hi : Option α} {n : Nat} {ll rr : List (α × β)}
      {k : α} {v : β} {l r : node_t α β} {cr c' : color_t} :
      PathOK c₀ n₀ lo₀ hi₀ rest lo hi .BLACK (n + 1) ll rr →
      bdd lo k hi → BalancedRB r cr n → OrderedB (some k) hi r →
      PathOK c₀ n₀ lo₀ hi₀ (.node (k, v) l r .BLACK :: rest) lo (some k) c' n
        ll ((k, v) :: (r.foreach ++ rr))
  | blackR {rest : path_t α β} {lo hi : Option α} {n : Nat} {ll rr : List (α × β)}
      {k : α} {v : β} {l r : node_t α β} {cl c' : color_t} :
      PathOK c₀ n₀ lo₀ hi₀ rest lo hi .BLACK (n + 1) ll rr →
      bdd lo k hi → BalancedRB l cl n → OrderedB lo (some k) l →
      PathOK c₀ n₀ lo₀ hi₀ (.node (k, v) l r .BLACK :: rest) (some k) hi c' n
        (ll ++ l.foreach ++ [(k, v)]) rr

/-! ### Basic facts about bounds, ordering and balance -/

theorem bddHi_of_lt_of_bddHi {a b : α} {hi : Option α} (h1 : a < b) (h2 : bddHi b hi) :
    bddHi a hi := by
  cases hi with
  | none => trivial
  | some x => exact lt_trans h1 h2

theorem bddLo_of_bddLo_of_lt {a b : α} {lo : Option α} (h1 : bddLo lo a) (h2 : a < b) :
    bddLo lo b := by
  cases lo with
  | none => trivial
  | some x => exact lt_trans h1 h2

theorem OrderedB.foreach_bdd {lo hi : Option α} {t : node_t α β} (h : OrderedB lo hi t) :
    ∀ kv ∈ t.foreach, bdd lo kv.1 hi := by
  induction t generalizing lo hi with
  | null => intro kv hkv; simp [node_t.foreach] at hkv
  | node kvp l r c ihl ihr =>
    obtain ⟨hk, hl, hr⟩ := h
    intro kv hkv
    simp only [node_t.foreach, List.mem_append, List.mem_cons] at hkv
    rcases hkv with h1 | h2 | h3
    · have := ihl hl kv h1
      exact ⟨this.1, bddHi_of_lt_of_bddHi this.2 hk.2⟩
    · rw [h2]; exact hk
    · have := ihr hr kv h3
      exact ⟨bddLo_of_bddLo_of_lt hk.1 this.1, this.2⟩

theorem OrderedB.weaken {lo hi lo' hi' : Option α} {t : node_t α β} (h : OrderedB lo hi t)
    (hlo : ∀ x, bddLo lo x → bddLo lo' x) (hhi : ∀ x, bddHi x hi → bddHi x hi') :
    OrderedB lo' hi' t := by
  induction t generalizing lo hi lo' hi' with
  | null => trivial
  | node kvp l r c ihl ihr =>
    obtain ⟨hk, hl, hr⟩ := h
    exact ⟨⟨hlo _ hk.1, hhi _ hk.2⟩, ihl hl hlo (fun x hx => hx), ihr hr (fun x hx => hx) hhi⟩

theorem OrderedB.weaken_hi {lo hi : Option α} {k : α} {t : node_t α β}
    (h : OrderedB lo (some k) t) (hk : bddHi k hi) : OrderedB lo hi t :=
  h.weaken (fun _ hx => hx) (fun _ hx => bddHi_of_lt_of_bddHi hx hk)

theorem OrderedB.weaken_lo {lo hi : Option α} {k : α} {t : node_t α β}
    (h : OrderedB (some k) hi t) (hk : bddLo lo k) : OrderedB lo hi t :=
  h.weaken (fun _ hx => bddLo_of_bddLo_of_lt hk hx) (fun _ hx => hx)

theorem OrderedB.foreach_pairwise {lo hi : Option α} {t : node_t α β} (h : OrderedB lo hi t) :
    t.foreach.Pairwise (fun a b => a.1 < b.1) := by
  induction t generalizing lo hi with
  | null => simp [node_t.foreach]
  | node kvp l r c ihl ihr =>
    obtain ⟨hk, hl, hr⟩ := h
    simp only [node_t.foreach]
    rw [List.pairwise_append]
    refine ⟨ihl hl, List.pairwise_cons.2 ⟨fun b hb => (hr.foreach_bdd b hb).1, ihr hr⟩, ?_⟩
    intro a ha b hb
    have ha' : a.1 < kvp.1 := (hl.foreach_bdd a ha).2
    rcases List.mem_cons.1 hb with rfl | hb'
    · exact ha'
    · exact lt_trans ha' (hr.foreach_bdd b hb').1

theorem BalancedRB.color_eq {t : node_t α β} {c : color_t} {n : Nat}
    (h : BalancedRB t c n) : t.get_color = c := by
  cases h <;> rfl

theorem BalancedRB.ne_null_of_pos {t : node_t α β} {c : color_t} {n : Nat}
    (h : BalancedRB t c n) (hn : 0 < n) : t ≠ .null := by
  cases h with
  | null => omega
  | red _ _ => simp
  | black _ _ => simp

theorem BalancedRB.null_inv {c : color_t} {n : Nat}
    (h : BalancedRB (.null : node_t α β) c n) : c = .BLACK ∧ n = 0 := by
  cases h; exact ⟨rfl, rfl⟩

theorem BalancedRB.black_of_not_red {t : node_t α β} {c : color_t} {n : Nat}
    (h : BalancedRB t c n) (hr : t.is_red = false) : c = .BLACK := by
  cases h with
  | null => rfl
  | red _ _ => simp [node_t.is_red] at hr
  | black _ _ => rfl

theorem BalancedRB.red_of_is_red {t : node_t α β} {c : color_t} {n : Nat}
    (h : BalancedRB t c n) (hr : t.is_red = true) : c = .RED := by
  cases h with
  | null => simp [node_t.is_red] at hr
  | red _ _ => rfl
  | black _ _ => simp [node_t.is_red] at hr

/-! ### Core lemmas about `PathOK` and the rebuild functions -/

/-- Filling the hole of a valid path with a fitting subtree through
`clone_path` produces a tree that is ordered in the outer interval,
balanced with the outer interface, and whose in-order contents are the
hole contents framed by `ll` and `rr`. -/
theorem PathOK.fill {c₀ : color_t} {n₀ : Nat} {lo₀ hi₀ : Option α} {p : path_t α β}
    {lo hi : Option α} {c : color_t} {n : Nat} {ll rr : List (α × β)}
    (hp : PathOK c₀ n₀ lo₀ hi₀ p lo hi c n ll rr) :
    ∀ t : node_t α β, OrderedB lo hi t → BalancedRB t c n → (t = .null → p = []) →
      OrderedB lo₀ hi₀ (clone_path p t) ∧ BalancedRB (clone_path p t) c₀ n₀ ∧
        (clone_path p t).foreach = ll ++ t.foreach ++ rr := by
  induction hp with
  | root =>
    intro t ht hb _
    exact ⟨ht, hb, by simp [clone_path]⟩
  | @redL rest lo hi n ll rr k v l r hrest hbdd hbr hor ih =>
    intro t ht hb hne
    match t, hb with
    | .null, hb =>
      exact absurd (hne rfl) (by simp)
    | .node kvp tl tr tc, hb =>
      have hkt : kvp.1 < k := (ht.1).2
      have hside : key_side (.node (k, v) l r .RED) (.node kvp tl tr tc) = .LEFT := by
        simp [key_side, node_t.key?, hkt]
      rw [show clone_path ((.node (k, v) l r .RED : node_t α β) :: rest) (.node kvp tl tr tc)
          = clone_path rest (.node (k, v) (.node kvp tl tr tc) r .RED) by
        simp [clone_path, hside, node_t.set_child]]
      have ih' := ih (.node (k, v) (.node kvp tl tr tc) r .RED)
        ⟨hbdd, ht, hor⟩ (.red hb hbr) (by simp)
      refine ⟨ih'.1, ih'.2.1, ?_⟩
      rw [ih'.2.2]; simp [node_t.foreach]
  | @redR rest lo hi n ll rr k v l r hrest hbdd hbl hol ih =>
    intro t ht hb hne
    match t, hb with
    | .null, hb =>
      exact absurd (hne rfl) (by simp)
    | .node kvp tl tr tc, hb =>
      have hkt : k < kvp.1 := (ht.1).1
      have hside : key_side (.node (k, v) l r .RED) (.node kvp tl tr tc) = .RIGHT := by
        simp [key_side, node_t.key?, not_lt_of_gt hkt]
      rw [show clone_path ((.node (k, v) l r .RED : node_t α β) :: rest) (.node kvp tl tr tc)
          = clone_path rest (.node (k, v) l (.node kvp tl tr tc) .RED) by
        simp [clone_path, hside, node_t.set_child]]
      have ih' := ih (.node (k, v) l (.node kvp tl tr tc) .RED)
        ⟨hbdd, hol, ht⟩ (.red hbl hb) (by simp)
      refine ⟨ih'.1, ih'.2.1, ?_⟩
      rw [ih'.2.2]; simp [node_t.foreach]
  | @blackL rest lo hi n ll rr k v l r cr c' hrest hbdd hbr hor ih =>
    intro t ht hb hne
    match t, hb with
    | .null, hb =>
      exact absurd (hne rfl) (by simp)
    | .node kvp tl tr tc, hb =>
      have hkt : kvp.1 < k := (ht.1).2
      have hside : key_side (.node (k, v) l r .BLACK) (.node kvp tl tr tc) = .LEFT := by
        simp [key_side, node_t.key?, hkt]
      rw [show clone_path ((.node (k, v) l r .BLACK : node_t α β) :: rest) (.node kvp tl tr tc)
          = clone_path rest (.node (k, v) (.node kvp tl tr tc) r .BLACK) by
        simp [clone_path, hside, node_t.set_child]]
      have ih' := ih (.node (k, v) (.node kvp tl tr tc) r .BLACK)
        ⟨hbdd, ht, hor⟩ (.black hb hbr) (by simp)
      refine ⟨ih'.1, ih'.2.1, ?_⟩
      rw [ih'.2.2]; simp [node_t.foreach]
  | @blackR rest lo hi n ll rr k v l r cl c' hrest hbdd hbl hol ih =>
    intro t ht hb hne
    match t, hb with
    | .null, hb =>
      exact absurd (hne rfl) (by simp)
    | .node kvp tl tr tc, hb =>
      have hkt : k < kvp.1 := (ht.1).1
      have hside : key_side (.node (k, v) l r .BLACK) (.node kvp tl tr tc) = .RIGHT := by
        simp [key_side, node_t.key?, not_lt_of_gt hkt]
      rw [show clone_path ((.node (k, v) l r .BLACK : node_t α β) :: rest) (.node kvp tl tr tc)
          = clone_path rest (.node (k, v) l (.node kvp tl tr tc) .BLACK) by
        simp [clone_path, hside, node_t.set_child]]
      have ih' := ih (.node (k, v) l (.node kvp tl tr tc) .BLACK)
        ⟨hbdd, hol, ht⟩ (.black hbl hb) (by simp)
      refine ⟨ih'.1, ih'.2.1, ?_⟩
      rw [ih'.2.2]; simp [node_t.foreach]

/-- The hole color of a path below a black node is arbitrary. -/
theorem PathOK.recolor {c₀ : color_t} {n₀ : Nat} {lo₀ hi₀ : Option α} {x : node_t α β}
    {rest : path_t α β} {lo hi : Option α} {c : color_t} {n : Nat} {ll rr : List (α × β)}
    (hp : PathOK c₀ n₀ lo₀ hi₀ (x :: rest) lo hi c n ll rr) (hc : x.get_color = .BLACK)
    (c' : color_t) : PathOK c₀ n₀ lo₀ hi₀ (x :: rest) lo hi c' n ll rr := by
  cases hp with
  | redL hrest hbdd hbr hor => simp [node_t.get_color] at hc
  | redR hrest hbdd hbl hol => simp [node_t.get_color] at hc
  | blackL hrest hbdd hbr hor => exact .blackL hrest hbdd hbr hor
  | blackR hrest hbdd hbl hol => exact .blackR hrest hbdd hbl hol

/-- In a black-rooted tree, a hole that accepts a red subtree lies below a
black node. -/
theorem PathOK.red_hole_head_black {n₀ : Nat} {lo₀ hi₀ : Option α} {p : path_t α β}
    {lo hi : Option α} {n : Nat} {ll rr : List (α × β)}
    (hp : PathOK .BLACK n₀ lo₀ hi₀ p lo hi .RED n ll rr) :
    ∃ (k : α) (v : β) (l r : node_t α β) (rest : path_t α β),
      p = .node (k, v) l r .BLACK :: rest := by
  cases hp with
  | blackL hrest hbdd hbr hor => exact ⟨_, _, _, _, _, rfl⟩
  | blackR hrest hbdd hbl hol => exact ⟨_, _, _, _, _, rfl⟩

/-- Every pair hanging right of the hole has its key at or above the upper
hole bound. -/
theorem PathOK.rr_above {c₀ : color_t} {n₀ : Nat} {lo₀ hi₀ : Option α} {p : path_t α β}
    {lo hi : Option α} {c : color_t} {n : Nat} {ll rr : List (α × β)}
    (hp : PathOK c₀ n₀ lo₀ hi₀ p lo hi c n ll rr) :
    ∀ kv ∈ rr, ∃ b, hi = some b ∧ b ≤ kv.1 := by
  induction hp with
  | root => intro kv h; simp at h
  | @redL rest lo hi n ll rr k v l r hrest hbdd hbr hor ih =>
    intro kv hkv
    rcases List.mem_cons.1 hkv with rfl | hkv'
    · exact ⟨k, rfl, le_refl k⟩
    rcases List.mem_append.1 hkv' with h1 | h2
    · exact ⟨k, rfl, le_of_lt (hor.foreach_bdd kv h1).1⟩
    · obtain ⟨b, hb, hble⟩ := ih kv h2
      refine ⟨k, rfl, le_of_lt (lt_of_lt_of_le ?_ hble)⟩
      have := hbdd.2; rw [hb] at this; exact this
  | @redR rest lo hi n ll rr k v l r hrest hbdd hbl hol ih => exact ih
  | @blackL rest lo hi n ll rr k v l r cr c' hrest hbdd hbr hor ih =>
    intro kv hkv
    rcases List.mem_cons.1 hkv with rfl | hkv'
    · exact ⟨k, rfl, le_refl k⟩
    rcases List.mem_append.1 hkv' with h1 | h2
    · exact ⟨k, rfl, le_of_lt (hor.foreach_bdd kv h1).1⟩
    · obtain ⟨b, hb, hble⟩ := ih kv h2
      refine ⟨k, rfl, le_of_lt (lt_of_lt_of_le ?_ hble)⟩
      have := hbdd.2; rw [hb] at this; exact this
  | @blackR rest lo hi n ll rr k v l r cl c' hrest hbdd hbl hol ih => exact ih

/-- Every pair hanging left of the hole has its key at or below the lower
hole bound. -/
theorem PathOK.ll_below {c₀ : color_t} {n₀ : Nat} {lo₀ hi₀ : Option α} {p : path_t α β}
    {lo hi : Option α} {c : color_t} {n : Nat} {ll rr : List (α × β)}
    (hp : PathOK c₀ n₀ lo₀ hi₀ p lo hi c n ll rr) :
    ∀ kv ∈ ll, ∃ a, lo = some a ∧ kv.1 ≤ a := by
  induction hp with
  | root => intro kv h; simp at h
  | @redL rest lo hi n ll rr k v l r hrest hbdd hbr hor ih => exact ih
  | @redR rest lo hi n ll rr k v l r hrest hbdd hbl hol ih =>
    intro kv hkv
    rcases List.mem_append.1 hkv with h0 | h2
    · rcases List.mem_append.1 h0 with h1 | h1
      · obtain ⟨a, ha, hale⟩ := ih kv h1
        refine ⟨k, rfl, le_of_lt (lt_of_le_of_lt hale ?_)⟩
        have := hbdd.1; rw [ha] at this; exact this
      · exact ⟨k, rfl, le_of_lt (hol.foreach_bdd kv h1).2⟩
    · simp at h2; subst h2; exact ⟨k, rfl, le_refl k⟩
  | @blackL rest lo hi n ll rr k v l r cr c' hrest hbdd hbr hor ih => exact ih
  | @blackR rest lo hi n ll rr k v l r cl c' hrest hbdd hbl hol ih =>
    intro kv hkv
    rcases List.mem_append.1 hkv with h0 | h2
    · rcases List.mem_append.1 h0 with h1 | h1
      · obtain ⟨a, ha, hale⟩ := ih kv h1
        refine ⟨k, rfl, le_of_lt (lt_of_le_of_lt hale ?_)⟩
        have := hbdd.1; rw [ha] at this; exact this
      · exact ⟨k, rfl, le_of_lt (hol.foreach_bdd kv h1).2⟩
    · simp at h2; subst h2; exact ⟨k, rfl, le_refl k⟩

/-- Concatenating a path relative to a hole onto the path that introduced
the hole gives a valid longer path. -/
theorem PathOK.append {c₀ : color_t} {n₀ : Nat} {lo₀ hi₀ : Option α} {tailp : path_t α β}
    {loT hiT : Option α} {cT : color_t} {nT : Nat} {llT rrT : List (α × β)}
    {q : path_t α β} {lo hi : Option α} {c : color_t} {n : Nat} {ll rr : List (α × β)}
    (h1 : PathOK c₀ n₀ lo₀ hi₀ tailp loT hiT cT nT llT rrT)
    (h2 : PathOK cT nT loT hiT q lo hi c n ll rr) :
    PathOK c₀ n₀ lo₀ hi₀ (q ++ tailp) lo hi c n (llT ++ ll) (rr ++ rrT) := by
  induction h2 with
  | root => simpa using h1
  | @redL rest lo hi n ll rr k v l r hrest hbdd hbr hor ih =>
    have := PathOK.redL (v := v) (l := l) ih hbdd hbr hor
    simpa using this
  | @redR rest lo hi n ll rr k v l r hrest hbdd hbl hol ih =>
    have := PathOK.redR (v := v) (r := r) ih hbdd hbl hol
    simpa using this
  | @blackL rest lo hi n ll rr k v l r cr c' hrest hbdd hbr hor ih =>
    have := @PathOK.blackL α β _ c₀ n₀ lo₀ hi₀ (rest ++ tailp) lo hi n (llT ++ ll)
      (rr ++ rrT) k v l r cr c' ih hbdd hbr hor
    simpa using this
  | @blackR rest lo hi n ll rr k v l r cl c' hrest hbdd hbl hol ih =>
    have := @PathOK.blackR α β _ c₀ n₀ lo₀ hi₀ (rest ++ tailp) lo hi n (llT ++ ll)
      (rr ++ rrT) k v l r cl c' ih hbdd hbl hol
    simpa using this

/-- The stack of rebuilt ancestors that a search walking from the root of
`clone_path p t` down to `t` pushes onto its path (deepest first). -/
def cloneStack : path_t α β → node_t α β → path_t α β
  | [], _ => []
  | x :: xs, n =>
    let x' := x.set_child (key_side x n) n
    x' :: cloneStack xs x'

/-- The rebuilt ancestor stack is a valid path with the same hole data as
the path it was rebuilt from. -/
theorem PathOK.cloneStack_ok {c₀ : color_t} {n₀ : Nat} {lo₀ hi₀ : Option α} {p : path_t α β}
    {lo hi : Option α} {c : color_t} {n : Nat} {ll rr : List (α × β)}
    (hp : PathOK c₀ n₀ lo₀ hi₀ p lo hi c n ll rr) :
    ∀ (t : node_t α β) (kt : α), t.key? = some kt → bdd lo kt hi →
      PathOK c₀ n₀ lo₀ hi₀ (cloneStack p t) lo hi c n ll rr := by
  induction hp with
  | root => intro t kt _ _; exact .root
  | @redL rest lo hi n ll rr k v l r hrest hbdd hbr hor ih =>
    intro t kt hkey hb
    match t, hkey with
    | .node kvp tl tr tc, hkey =>
      simp [node_t.key?] at hkey
      have hkt : kvp.1 < k := by rw [hkey]; exact hb.2
      have hside : key_side (.node (k, v) l r .RED) (.node kvp tl tr tc) = .LEFT := by
        simp [key_side, node_t.key?, hkt]
      show PathOK c₀ n₀ lo₀ hi₀
        ((node_t.node (k, v) l r .RED).set_child
            (key_side (.node (k, v) l r .RED) (.node kvp tl tr tc)) (.node kvp tl tr tc)
          :: cloneStack rest ((node_t.node (k, v) l r .RED).set_child
            (key_side (.node (k, v) l r .RED) (.node kvp tl tr tc)) (.node kvp tl tr tc)))
        lo (some k) .BLACK n ll ((k, v) :: (r.foreach ++ rr))
      rw [hside]
      exact .redL (ih _ k (by simp [node_t.set_child, node_t.key?]) hbdd) hbdd hbr hor
  | @redR rest lo hi n ll rr k v l r hrest hbdd hbl hol ih =>
    intro t kt hkey hb
    match t, hkey with
    | .node kvp tl tr tc, hkey =>
      simp [node_t.key?] at hkey
      have hkt : k < kvp.1 := by rw [hkey]; exact hb.1
      have hside : key_side (.node (k, v) l r .RED) (.node kvp tl tr tc) = .RIGHT := by
        simp [key_side, node_t.key?, not_lt_of_gt hkt]
      show PathOK c₀ n₀ lo₀ hi₀
        ((node_t.node (k, v) l r .RED).set_child
            (key_side (.node (k, v) l r .RED) (.node kvp tl tr tc)) (.node kvp tl tr tc)
          :: cloneStack rest ((node_t.node (k, v) l r .RED).set_child
            (key_side (.node (k, v) l r .RED) (.node kvp tl tr tc)) (.node kvp tl tr tc)))
        (some k) hi .BLACK n (ll ++ l.foreach ++ [(k, v)]) rr
      rw [hside]
      exact .redR (ih _ k (by simp [node_t.set_child, node_t.key?]) hbdd) hbdd hbl hol
  | @blackL rest lo hi n ll rr k v l r cr c' hrest hbdd hbr hor ih =>
    intro t kt hkey hb
    match t, hkey with
    | .node kvp tl tr tc, hkey =>
      simp [node_t.key?] at hkey
      have hkt : kvp.1 < k := by rw [hkey]; exact hb.2
      have hside : key_side (.node (k, v) l r .BLACK) (.node kvp tl tr tc) = .LEFT := by
        simp [key_side, node_t.key?, hkt]
      show PathOK c₀ n₀ lo₀ hi₀
        ((node_t.node (k, v) l r .BLACK).set_child
            (key_side (.node (k, v) l r .BLACK) (.node kvp tl tr tc)) (.node kvp tl tr tc)
          :: cloneStack rest ((node_t.node (k, v) l r .BLACK).set_child
            (key_side (.node (k, v) l r .BLACK) (.node kvp tl tr tc)) (.node kvp tl tr tc)))
        lo (some k) c' n ll ((k, v) :: (r.foreach ++ rr))
      rw [hside]
      exact .blackL (ih _ k (by simp [node_t.set_child, node_t.key?]) hbdd) hbdd hbr hor
  | @blackR rest lo hi n ll rr k v l r cl c' hrest hbdd hbl hol ih =>
    intro t kt hkey hb
    match t, hkey with
    | .node kvp tl tr tc, hkey =>
      simp [node_t.key?] at hkey
      have hkt : k < kvp.1 := by rw [hkey]; exact hb.1
      have hside : key_side (.node (k, v) l r .BLACK) (.node kvp tl tr tc) = .RIGHT := by
        simp [key_side, node_t.key?, not_lt_of_gt hkt]
      show PathOK c₀ n₀ lo₀ hi₀
        ((node_t.node (k, v) l r .BLACK).set_child
            (key_side (.node (k, v) l r .BLACK) (.node kvp tl tr tc)) (.node kvp tl tr tc)
          :: cloneStack rest ((node_t.node (k, v) l r .BLACK).set_child
            (key_side (.node (k, v) l r .BLACK) (.node kvp tl tr tc)) (.node kvp tl tr tc)))
        (some k) hi c' n (ll ++ l.foreach ++ [(k, v)]) rr
      rw [hside]
      exact .blackR (ih _ k (by simp [node_t.set_child, node_t.key?]) hbdd) hbdd hbl hol

/-- Searching a rebuilt tree for a key that lies inside the hole interval
first walks exactly through the rebuilt ancestors. -/
theorem find_clone {c₀ : color_t} {n₀ : Nat} {lo₀ hi₀ : Option α} {p : path_t α β}
    {lo hi : Option α} {c : color_t} {n : Nat} {ll rr : List (α × β)}
    (hp : PathOK c₀ n₀ lo₀ hi₀ p lo hi c n ll rr) :
    ∀ (t : node_t α β) (kt : α), t.key? = some kt → bdd lo kt hi →
      ∀ (key : α) (acc : path_t α β), bdd lo key hi →
        find_loop (clone_path p t) acc key = find_loop t (cloneStack p t ++ acc) key := by
  induction hp with
  | root => intro t kt _ _ key acc _; simp [clone_path, cloneStack]
  | @redL rest lo hi n ll rr k v l r hrest hbdd hbr hor ih =>
    intro t kt hkt hbt key acc hbkey
    match t, hkt with
    | .node kvp tl tr tc, hkt =>
      simp [node_t.key?] at hkt
      have hklt : kvp.1 < k := by rw [hkt]; exact hbt.2
      have hside : key_side (.node (k, v) l r .RED) (.node kvp tl tr tc) = .LEFT := by
        simp [key_side, node_t.key?, hklt]
      have hkey_lt : key < k := hbkey.2
      have e1 : clone_path ((node_t.node (k, v) l r .RED) :: rest) (.node kvp tl tr tc)
          = clone_path rest (.node (k, v) (.node kvp tl tr tc) r .RED) := by
        simp [clone_path, hside, node_t.set_child]
      have e2 : cloneStack ((node_t.node (k, v) l r .RED) :: rest) (.node kvp tl tr tc)
          = (node_t.node (k, v) (.node kvp tl tr tc) r .RED)
            :: cloneStack rest (.node (k, v) (.node kvp tl tr tc) r .RED) := by
        simp [cloneStack, hside, node_t.set_child]
      rw [e1, e2]
      rw [ih (.node (k, v) (.node kvp tl tr tc) r .RED) k (by simp [node_t.key?]) hbdd key acc
        ⟨hbkey.1, bddHi_of_lt_of_bddHi hkey_lt hbdd.2⟩]
      simp [find_loop, ne_of_gt hkey_lt, gt_iff_lt, hkey_lt]
  | @redR rest lo hi n ll rr k v l r hrest hbdd hbl hol ih =>
    intro t kt hkt hbt key acc hbkey
    match t, hkt with
    | .node kvp tl tr tc, hkt =>
      simp [node_t.key?] at hkt
      have hklt : k < kvp.1 := by rw [hkt]; exact hbt.1
      have hside : key_side (.node (k, v) l r .RED) (.node kvp tl tr tc) = .RIGHT := by
        simp [key_side, node_t.key?, not_lt_of_gt hklt]
      have hkey_gt : k < key := hbkey.1
      have e1 : clone_path ((node_t.node (k, v) l r .RED) :: rest) (.node kvp tl tr tc)
          = clone_path rest (.node (k, v) l (.node kvp tl tr tc) .RED) := by
        simp [clone_path, hside, node_t.set_child]
      have e2 : cloneStack ((node_t.node (k, v) l r .RED) :: rest) (.node kvp tl tr tc)
          = (node_t.node (k, v) l (.node kvp tl tr tc) .RED)
            :: cloneStack rest (.node (k, v) l (.node kvp tl tr tc) .RED) := by
        simp [cloneStack, hside, node_t.set_child]
      rw [e1, e2]
      rw [ih (.node (k, v) l (.node kvp tl tr tc) .RED) k (by simp [node_t.key?]) hbdd key acc
        ⟨bddLo_of_bddLo_of_lt hbdd.1 hkey_gt, hbkey.2⟩]
      simp [find_loop, ne_of_lt hkey_gt, gt_iff_lt, not_lt_of_gt hkey_gt]
  | @blackL rest lo hi n ll rr k v l r cr c' hrest hbdd hbr hor ih =>
    intro t kt hkt hbt key acc hbkey
    match t, hkt with
    | .node kvp tl tr tc, hkt =>
      simp [node_t.key?] at hkt
      have hklt : kvp.1 < k := by rw [hkt]; exact hbt.2
      have hside : key_side (.node (k, v) l r .BLACK) (.node kvp tl tr tc) = .LEFT := by
        simp [key_side, node_t.key?, hklt]
      have hkey_lt : key < k := hbkey.2
      have e1 : clone_path ((node_t.node (k, v) l r .BLACK) :: rest) (.node kvp tl tr tc)
          = clone_path rest (.node (k, v) (.node kvp tl tr tc) r .BLACK) := by
        simp [clone_path, hside, node_t.set_child]
      have e2 : cloneStack ((node_t.node (k, v) l r .BLACK) :: rest) (.node kvp tl tr tc)
          = (node_t.node (k, v) (.node kvp tl tr tc) r .BLACK)
            :: cloneStack rest (.node (k, v) (.node kvp tl tr tc) r .BLACK) := by
        simp [cloneStack, hside, node_t.set_child]
      rw [e1, e2]
      rw [ih (.node (k, v) (.node kvp tl tr tc) r .BLACK) k (by simp [node_t.key?]) hbdd key acc
        ⟨hbkey.1, bddHi_of_lt_of_bddHi hkey_lt hbdd.2⟩]
      simp [find_loop, ne_of_gt hkey_lt, gt_iff_lt, hkey_lt]
  | @blackR rest lo hi n ll rr k v l r cl c' hrest hbdd hbl hol ih =>
    intro t kt hkt hbt key acc hbkey
    match t, hkt with
    | .node kvp tl tr tc, hkt =>
      simp [node_t.key?] at hkt
      have hklt : k < kvp.1 := by rw [hkt]; exact hbt.1
      have hside : key_side (.node (k, v) l r .BLACK) (.node kvp tl tr tc) = .RIGHT := by
        simp [key_side, node_t.key?, not_lt_of_gt hklt]
      have hkey_gt : k < key := hbkey.1
      have e1 : clone_path ((node_t.node (k, v) l r .BLACK) :: rest) (.node kvp tl tr tc)
          = clone_path rest (.node (k, v) l (.node kvp tl tr tc) .BLACK) := by
        simp [clone_path, hside, node_t.set_child]
      have e2 : cloneStack ((node_t.node (k, v) l r .BLACK) :: rest) (.node kvp tl tr tc)
          = (node_t.node (k, v) l (.node kvp tl tr tc) .BLACK)
            :: cloneStack rest (.node (k, v) l (.node kvp tl tr tc) .BLACK) := by
        simp [cloneStack, hside, node_t.set_child]
      rw [e1, e2]
      rw [ih (.node (k, v) l (.node kvp tl tr tc) .BLACK) k (by simp [node_t.key?]) hbdd key acc
        ⟨bddLo_of_bddLo_of_lt hbdd.1 hkey_gt, hbkey.2⟩]
      simp [find_loop, ne_of_lt hkey_gt, gt_iff_lt, not_lt_of_gt hkey_gt]

/-- What a successful search yields: the matched node together with a valid
path to it. -/
def FindFound (n₀ : Nat) (p : path_t α β) (key : α) (full : List (α × β)) : Prop :=
  ∃ (kvp : α × β) (l r : node_t α β) (xc : color_t) (rest : path_t α β)
    (lo' hi' : Option α) (n' : Nat) (ll' rr' : List (α × β)),
    p = .node kvp l r xc :: rest ∧ kvp.1 = key ∧
    PathOK .BLACK n₀ none none rest lo' hi' xc n' ll' rr' ∧
    BalancedRB (.node kvp l r xc) xc n' ∧ OrderedB lo' hi' (.node kvp l r xc) ∧
    bdd lo' key hi' ∧
    ll' ++ (node_t.node kvp l r xc).foreach ++ rr' = full

/-- What a failed search yields: a valid path to an empty hole that admits
the searched key. -/
def FindAbsent (n₀ : Nat) (p : path_t α β) (key : α) (full : List (α × β)) : Prop :=
  ∃ (lo' hi' : Option α) (c' : color_t) (ll' rr' : List (α × β)),
    PathOK .BLACK n₀ none none p lo' hi' c' 0 ll' rr' ∧
    bdd lo' key hi' ∧ ll' ++ rr' = full

/-- The search-path decomposition: starting from a valid accumulated path
and a fitting ordered balanced subtree, `find_loop` ends in one of the two
characterized configurations. -/
theorem find_loop_spec {n₀ : Nat} :
    ∀ (t : node_t α β) (lo hi : Option α) (c : color_t) (n : Nat) (acc : path_t α β)
      (ll rr : List (α × β)) (key : α),
      OrderedB lo hi t → BalancedRB t c n →
      PathOK .BLACK n₀ none none acc lo hi c n ll rr → bdd lo key hi →
      ((find_loop t acc key).2 = true →
        FindFound n₀ (find_loop t acc key).1 key (ll ++ t.foreach ++ rr)) ∧
      ((find_loop t acc key).2 = false →
        FindAbsent n₀ (find_loop t acc key).1 key (ll ++ t.foreach ++ rr)) := by
  intro t
  induction t with
  | null =>
    intro lo hi c n acc ll rr key ht hb hp hkey
    obtain ⟨hc, hn⟩ := hb.null_inv
    subst hc hn
    refine ⟨fun h => by simp [find_loop] at h, fun _ => ?_⟩
    exact ⟨lo, hi, .BLACK, ll, rr, hp, hkey, by simp [node_t.foreach]⟩
  | node kvp l r xc ihl ihr =>
    intro lo hi c n acc ll rr key ht hb hp hkey
    obtain ⟨hk, hol, hor⟩ := ht
    by_cases heq : kvp.1 = key
    · have hres : find_loop (.node kvp l r xc) acc key = (node_t.node kvp l r xc :: acc, true) := by
        simp [find_loop, heq]
      rw [hres]
      refine ⟨fun _ => ?_, fun h => by simp at h⟩
      have hc : c = xc := by
        have := hb.color_eq; simp [node_t.get_color] at this; exact this.symm
      exact ⟨kvp, l, r, xc, acc, lo, hi, n, ll, rr, rfl, heq, hc ▸ hp, hc ▸ hb,
        ⟨hk, hol, hor⟩, heq ▸ hk, rfl⟩
    · by_cases hgt : kvp.1 > key
      · have hres : find_loop (.node kvp l r xc) acc key
            = find_loop l (node_t.node kvp l r xc :: acc) key := by
          simp [find_loop, heq, hgt]
        rw [hres]
        have hkey' : bdd lo key (some kvp.1) := ⟨hkey.1, hgt⟩
        cases hb with
        | red hbl hbr =>
          have hp' : PathOK .BLACK n₀ none none (node_t.node kvp l r .RED :: acc)
              lo (some kvp.1) .BLACK n ll (kvp :: (r.foreach ++ rr)) := .redL hp hk hbr hor
          have := ihl lo (some kvp.1) .BLACK n _ ll (kvp :: (r.foreach ++ rr)) key hol hbl hp' hkey'
          simpa [node_t.foreach] using this
        | @black _ _ _ cl cr m hbl hbr =>
          have hp' : PathOK .BLACK n₀ none none (node_t.node kvp l r .BLACK :: acc)
              lo (some kvp.1) cl m ll (kvp :: (r.foreach ++ rr)) := .blackL hp hk hbr hor
          have := ihl lo (some kvp.1) cl m _ ll (kvp :: (r.foreach ++ rr)) key hol hbl hp' hkey'
          simpa [node_t.foreach] using this
      · have hlt : kvp.1 < key := lt_of_le_of_ne (not_lt.1 hgt) heq
        have hres : find_loop (.node kvp l r xc) acc key
            = find_loop r (node_t.node kvp l r xc :: acc) key := by
          simp [find_loop, heq, hgt]
        rw [hres]
        have hkey' : bdd (some kvp.1) key hi := ⟨hlt, hkey.2⟩
        cases hb with
        | red hbl hbr =>
          have hp' : PathOK .BLACK n₀ none none (node_t.node kvp l r .RED :: acc)
              (some kvp.1) hi .BLACK n (ll ++ l.foreach ++ [kvp]) rr := .redR hp hk hbl hol
          have := ihr (some kvp.1) hi .BLACK n _ (ll ++ l.foreach ++ [kvp]) rr key hor hbr hp' hkey'
          simpa [node_t.foreach] using this
        | @black _ _ _ cl cr m hbl hbr =>
          have hp' : PathOK .BLACK n₀ none none (node_t.node kvp l r .BLACK :: acc)
              (some kvp.1) hi cr m (ll ++ l.foreach ++ [kvp]) rr := .blackR hp hk hbl hol
          have := ihr (some kvp.1) hi cr m _ (ll ++ l.foreach ++ [kvp]) rr key hor hbr hp' hkey'
          simpa [node_t.foreach] using this

theorem foreach_set_color (t : node_t α β) (c : color_t) :
    (t.set_color c).foreach = t.foreach := by
  cases t <;> simp [node_t.set_color, node_t.foreach]

theorem OrderedB_set_color {lo hi : Option α} (t : node_t α β) (c : color_t) :
    OrderedB lo hi (t.set_color c) ↔ OrderedB lo hi t := by
  cases t <;> simp [node_t.set_color, OrderedB]

theorem is_black_iff (t : node_t α β) : t.is_black = true ↔ t.get_color = .BLACK := by
  cases t with
  | null => simp [node_t.is_black, node_t.get_color]
  | node kvp l r c => cases c <;> simp [node_t.is_black, node_t.get_color]

/-- The empty-path case of the insertion fixup: the new node becomes the
blackened root. -/
theorem insert_fix_nil_ok {n₀ : Nat} {lo hi : Option α} {c : color_t} {n : Nat}
    {ll rr : List (α × β)} {t : node_t α β}
    (hp : PathOK .BLACK n₀ none none [] lo hi c n ll rr)
    (ht : OrderedB lo hi t) (hb : BalancedRB t .RED n) :
    OrderedB none none (insert_fix [] t) ∧ (∃ m, BalancedRB (insert_fix [] t) .BLACK m) ∧
      (insert_fix [] t).foreach = ll ++ t.foreach ++ rr := by
  cases hb with
  | @red tkvp tl tr _ htbl htbr =>
    cases hp
    refine ⟨?_, ⟨_, .black htbl htbr⟩, ?_⟩
    · simp only [insert_fix, node_t.set_color]
      exact (OrderedB_set_color _ _).2 ht
    · simp [insert_fix, foreach_set_color]

/-- Correctness of the bottom-up insertion fixup, by induction on a bound
for the path length. -/
theorem insert_fix_ok_aux {n₀ : Nat} : ∀ (N : Nat) (p : path_t α β), p.length ≤ N →
    ∀ (lo hi : Option α) (c : color_t) (n : Nat) (ll rr : List (α × β)) (t : node_t α β),
      PathOK .BLACK n₀ none none p lo hi c n ll rr →
      OrderedB lo hi t → BalancedRB t .RED n →
      OrderedB none none (insert_fix p t) ∧ (∃ m, BalancedRB (insert_fix p t) .BLACK m) ∧
        (insert_fix p t).foreach = ll ++ t.foreach ++ rr := by
  intro N
  induction N with
  | zero =>
    intro p hlen lo hi c n ll rr t hp ht hb
    cases p with
    | nil => exact insert_fix_nil_ok hp ht hb
    | cons x rest => simp at hlen
  | succ N ih =>
    intro p hlen lo hi c n ll rr t hp ht hb
    cases hb with
    | @red tkvp tl tr _ htbl htbr =>
    match p, hp with
    | [], hp => exact insert_fix_nil_ok hp ht (.red htbl htbr)
    | x :: rest, hp =>
    by_cases hblk : x.is_black
    · have hred : ¬ (node_t.node tkvp tl tr .RED) = node_t.null := by simp
      have hp' : PathOK .BLACK n₀ none none (x :: rest) lo hi .RED n ll rr :=
        hp.recolor ((is_black_iff x).1 hblk) .RED
      have hfill := hp'.fill (.node tkvp tl tr .RED) ht (.red htbl htbr) (fun h => absurd h hred)
      have hEq : insert_fix (x :: rest) (.node tkvp tl tr .RED)
          = clone_path (x :: rest) (.node tkvp tl tr .RED) := by
        rw [insert_fix.eq_def]; simp [hblk]
      rw [hEq]
      exact ⟨hfill.1, ⟨n₀, hfill.2.1⟩, hfill.2.2⟩
    · cases hp with
      | @blackL rest lo hi n ll rr k v l r cr c' hrest hbdd hbr hor =>
        simp [node_t.is_black] at hblk
      | @blackR rest lo hi n ll rr k v l r cl c' hrest hbdd hbl hol =>
        simp [node_t.is_black] at hblk
      | @redL rest lo hi n ll rr k v l r hrest hbdd hbr hor =>
        obtain ⟨hkt, htl', htr'⟩ := ht
        have hk1 : tkvp.1 < k := hkt.2
        obtain ⟨ky, vy, ly, ry, rest2, hrest_eq⟩ := hrest.red_hole_head_black
        subst hrest_eq
        have hns : key_side (.node (k, v) l r .RED) (.node tkvp tl tr .RED) = side_t.LEFT := by
          simp [key_side, node_t.key?, hk1]
        cases hrest with
        | @blackL _ _ hi2 _ _ rr2 _ _ _ _ cr _ hrest2 hbdd2 hbr2 hor2 =>
          -- x is the left child of the black grandparent y (straight-line shape)
          have hk2 : k < ky := hbdd.2
          have hps : key_side (.node (ky, vy) ly ry .BLACK) (.node (k, v) l r .RED)
              = side_t.LEFT := by
            simp [key_side, node_t.key?, hk2]
          by_cases hur : ry.is_red
          · -- red uncle: recolor and recurse two levels up
            have hcr : cr = .RED := hbr2.red_of_is_red hur
            subst hcr
            cases hbr2 with
            | @red ukvp ul ur _ hul hur' =>
              have hEq : insert_fix
                  ((node_t.node (k, v) l r .RED)
                    :: (node_t.node (ky, vy) ly (.node ukvp ul ur .RED) .BLACK) :: rest2)
                  (.node tkvp tl tr .RED)
                  = insert_fix rest2
                    (.node (ky, vy)
                      (.node (k, v) (.node tkvp tl tr .RED) r .BLACK)
                      (.node ukvp ul ur .BLACK) .RED) := by
                rw [insert_fix.eq_def]
                simp [node_t.is_black, hns, hps, side_t.other, node_t.get_child,
                  node_t.is_red, node_t.set_color, node_t.set_child]
              rw [hEq]
              have hrec := ih rest2 (by simp at hlen; omega) lo hi2 .BLACK (n + 1) ll rr2
                (.node (ky, vy)
                  (.node (k, v) (.node tkvp tl tr .RED) r .BLACK)
                  (.node ukvp ul ur .BLACK) .RED)
                hrest2
                ⟨hbdd2, ⟨hbdd, ⟨hkt, htl', htr'⟩, hor⟩, hor2⟩
                (.red (.black (.red htbl htbr) hbr) (.black hul hur'))
              refine ⟨hrec.1, hrec.2.1, ?_⟩
              rw [hrec.2.2]
              simp [node_t.foreach]
          · -- black or absent uncle, straight line: single rebuild
            have hcr : cr = .BLACK := hbr2.black_of_not_red (by simpa using hur)
            subst hcr
            have hnp : ¬ (node_t.node (k, v) (.node tkvp tl tr .RED)
                (.node (ky, vy) r ry .RED) .BLACK) = node_t.null := by simp
            have hfill := hrest2.fill
              (.node (k, v) (.node tkvp tl tr .RED) (.node (ky, vy) r ry .RED) .BLACK)
              ⟨⟨hbdd.1, bddHi_of_lt_of_bddHi hk2 hbdd2.2⟩, ⟨hkt, htl', htr'⟩,
                ⟨⟨hk2, hbdd2.2⟩, hor, hor2⟩⟩
              (.black (.red htbl htbr) (.red hbr hbr2))
              (fun h => absurd h hnp)
            have hEq : insert_fix
                ((node_t.node (k, v) l r .RED) :: (node_t.node (ky, vy) ly ry .BLACK) :: rest2)
                (.node tkvp tl tr .RED)
                = clone_path rest2
                  (.node (k, v) (.node tkvp tl tr .RED) (.node (ky, vy) r ry .RED) .BLACK) := by
              rw [insert_fix.eq_def]
              simp [node_t.is_black, hns, hps, side_t.other, node_t.get_child, hur,
                node_t.set_color, node_t.set_child]
            rw [hEq]
            refine ⟨hfill.1, ⟨n₀, hfill.2.1⟩, ?_⟩
            rw [hfill.2.2]
            simp [node_t.foreach]
        | @blackR _ lo2 _ _ ll2 _ _ _ _ _ cl _ hrest2 hbdd2 hbl2 hol2 =>
          -- x is the right child of the black grandparent y (zig-zag shape)
          have hk2 : ky < k := hbdd.1
          have hps : key_side (.node (ky, vy) ly ry .BLACK) (.node (k, v) l r .RED)
              = side_t.RIGHT := by
            simp [key_side, node_t.key?, not_lt_of_gt hk2]
          by_cases hur : ly.is_red
          · -- red uncle: recolor and recurse two levels up
            have hcl : cl = .RED := hbl2.red_of_is_red hur
            subst hcl
            cases hbl2 with
            | @red ukvp ul ur _ hul hur' =>
              have hEq : insert_fix
                  ((node_t.node (k, v) l r .RED)
                    :: (node_t.node (ky, vy) (.node ukvp ul ur .RED) ry .BLACK) :: rest2)
                  (.node tkvp tl tr .RED)
                  = insert_fix rest2
                    (.node (ky, vy) (.node ukvp ul ur .BLACK)
                      (.node (k, v) (.node tkvp tl tr .RED) r .BLACK) .RED) := by
                rw [insert_fix.eq_def]
                simp [node_t.is_black, hns, hps, side_t.other, node_t.get_child,
                  node_t.is_red, node_t.set_color, node_t.set_child]
              rw [hEq]
              have hrec := ih rest2 (by simp at hlen; omega) lo2 hi .BLACK (n + 1) ll2 rr
                (.node (ky, vy) (.node ukvp ul ur .BLACK)
                  (.node (k, v) (.node tkvp tl tr .RED) r .BLACK) .RED)
                hrest2
                ⟨hbdd2, hol2, ⟨hbdd, ⟨hkt, htl', htr'⟩, hor⟩⟩
                (.red (.black hul hur') (.black (.red htbl htbr) hbr))
              refine ⟨hrec.1, hrec.2.1, ?_⟩
              rw [hrec.2.2]
              simp [node_t.foreach]
          · -- black or absent uncle; zig-zag: double rebuild around the new node
            have hcl : cl = .BLACK := hbl2.black_of_not_red (by simpa using hur)
            subst hcl
            have hnp : ¬ (node_t.node tkvp
                (.node (ky, vy) ly tl .RED) (.node (k, v) tr r .RED) .BLACK)
                = node_t.null := by simp
            have hfill := hrest2.fill
              (.node tkvp (.node (ky, vy) ly tl .RED) (.node (k, v) tr r .RED) .BLACK)
              ⟨⟨bddLo_of_bddLo_of_lt hbdd2.1 hkt.1, bddHi_of_lt_of_bddHi hk1 hbdd.2⟩,
                ⟨⟨hbdd2.1, hkt.1⟩, hol2, htl'⟩,
                ⟨⟨hk1, hbdd.2⟩, htr', hor⟩⟩
              (.black (.red hbl2 htbl) (.red htbr hbr))
              (fun h => absurd h hnp)
            have hEq : insert_fix
                ((node_t.node (k, v) l r .RED) :: (node_t.node (ky, vy) ly ry .BLACK) :: rest2)
                (.node tkvp tl tr .RED)
                = clone_path rest2
                  (.node tkvp (.node (ky, vy) ly tl .RED) (.node (k, v) tr r .RED) .BLACK) := by
              rw [insert_fix.eq_def]
              simp [node_t.is_black, hns, hps, side_t.other, node_t.get_child, hur,
                node_t.set_color, node_t.set_child]
            rw [hEq]
            refine ⟨hfill.1, ⟨n₀, hfill.2.1⟩, ?_⟩
            rw [hfill.2.2]
            simp [node_t.foreach]
      | @redR rest lo hi n ll rr k v l r hrest hbdd hbl hol =>
        obtain ⟨hkt, htl', htr'⟩ := ht
        have hk1 : k < tkvp.1 := hkt.1
        obtain ⟨ky, vy, ly, ry, rest2, hrest_eq⟩ := hrest.red_hole_head_black
        subst hrest_eq
        have hns : key_side (.node (k, v) l r .RED) (.node tkvp tl tr .RED)
            = side_t.RIGHT := by
          simp [key_side, node_t.key?, not_lt_of_gt hk1]
        cases hrest with
        | @blackL _ _ hi2 _ _ rr2 _ _ _ _ cr _ hrest2 hbdd2 hbr2 hor2 =>
          -- x is the left child of the black grandparent y (zig-zag shape)
          have hk2 : k < ky := hbdd.2
          have hps : key_side (.node (ky, vy) ly ry .BLACK) (.node (k, v) l r .RED)
              = side_t.LEFT := by
            simp [key_side, node_t.key?, hk2]
          by_cases hur : ry.is_red
          · have hcr : cr = .RED := hbr2.red_of_is_red hur
            subst hcr
            cases hbr2 with
            | @red ukvp ul ur _ hul hur' =>
              have hEq : insert_fix
                  ((node_t.node (k, v) l r .RED)
                    :: (node_t.node (ky, vy) ly (.node ukvp ul ur .RED) .BLACK) :: rest2)
                  (.node tkvp tl tr .RED)
                  = insert_fix rest2
                    (.node (ky, vy)
                      (.node (k, v) l (.node tkvp tl tr .RED) .BLACK)
                      (.node ukvp ul ur .BLACK) .RED) := by
                rw [insert_fix.eq_def]
                simp [node_t.is_black, hns, hps, side_t.other, node_t.get_child,
                  node_t.is_red, node_t.set_color, node_t.set_child]
              rw [hEq]
              have hrec := ih rest2 (by simp at hlen; omega) lo hi2 .BLACK (n + 1) ll rr2
                (.node (ky, vy)
                  (.node (k, v) l (.node tkvp tl tr .RED) .BLACK)
                  (.node ukvp ul ur .BLACK) .RED)
                hrest2
                ⟨hbdd2, ⟨hbdd, hol, ⟨hkt, htl', htr'⟩⟩, hor2⟩
                (.red (.black hbl (.red htbl htbr)) (.black hul hur'))
              refine ⟨hrec.1, hrec.2.1, ?_⟩
              rw [hrec.2.2]
              simp [node_t.foreach]
          · -- black or absent uncle; zig-zag: double rebuild around the new node
            have hcr : cr = .BLACK := hbr2.black_of_not_red (by simpa using hur)
            subst hcr
            have hnp : ¬ (node_t.node tkvp
                (.node (k, v) l tl .RED) (.node (ky, vy) tr ry .RED) .BLACK)
                = node_t.null := by simp
            have hfill := hrest2.fill
              (.node tkvp (.node (k, v) l tl .RED) (.node (ky, vy) tr ry .RED) .BLACK)
              ⟨⟨bddLo_of_bddLo_of_lt hbdd.1 hk1, bddHi_of_lt_of_bddHi hkt.2 hbdd2.2⟩,
                ⟨⟨hbdd.1, hk1⟩, hol, htl'⟩,
                ⟨⟨hkt.2, hbdd2.2⟩, htr', hor2⟩⟩
              (.black (.red hbl htbl) (.red htbr hbr2))
              (fun h => absurd h hnp)
            have hEq : insert_fix
                ((node_t.node (k, v) l r .RED) :: (node_t.node (ky, vy) ly ry .BLACK) :: rest2)
                (.node tkvp tl tr .RED)
                = clone_path rest2
                  (.node tkvp (.node (k, v) l tl .RED) (.node (ky, vy) tr ry .RED) .BLACK) := by
              rw [insert_fix.eq_def]
              simp [node_t.is_black, hns, hps, side_t.other, node_t.get_child, hur,
                node_t.set_color, node_t.set_child]
            rw [hEq]
            refine ⟨hfill.1, ⟨n₀, hfill.2.1⟩, ?_⟩
            rw [hfill.2.2]
            simp [node_t.foreach]
        | @blackR _ lo2 _ _ ll2 _ _ _ _ _ cl _ hrest2 hbdd2 hbl2 hol2 =>
          -- x is the right child of the black grandparent y (straight-line shape)
          have hk2 : ky < k := hbdd.1
          have hps : key_side (.node (ky, vy) ly ry .BLACK) (.node (k, v) l r .RED)
              = side_t.RIGHT := by
            simp [key_side, node_t.key?, not_lt_of_gt hk2]
          by_cases hur : ly.is_red
          · have hcl : cl = .RED := hbl2.red_of_is_red hur
            subst hcl
            cases hbl2 with
            | @red ukvp ul ur _ hul hur' =>
              have hEq : insert_fix
                  ((node_t.node (k, v) l r .RED)
                    :: (node_t.node (ky, vy) (.node ukvp ul ur .RED) ry .BLACK) :: rest2)
                  (.node tkvp tl tr .RED)
                  = insert_fix rest2
                    (.node (ky, vy) (.node ukvp ul ur .BLACK)
                      (.node (k, v) l (.node tkvp tl tr .RED) .BLACK) .RED) := by
                rw [insert_fix.eq_def]
                simp [node_t.is_black, hns, hps, side_t.other, node_t.get_child,
                  node_t.is_red, node_t.set_color, node_t.set_child]
              rw [hEq]
              have hrec := ih rest2 (by simp at hlen; omega) lo2 hi .BLACK (n + 1) ll2 rr
                (.node (ky, vy) (.node ukvp ul ur .BLACK)
                  (.node (k, v) l (.node tkvp tl tr .RED) .BLACK) .RED)
                hrest2
                ⟨hbdd2, hol2, ⟨hbdd, hol, ⟨hkt, htl', htr'⟩⟩⟩
                (.red (.black hul hur') (.black hbl (.red htbl htbr)))
              refine ⟨hrec.1, hrec.2.1, ?_⟩
              rw [hrec.2.2]
              simp [node_t.foreach]
          · -- black or absent uncle, straight line on the right
            have hcl : cl = .BLACK := hbl2.black_of_not_red (by simpa using hur)
            subst hcl
            have hnp : ¬ (node_t.node (k, v) (.node (ky, vy) ly l .RED)
                (.node tkvp tl tr .RED) .BLACK) = node_t.null := by simp
            have hfill := hrest2.fill
              (.node (k, v) (.node (ky, vy) ly l .RED) (.node tkvp tl tr .RED) .BLACK)
              ⟨⟨bddLo_of_bddLo_of_lt hbdd2.1 hk2, hbdd.2⟩,
                ⟨⟨hbdd2.1, hk2⟩, hol2, hol⟩, ⟨hkt, htl', htr'⟩⟩
              (.black (.red hbl2 hbl) (.red htbl htbr))
              (fun h => absurd h hnp)
            have hEq : insert_fix
                ((node_t.node (k, v) l r .RED) :: (node_t.node (ky, vy) ly ry .BLACK) :: rest2)
                (.node tkvp tl tr .RED)
                = clone_path rest2
                  (.node (k, v) (.node (ky, vy) ly l .RED) (.node tkvp tl tr .RED) .BLACK) := by
              rw [insert_fix.eq_def]
              simp [node_t.is_black, hns, hps, side_t.other, node_t.get_child, hur,
                node_t.set_color, node_t.set_child]
            rw [hEq]
            refine ⟨hfill.1, ⟨n₀, hfill.2.1⟩, ?_⟩
            rw [hfill.2.2]
            simp [node_t.foreach]

/-- Correctness of the bottom-up insertion fixup. -/
theorem insert_fix_ok {n₀ : Nat} (p : path_t α β) (lo hi : Option α) (c : color_t) (n : Nat)
    (ll rr : List (α × β)) (t : node_t α β)
    (hp : PathOK .BLACK n₀ none none p lo hi c n ll rr)
    (ht : OrderedB lo hi t) (hb : BalancedRB t .RED n) :
    OrderedB none none (insert_fix p t) ∧ (∃ m, BalancedRB (insert_fix p t) .BLACK m) ∧
      (insert_fix p t).foreach = ll ++ t.foreach ++ rr :=
  insert_fix_ok_aux p.length p (le_refl _) lo hi c n ll rr t hp ht hb

/-! ### Association-list splice lemmas -/

theorem lookupKey_absent (L : List (α × β)) (k : α) (h : ∀ kv ∈ L, kv.1 ≠ k) :
    lookupKey L k = none := by
  induction L with
  | nil => rfl
  | cons kv rest ih =>
    simp [lookupKey, h kv (List.mem_cons_self kv rest)]
    exact ih fun x hx => h x (List.mem_cons_of_mem kv hx)

theorem lookupKey_splice (xs ys : List (α × β)) (kvp : α × β) (k : α)
    (hxs : ∀ kv ∈ xs, kv.1 ≠ k) (hk : kvp.1 = k) :
    lookupKey (xs ++ kvp :: ys) k = some kvp.2 := by
  induction xs with
  | nil => simp [lookupKey, hk]
  | cons x rest ih =>
    simp only [List.cons_append, lookupKey]
    rw [if_neg (hxs x (List.mem_cons_self x rest))]
    exact ih fun y hy => hxs y (List.mem_cons_of_mem x hy)

theorem listInsert_splice_replace (xs ys : List (α × β)) (kvp old : α × β)
    (hxs : ∀ kv ∈ xs, kv.1 < kvp.1) (hold : old.1 = kvp.1) :
    listInsert kvp (xs ++ old :: ys) = xs ++ kvp :: ys := by
  induction xs with
  | nil => simp [listInsert, hold]
  | cons x rest ih =>
    simp only [List.cons_append, listInsert, List.append_eq]
    rw [if_pos (hxs x (List.mem_cons_self x rest))]
    rw [ih fun y hy => hxs y (List.mem_cons_of_mem x hy)]

theorem listInsert_splice_new (xs ys : List (α × β)) (kvp : α × β)
    (hxs : ∀ kv ∈ xs, kv.1 < kvp.1) (hys : ∀ kv ∈ ys, kvp.1 < kv.1) :
    listInsert kvp (xs ++ ys) = xs ++ kvp :: ys := by
  induction xs with
  | nil =>
    cases ys with
    | nil => simp [listInsert]
    | cons y rest =>
      have := hys y (List.mem_cons_self y rest)
      simp [listInsert, not_lt_of_gt this, ne_of_gt this]
  | cons x rest ih =>
    simp only [List.cons_append, listInsert, List.append_eq]
    rw [if_pos (hxs x (List.mem_cons_self x rest))]
    rw [ih fun y hy => hxs y (List.mem_cons_of_mem x hy)]

theorem listErase_splice (xs ys : List (α × β)) (kvp : α × β) (k : α)
    (hxs : ∀ kv ∈ xs, kv.1 ≠ k) (hk : kvp.1 = k) :
    listErase k (xs ++ kvp :: ys) = xs ++ ys := by
  induction xs with
  | nil => simp [listErase, hk]
  | cons x rest ih =>
    simp only [List.cons_append, listErase, List.append_eq]
    rw [if_neg (hxs x (List.mem_cons_self x rest))]
    rw [ih fun y hy => hxs y (List.mem_cons_of_mem x hy)]

theorem listErase_absent (L : List (α × β)) (k : α) (h : ∀ kv ∈ L, kv.1 ≠ k) :
    listErase k L = L := by
  induction L with
  | nil => rfl
  | cons kv rest ih =>
    simp only [listErase]
    rw [if_neg (h kv (List.mem_cons_self kv rest))]
    rw [ih fun x hx => h x (List.mem_cons_of_mem kv hx)]

theorem PathOK.ll_lt {c₀ : color_t} {n₀ : Nat} {lo₀ hi₀ : Option α} {p : path_t α β}
    {lo hi : Option α} {c : color_t} {n : Nat} {ll rr : List (α × β)} {key : α}
    (hp : PathOK c₀ n₀ lo₀ hi₀ p lo hi c n ll rr) (hkey : bddLo lo key) :
    ∀ kv ∈ ll, kv.1 < key := by
  intro kv hkv
  obtain ⟨a, ha, hle⟩ := hp.ll_below kv hkv
  rw [ha] at hkey
  exact lt_of_le_of_lt hle hkey

theorem PathOK.rr_gt {c₀ : color_t} {n₀ : Nat} {lo₀ hi₀ : Option α} {p : path_t α β}
    {lo hi : Option α} {c : color_t} {n : Nat} {ll rr : List (α × β)} {key : α}
    (hp : PathOK c₀ n₀ lo₀ hi₀ p lo hi c n ll rr) (hkey : bddHi key hi) :
    ∀ kv ∈ rr, key < kv.1 := by
  intro kv hkv
  obtain ⟨b, hb, hle⟩ := hp.rr_above kv hkv
  rw [hb] at hkey
  exact lt_of_lt_of_le hkey hle

theorem BalancedRB.with_kvp {kvp kvp2 : α × β} {l r : node_t α β} {xc c : color_t} {n : Nat}
    (h : BalancedRB (.node kvp l r xc) c n) : BalancedRB (.node kvp2 l r xc) c n := by
  cases h with
  | red a b => exact .red a b
  | black a b => exact .black a b

/-! ### The reachable-map invariant and the master operation theorems -/

/-- The invariant maintained by every map reachable through the public API:
the root subtree is a binary search tree, it satisfies the red-black balance
invariant with a black root, and the stored size is the number of stored
pairs. -/
def Valid (m : immutable_map α β) : Prop :=
  OrderedB none none m.root_ ∧ (∃ n, BalancedRB m.root_ .BLACK n) ∧
    m.size_ = m.foreach.length

theorem empty_valid : Valid (immutable_map.empty : immutable_map α β) :=
  ⟨trivial, ⟨0, .null⟩, rfl⟩

/-- Everything `insert` guarantees: the invariant is preserved, the contents
are the sorted-association-list insertion, and the size grows exactly when
the key was absent. -/
theorem insert_ok (m : immutable_map α β) (kvp : α × β) (hv : Valid m) :
    Valid (m.insert kvp) ∧ (m.insert kvp).foreach = listInsert kvp m.foreach ∧
      (m.insert kvp).size_ = (if m.contains kvp.1 then m.size_ else m.size_ + 1) := by
  obtain ⟨hord, ⟨n₀, hbal⟩, hsz⟩ := hv
  rcases hfp : find_loop m.root_ [] kvp.1 with ⟨p, b⟩
  have hcont : m.contains kvp.1 = b := by simp [immutable_map.contains, hfp]
  have hspec := find_loop_spec m.root_ none none .BLACK n₀ [] [] [] kvp.1 hord hbal .root
    ⟨trivial, trivial⟩
  rw [hfp] at hspec
  cases b with
  | true =>
    obtain ⟨kvp', l, r, xc, rest, lo', hi', n', ll', rr', hpeq, hkey', hpath, hbal', hord',
      hbdd', hfull⟩ := hspec.1 rfl
    simp only [List.nil_append, List.append_nil] at hfull
    have hres : m.insert kvp
        = ⟨clone_path rest (.node kvp l r xc), m.size_⟩ := by
      simp [immutable_map.insert, hfp, hpeq, node_t.set_pair]
    have hord2 : OrderedB lo' hi' (.node kvp l r xc) := by
      obtain ⟨hb1, hb2, hb3⟩ := hord'
      rw [hkey'] at hb1 hb2 hb3
      exact ⟨hb1, hb2, hb3⟩
    have hfill := hpath.fill (.node kvp l r xc) hord2 hbal'.with_kvp (by simp)
    have hlt_ll : ∀ kv ∈ ll', kv.1 < kvp.1 := hpath.ll_lt hbdd'.1
    have hlt_l : ∀ kv ∈ l.foreach, kv.1 < kvp.1 := by
      intro kv hkv
      have := (hord'.2.1).foreach_bdd kv hkv
      rw [hkey'] at this
      exact this.2
    have hforeach : (m.insert kvp).foreach = listInsert kvp m.foreach := by
      rw [hres]
      show (clone_path rest (node_t.node kvp l r xc)).foreach = _
      rw [hfill.2.2]
      have hmfore : m.foreach = (ll' ++ l.foreach) ++ kvp' :: (r.foreach ++ rr') := by
        rw [show m.foreach = ll' ++ (node_t.node kvp' l r xc).foreach ++ rr' from hfull.symm]
        simp [node_t.foreach]
      rw [hmfore, listInsert_splice_replace _ _ _ kvp'
        (fun kv hkv => by
          rcases List.mem_append.1 hkv with h1 | h2
          · exact hlt_ll kv h1
          · exact hlt_l kv h2) hkey']
      simp [node_t.foreach]
    refine ⟨⟨?_, ⟨n₀, ?_⟩, ?_⟩, hforeach, ?_⟩
    · rw [hres]; exact hfill.1
    · rw [hres]; exact hfill.2.1
    · rw [hforeach]
      have : (m.insert kvp).size_ = m.size_ := by rw [hres]
      rw [this, hsz]
      have hmfore : m.foreach = (ll' ++ l.foreach) ++ kvp' :: (r.foreach ++ rr') := by
        rw [show m.foreach = ll' ++ (node_t.node kvp' l r xc).foreach ++ rr' from hfull.symm]
        simp [node_t.foreach]
      rw [hmfore, listInsert_splice_replace _ _ _ kvp'
        (fun kv hkv => by
          rcases List.mem_append.1 hkv with h1 | h2
          · exact hlt_ll kv h1
          · exact hlt_l kv h2) hkey']
      simp
    · rw [hcont]
      simp [hres]
  | false =>
    obtain ⟨lo', hi', c', ll', rr', hpath, hbdd', hfull⟩ := hspec.2 rfl
    simp only [List.nil_append, List.append_nil] at hfull
    have hlt_ll : ∀ kv ∈ ll', kv.1 < kvp.1 := hpath.ll_lt hbdd'.1
    have hgt_rr : ∀ kv ∈ rr', kvp.1 < kv.1 := hpath.rr_gt hbdd'.2
    cases hroot : m.root_ with
    | null =>
      have hpnil : p = [] := by
        rw [hroot] at hfp
        simpa [find_loop] using (congrArg Prod.fst hfp).symm
      have hres : m.insert kvp = ⟨.node kvp .null .null .BLACK, m.size_ + 1⟩ := by
        simp [immutable_map.insert, hroot, find_loop]
      have hmfore : m.foreach = [] := by simp [immutable_map.foreach, hroot, node_t.foreach]
      refine ⟨⟨?_, ⟨1, ?_⟩, ?_⟩, ?_, ?_⟩
      · rw [hres]; exact ⟨⟨trivial, trivial⟩, trivial, trivial⟩
      · rw [hres]; exact .black .null .null
      · rw [hres]; simp [immutable_map.foreach, node_t.foreach, hsz, hmfore, hroot]
      · rw [hres]; simp [immutable_map.foreach, node_t.foreach, hmfore, listInsert, hroot]
      · rw [hcont, hres]; simp
    | node rkvp rl rr2 rc =>
      have hres : m.insert kvp = ⟨insert_fix p (.node kvp .null .null .RED), m.size_ + 1⟩ := by
        rw [show m.insert kvp = (let fp := find_loop m.root_ [] kvp.1;
          if fp.2 then
            match fp.1 with
            | found :: rest => ⟨clone_path rest (found.set_pair kvp), m.size_⟩
            | [] => m
          else
            match m.root_ with
            | .null => ⟨.node kvp .null .null .BLACK, m.size_ + 1⟩
            | _ => ⟨insert_fix fp.1 (.node kvp .null .null .RED), m.size_ + 1⟩) from rfl]
        rw [hfp]
        simp only []
        rw [hroot]
        simp
      have hifix := insert_fix_ok p lo' hi' c' 0 ll' rr' (.node kvp .null .null .RED) hpath
        ⟨hbdd', trivial, trivial⟩ (.red .null .null)
      have hforeach : (m.insert kvp).foreach = listInsert kvp m.foreach := by
        rw [hres]
        show (insert_fix p (node_t.node kvp .null .null .RED)).foreach = _
        rw [hifix.2.2]
        rw [show m.foreach = ll' ++ rr' from hfull.symm]
        rw [listInsert_splice_new _ _ _ hlt_ll hgt_rr]
        simp [node_t.foreach]
      refine ⟨⟨?_, ?_, ?_⟩, hforeach, ?_⟩
      · rw [hres]; exact hifix.1
      · rw [hres]; exact hifix.2.1
      · rw [hforeach]
        have : (m.insert kvp).size_ = m.size_ + 1 := by rw [hres]
        rw [this, hsz]
        rw [show m.foreach = ll' ++ rr' from hfull.symm]
        rw [listInsert_splice_new _ _ _ hlt_ll hgt_rr]
        simp; omega
      · rw [hcont, hres]; simp

/-- `at` returns exactly the association-list lookup over the in-order
contents. -/
theorem atKey_spec (m : immutable_map α β) (key : α) (hv : Valid m) :
    m.atKey key = lookupKey m.foreach key := by
  obtain ⟨hord, ⟨n₀, hbal⟩, hsz⟩ := hv
  rcases hfp : find_loop m.root_ [] key with ⟨p, b⟩
  have hspec := find_loop_spec m.root_ none none .BLACK n₀ [] [] [] key hord hbal .root
    ⟨trivial, trivial⟩
  rw [hfp] at hspec
  cases b with
  | true =>
    obtain ⟨kvp', l, r, xc, rest, lo', hi', n', ll', rr', hpeq, hkey', hpath, hbal', hord',
      hbdd', hfull⟩ := hspec.1 rfl
    simp only [List.nil_append, List.append_nil] at hfull
    have hat : m.atKey key = some kvp'.2 := by
      simp [immutable_map.atKey, hfp, hpeq]
    rw [hat]
    have hmfore : m.foreach = (ll' ++ l.foreach) ++ kvp' :: (r.foreach ++ rr') := by
      rw [show m.foreach = ll' ++ (node_t.node kvp' l r xc).foreach ++ rr' from hfull.symm]
      simp [node_t.foreach]
    rw [hmfore, lookupKey_splice _ _ _ _
      (fun kv hkv => by
        rcases List.mem_append.1 hkv with h1 | h2
        · exact ne_of_lt (hpath.ll_lt hbdd'.1 kv h1)
        · have := (hord'.2.1).foreach_bdd kv h2
          rw [hkey'] at this
          exact ne_of_lt this.2) hkey']
  | false =>
    obtain ⟨lo', hi', c', ll', rr', hpath, hbdd', hfull⟩ := hspec.2 rfl
    simp only [List.nil_append, List.append_nil] at hfull
    have hat : m.atKey key = none := by simp [immutable_map.atKey, hfp]
    rw [hat]
    rw [show m.foreach = ll' ++ rr' from hfull.symm]
    rw [lookupKey_absent _ _ (fun kv hkv => by
      rcases List.mem_append.1 hkv with h1 | h2
      · exact ne_of_lt (hpath.ll_lt hbdd'.1 kv h1)
      · exact ne_of_gt (hpath.rr_gt hbdd'.2 kv h2))]

/-- `contains` agrees with the association-list lookup over the in-order
contents. -/
theorem contains_spec (m : immutable_map α β) (key : α) (hv : Valid m) :
    m.contains key = (lookupKey m.foreach key).isSome := by
  have h := atKey_spec m key hv
  obtain ⟨hord, ⟨n₀, hbal⟩, hsz⟩ := hv
  rcases hfp : find_loop m.root_ [] key with ⟨p, b⟩
  have hspec := find_loop_spec m.root_ none none .BLACK n₀ [] [] [] key hord hbal .root
    ⟨trivial, trivial⟩
  rw [hfp] at hspec
  cases b with
  | true =>
    obtain ⟨kvp', l, r, xc, rest, lo', hi', n', ll', rr', hpeq, hkey', hpath, hbal', hord',
      hbdd', hfull⟩ := hspec.1 rfl
    have hat : m.atKey key = some kvp'.2 := by
      simp [immutable_map.atKey, hfp, hpeq]
    rw [hat] at h
    simp [immutable_map.contains, hfp, h.symm]
  | false =>
    have hat : m.atKey key = none := by simp [immutable_map.atKey, hfp]
    rw [hat] at h
    simp [immutable_map.contains, hfp, h.symm]

theorem BalancedRB.not_red {t : node_t α β} {n : Nat} (h : BalancedRB t .BLACK n) :
    t.is_red = false := by
  cases h <;> rfl

theorem BalancedRB.is_red_true {t : node_t α β} {n : Nat} (h : BalancedRB t .RED n) :
    t.is_red = true := by
  cases h; rfl

/-- The restored black height of a subtree interface: a black node adds one
to the height of its children, a red node does not. -/
def ifaceH (xc : color_t) (nd : Nat) : Nat :=
  match xc with
  | .BLACK => nd + 2
  | .RED => nd + 1

/-- Correctness of `delete_fixup_1`: with a black sibling owning a red
child, the rotation restores the parent's original interface exactly,
preserving order and contents. -/
theorem delete_fixup_1_ok (kvp : α × β) (A B : node_t α β) (xc : color_t) (s : side_t)
    (nd : Nat) (lo hi : Option α)
    (hD : BalancedRB ((node_t.node kvp A B xc).get_child s) .BLACK nd)
    (hS : BalancedRB ((node_t.node kvp A B xc).get_child s.other) .BLACK (nd + 1))
    (hSred : ((node_t.node kvp A B xc).get_child s.other).has_red_child = true)
    (hord : OrderedB lo hi (.node kvp A B xc)) :
    BalancedRB (delete_fixup_1 (.node kvp A B xc) s) xc (ifaceH xc nd) ∧
    OrderedB lo hi (delete_fixup_1 (.node kvp A B xc) s) ∧
    (delete_fixup_1 (.node kvp A B xc) s).foreach = (node_t.node kvp A B xc).foreach := by
  obtain ⟨hk, hA, hB⟩ := hord
  cases s with
  | LEFT =>
    simp only [node_t.get_child, side_t.other] at hD hS hSred
    cases hS with
    | @black skvp SL SR c1 c2 _ hSL hSR =>
    obtain ⟨hsk, hSL', hSR'⟩ := hB
    by_cases h1 : SL.is_red
    · have hc1 : c1 = .RED := hSL.red_of_is_red h1
      subst hc1
      cases hSL with
      | @red s1kvp s1l s1r _ hs1l hs1r =>
      obtain ⟨hs1k, hs1l', hs1r'⟩ := hSL'
      have hres : delete_fixup_1 (.node kvp A (.node skvp (.node s1kvp s1l s1r .RED) SR .BLACK) xc)
          side_t.LEFT
          = .node s1kvp (.node kvp A s1l .BLACK) (.node skvp s1r SR .BLACK) xc := by
        rw [delete_fixup_1.eq_def]
        simp [node_t.get_child, side_t.other, node_t.is_red, node_t.get_color,
          node_t.set_color, node_t.set_child]
      rw [hres]
      refine ⟨?_, ?_, ?_⟩
      · cases xc with
        | RED => exact .red (.black hD hs1l) (.black hs1r hSR)
        | BLACK => exact .black (.black hD hs1l) (.black hs1r hSR)
      · exact ⟨⟨bddLo_of_bddLo_of_lt hk.1 hs1k.1,
          bddHi_of_lt_of_bddHi hs1k.2 hsk.2⟩,
          ⟨⟨hk.1, hs1k.1⟩, hA, hs1l'⟩,
          ⟨⟨hs1k.2, hsk.2⟩, hs1r', hSR'⟩⟩
      · simp [node_t.foreach]
    · have hc2 : SR.is_red := by
        simp [node_t.has_red_child, node_t.get_child, h1] at hSred
        exact hSred
      have hc1b : c1 = .BLACK := hSL.black_of_not_red (by simpa using h1)
      subst hc1b
      have hc2r : c2 = .RED := hSR.red_of_is_red hc2
      subst hc2r
      cases hSR with
      | @red s2kvp s2l s2r _ hs2l hs2r =>
      obtain ⟨hs2k, hs2l', hs2r'⟩ := hSR'
      have hres : delete_fixup_1 (.node kvp A (.node skvp SL (.node s2kvp s2l s2r .RED) .BLACK) xc)
          side_t.LEFT
          = .node skvp (.node kvp A SL .BLACK) (.node s2kvp s2l s2r .BLACK) xc := by
        rw [delete_fixup_1.eq_def]
        simp [node_t.get_child, side_t.other, node_t.get_color,
          node_t.set_color, node_t.set_child, h1]
      rw [hres]
      refine ⟨?_, ?_, ?_⟩
      · cases xc with
        | RED => exact .red (.black hD hSL) (.black hs2l hs2r)
        | BLACK => exact .black (.black hD hSL) (.black hs2l hs2r)
      · exact ⟨⟨bddLo_of_bddLo_of_lt hk.1 hsk.1, hsk.2⟩,
          ⟨⟨hk.1, hsk.1⟩, hA, hSL'⟩, ⟨hs2k, hs2l', hs2r'⟩⟩
      · simp [node_t.foreach]
  | RIGHT =>
    simp only [node_t.get_child, side_t.other] at hD hS hSred
    cases hS with
    | @black skvp SL SR c1 c2 _ hSL hSR =>
    obtain ⟨hsk, hSL', hSR'⟩ := hA
    by_cases h1 : SR.is_red
    · have hc2 : c2 = .RED := hSR.red_of_is_red h1
      subst hc2
      cases hSR with
      | @red s1kvp s1l s1r _ hs1l hs1r =>
      obtain ⟨hs1k, hs1l', hs1r'⟩ := hSR'
      have hres : delete_fixup_1 (.node kvp (.node skvp SL (.node s1kvp s1l s1r .RED) .BLACK) B xc)
          side_t.RIGHT
          = .node s1kvp (.node skvp SL s1l .BLACK) (.node kvp s1r B .BLACK) xc := by
        rw [delete_fixup_1.eq_def]
        simp [node_t.get_child, side_t.other, node_t.is_red, node_t.get_color,
          node_t.set_color, node_t.set_child]
      rw [hres]
      refine ⟨?_, ?_, ?_⟩
      · cases xc with
        | RED => exact .red (.black hSL hs1l) (.black hs1r hD)
        | BLACK => exact .black (.black hSL hs1l) (.black hs1r hD)
      · exact ⟨⟨bddLo_of_bddLo_of_lt hsk.1 hs1k.1,
          bddHi_of_lt_of_bddHi hs1k.2 hk.2⟩,
          ⟨⟨hsk.1, hs1k.1⟩, hSL', hs1l'⟩,
          ⟨⟨hs1k.2, hk.2⟩, hs1r', hB⟩⟩
      · simp [node_t.foreach]
    · have hc2 : SL.is_red := by
        simp [node_t.has_red_child, node_t.get_child, h1] at hSred
        exact hSred
      have hc1b : c2 = .BLACK := hSR.black_of_not_red (by simpa using h1)
      subst hc1b
      have hc2r : c1 = .RED := hSL.red_of_is_red hc2
      subst hc2r
      cases hSL with
      | @red s2kvp s2l s2r _ hs2l hs2r =>
      obtain ⟨hs2k, hs2l', hs2r'⟩ := hSL'
      have hres : delete_fixup_1 (.node kvp (.node skvp (.node s2kvp s2l s2r .RED) SR .BLACK) B xc)
          side_t.RIGHT
          = .node skvp (.node s2kvp s2l s2r .BLACK) (.node kvp SR B .BLACK) xc := by
        rw [delete_fixup_1.eq_def]
        simp [node_t.get_child, side_t.other, node_t.get_color,
          node_t.set_color, node_t.set_child, h1]
      rw [hres]
      refine ⟨?_, ?_, ?_⟩
      · cases xc with
        | RED => exact .red (.black hs2l hs2r) (.black hSR hD)
        | BLACK => exact .black (.black hs2l hs2r) (.black hSR hD)
      · exact ⟨⟨hsk.1, bddHi_of_lt_of_bddHi hsk.2 hk.2⟩,
          ⟨hs2k, hs2l', hs2r'⟩, ⟨⟨hsk.2, hk.2⟩, hSR', hB⟩⟩
      · simp [node_t.foreach]

/-- Correctness of `delete_fixup_2`: with a black sibling whose children are
both black, recoloring absorbs one black level, leaving a black root one
level short. -/
theorem delete_fixup_2_ok (kvp : α × β) (A B : node_t α β) (xc : color_t) (s : side_t)
    (nd : Nat) (lo hi : Option α)
    (hD : BalancedRB ((node_t.node kvp A B xc).get_child s) .BLACK nd)
    (hS : BalancedRB ((node_t.node kvp A B xc).get_child s.other) .BLACK (nd + 1))
    (hSblk : ((node_t.node kvp A B xc).get_child s.other).has_red_child = false)
    (hord : OrderedB lo hi (.node kvp A B xc)) :
    BalancedRB (delete_fixup_2 (.node kvp A B xc) s) .BLACK (nd + 1) ∧
    OrderedB lo hi (delete_fixup_2 (.node kvp A B xc) s) ∧
    (delete_fixup_2 (.node kvp A B xc) s).foreach = (node_t.node kvp A B xc).foreach := by
  obtain ⟨hk, hA, hB⟩ := hord
  cases s with
  | LEFT =>
    simp only [node_t.get_child, side_t.other] at hD hS hSblk
    cases hS with
    | @black skvp SL SR c1 c2 _ hSL hSR =>
    simp [node_t.has_red_child, node_t.get_child] at hSblk
    have hc1 : c1 = .BLACK := hSL.black_of_not_red (by simp [hSblk.1])
    have hc2 : c2 = .BLACK := hSR.black_of_not_red (by simp [hSblk.2])
    subst hc1 hc2
    have hres : delete_fixup_2 (.node kvp A (.node skvp SL SR .BLACK) xc) side_t.LEFT
        = .node kvp A (.node skvp SL SR .RED) .BLACK := by
      rw [delete_fixup_2.eq_def]
      simp [node_t.get_child, side_t.other, node_t.set_color, node_t.set_child]
    rw [hres]
    exact ⟨.black hD (.red hSL hSR), ⟨hk, hA, hB⟩, by simp [node_t.foreach]⟩
  | RIGHT =>
    simp only [node_t.get_child, side_t.other] at hD hS hSblk
    cases hS with
    | @black skvp SL SR c1 c2 _ hSL hSR =>
    simp [node_t.has_red_child, node_t.get_child] at hSblk
    have hc1 : c1 = .BLACK := hSL.black_of_not_red (by simp [hSblk.1])
    have hc2 : c2 = .BLACK := hSR.black_of_not_red (by simp [hSblk.2])
    subst hc1 hc2
    have hres : delete_fixup_2 (.node kvp (.node skvp SL SR .BLACK) B xc) side_t.RIGHT
        = .node kvp (.node skvp SL SR .RED) B .BLACK := by
      rw [delete_fixup_2.eq_def]
      simp [node_t.get_child, side_t.other, node_t.set_color, node_t.set_child]
    rw [hres]
    exact ⟨.black (.red hSL hSR) hD, ⟨hk, hA, hB⟩, by simp [node_t.foreach]⟩

/-- Correctness of `delete_fixup_3`: with a red sibling (so the parent is
black), the rotation plus the inner re-dispatch restores the interface. -/
theorem delete_fixup_3_ok (kvp : α × β) (A B : node_t α β) (s : side_t)
    (nd : Nat) (lo hi : Option α)
    (hD : BalancedRB ((node_t.node kvp A B .BLACK).get_child s) .BLACK nd)
    (hS : BalancedRB ((node_t.node kvp A B .BLACK).get_child s.other) .RED (nd + 1))
    (hord : OrderedB lo hi (.node kvp A B .BLACK)) :
    BalancedRB (delete_fixup_3 (.node kvp A B .BLACK) s) .BLACK (nd + 2) ∧
    OrderedB lo hi (delete_fixup_3 (.node kvp A B .BLACK) s) ∧
    (delete_fixup_3 (.node kvp A B .BLACK) s).foreach
      = (node_t.node kvp A B .BLACK).foreach := by
  obtain ⟨hk, hA, hB⟩ := hord
  cases s with
  | LEFT =>
    simp only [node_t.get_child, side_t.other] at hD hS
    cases hS with
    | @red skvp SL SR _ hSL hSR =>
    obtain ⟨hsk, hSL', hSR'⟩ := hB
    have hSLnr : SL.is_red = false := hSL.not_red
    have hordP : OrderedB lo (some skvp.1) (.node kvp A SL .RED) :=
      ⟨⟨hk.1, hsk.1⟩, hA, hSL'⟩
    by_cases hrc : SL.has_red_child
    · have hd1 : has_black_sibling_with_red_child (.node kvp A SL .RED) side_t.LEFT = true := by
        simp [has_black_sibling_with_red_child, node_t.get_child, side_t.other, hSLnr, hrc]
      have hres : delete_fixup_3 (.node kvp A (.node skvp SL SR .RED) .BLACK) side_t.LEFT
          = .node skvp (delete_fixup_1 (.node kvp A SL .RED) side_t.LEFT) SR .BLACK := by
        rw [delete_fixup_3.eq_def]
        simp [node_t.get_child, side_t.other, node_t.set_color, node_t.set_child,
          node_t.get_color, hd1]
      have hfix := delete_fixup_1_ok kvp A SL .RED side_t.LEFT nd lo (some skvp.1)
        (by simpa [node_t.get_child] using hD)
        (by simpa [node_t.get_child, side_t.other] using hSL) (by
          simpa [node_t.get_child, side_t.other] using hrc) hordP
      rw [hres]
      refine ⟨.black hfix.1 hSR, ?_, ?_⟩
      · exact ⟨⟨bddLo_of_bddLo_of_lt hk.1 hsk.1, hsk.2⟩, hfix.2.1, hSR'⟩
      · rw [show (node_t.node skvp (delete_fixup_1 (.node kvp A SL .RED) side_t.LEFT)
            SR .BLACK).foreach
            = (delete_fixup_1 (.node kvp A SL .RED) side_t.LEFT).foreach
              ++ skvp :: SR.foreach from by simp [node_t.foreach]]
        rw [hfix.2.2]
        simp [node_t.foreach]
    · have hd1 : has_black_sibling_with_red_child (.node kvp A SL .RED) side_t.LEFT = false := by
        simp [has_black_sibling_with_red_child, node_t.get_child, side_t.other, hSLnr,
          Bool.eq_false_iff.2 hrc]
      have hd2 : has_black_sibling_with_black_children (.node kvp A SL .RED) side_t.LEFT
          = true := by
        simp [has_black_sibling_with_black_children, node_t.get_child, side_t.other, hSLnr,
          Bool.eq_false_iff.2 hrc]
      have hres : delete_fixup_3 (.node kvp A (.node skvp SL SR .RED) .BLACK) side_t.LEFT
          = .node skvp (delete_fixup_2 (.node kvp A SL .RED) side_t.LEFT) SR .BLACK := by
        rw [delete_fixup_3.eq_def]
        simp [node_t.get_child, side_t.other, node_t.set_color, node_t.set_child,
          node_t.get_color, hd1, hd2]
      have hfix := delete_fixup_2_ok kvp A SL .RED side_t.LEFT nd lo (some skvp.1)
        (by simpa [node_t.get_child] using hD)
        (by simpa [node_t.get_child, side_t.other] using hSL) (by
          simpa [node_t.get_child, side_t.other] using Bool.eq_false_iff.2 hrc) hordP
      rw [hres]
      refine ⟨.black hfix.1 hSR, ?_, ?_⟩
      · exact ⟨⟨bddLo_of_bddLo_of_lt hk.1 hsk.1, hsk.2⟩, hfix.2.1, hSR'⟩
      · rw [show (node_t.node skvp (delete_fixup_2 (.node kvp A SL .RED) side_t.LEFT)
            SR .BLACK).foreach
            = (delete_fixup_2 (.node kvp A SL .RED) side_t.LEFT).foreach
              ++ skvp :: SR.foreach from by simp [node_t.foreach]]
        rw [hfix.2.2]
        simp [node_t.foreach]
  | RIGHT =>
    simp only [node_t.get_child, side_t.other] at hD hS
    cases hS with
    | @red skvp SL SR _ hSL hSR =>
    obtain ⟨hsk, hSL', hSR'⟩ := hA
    have hSRnr : SR.is_red = false := hSR.not_red
    have hordP : OrderedB (some skvp.1) hi (.node kvp SR B .RED) :=
      ⟨⟨hsk.2, hk.2⟩, hSR', hB⟩
    by_cases hrc : SR.has_red_child
    · have hd1 : has_black_sibling_with_red_child (.node kvp SR B .RED) side_t.RIGHT = true := by
        simp [has_black_sibling_with_red_child, node_t.get_child, side_t.other, hSRnr, hrc]
      have hres : delete_fixup_3 (.node kvp (.node skvp SL SR .RED) B .BLACK) side_t.RIGHT
          = .node skvp SL (delete_fixup_1 (.node kvp SR B .RED) side_t.RIGHT) .BLACK := by
        rw [delete_fixup_3.eq_def]
        simp [node_t.get_child, side_t.other, node_t.set_color, node_t.set_child,
          node_t.get_color, hd1]
      have hfix := delete_fixup_1_ok kvp SR B .RED side_t.RIGHT nd (some skvp.1) hi
        (by simpa [node_t.get_child] using hD)
        (by simpa [node_t.get_child, side_t.other] using hSR) (by
          simpa [node_t.get_child, side_t.other] using hrc) hordP
      rw [hres]
      refine ⟨.black hSL hfix.1, ?_, ?_⟩
      · exact ⟨⟨hsk.1, bddHi_of_lt_of_bddHi hsk.2 hk.2⟩, hSL', hfix.2.1⟩
      · rw [show (node_t.node skvp SL (delete_fixup_1 (.node kvp SR B .RED) side_t.RIGHT)
            .BLACK).foreach
            = SL.foreach ++ skvp
              :: (delete_fixup_1 (.node kvp SR B .RED) side_t.RIGHT).foreach
            from by simp [node_t.foreach]]
        rw [hfix.2.2]
        simp [node_t.foreach]
    · have hd1 : has_black_sibling_with_red_child (.node kvp SR B .RED) side_t.RIGHT
          = false := by
        simp [has_black_sibling_with_red_child, node_t.get_child, side_t.other, hSRnr,
          Bool.eq_false_iff.2 hrc]
      have hd2 : has_black_sibling_with_black_children (.node kvp SR B .RED) side_t.RIGHT
          = true := by
        simp [has_black_sibling_with_black_children, node_t.get_child, side_t.other, hSRnr,
          Bool.eq_false_iff.2 hrc]
      have hres : delete_fixup_3 (.node kvp (.node skvp SL SR .RED) B .BLACK) side_t.RIGHT
          = .node skvp SL (delete_fixup_2 (.node kvp SR B .RED) side_t.RIGHT) .BLACK := by
        rw [delete_fixup_3.eq_def]
        simp [node_t.get_child, side_t.other, node_t.set_color, node_t.set_child,
          node_t.get_color, hd1, hd2]
      have hfix := delete_fixup_2_ok kvp SR B .RED side_t.RIGHT nd (some skvp.1) hi
        (by simpa [node_t.get_child] using hD)
        (by simpa [node_t.get_child, side_t.other] using hSR) (by
          simpa [node_t.get_child, side_t.other] using Bool.eq_false_iff.2 hrc) hordP
      rw [hres]
      refine ⟨.black hSL hfix.1, ?_, ?_⟩
      · exact ⟨⟨hsk.1, bddHi_of_lt_of_bddHi hsk.2 hk.2⟩, hSL', hfix.2.1⟩
      · rw [show (node_t.node skvp SL (delete_fixup_2 (.node kvp SR B .RED) side_t.RIGHT)
            .BLACK).foreach
            = SL.foreach ++ skvp
              :: (delete_fixup_2 (.node kvp SR B .RED) side_t.RIGHT).foreach
            from by simp [node_t.foreach]]
        rw [hfix.2.2]
        simp [node_t.foreach]

theorem hbswrc_char (parent : node_t α β) (s : side_t) :
    has_black_sibling_with_red_child parent s
      = (!(parent.get_child s.other).is_red && (parent.get_child s.other).has_red_child) := by
  simp only [has_black_sibling_with_red_child]
  cases h : (parent.get_child s.other).is_red <;> simp [h]

theorem hbswbc_char (parent : node_t α β) (s : side_t) :
    has_black_sibling_with_black_children parent s
      = (!(parent.get_child s.other).is_red && !(parent.get_child s.other).has_red_child) := by
  simp only [has_black_sibling_with_black_children]
  cases h : (parent.get_child s.other).is_red <;> simp [h]

/-- Correctness of the bottom-up deletion fixup: starting from a parent
whose `s`-side child is one black level short, the walk restores balance
and produces an ordered black-rooted tree with unchanged contents. -/
theorem delete_fixup_ok_aux {n₀ : Nat} : ∀ (N : Nat) (p : path_t α β), p.length < N →
    ∀ (kvp : α × β) (A B : node_t α β) (xc : color_t) (s : side_t) (nd : Nat)
      (lo hi : Option α) (ll rr : List (α × β)) (cs : color_t),
      BalancedRB ((node_t.node kvp A B xc).get_child s) .BLACK nd →
      BalancedRB ((node_t.node kvp A B xc).get_child s.other) cs (nd + 1) →
      (xc = .RED → cs = .BLACK) →
      OrderedB lo hi (.node kvp A B xc) →
      PathOK .BLACK n₀ none none p lo hi xc (ifaceH xc nd) ll rr →
      OrderedB none none (delete_fixup p (.node kvp A B xc) s) ∧
      (∃ m, BalancedRB (delete_fixup p (.node kvp A B xc) s) .BLACK m) ∧
      (delete_fixup p (.node kvp A B xc) s).foreach
        = ll ++ (node_t.node kvp A B xc).foreach ++ rr := by
  intro N
  induction N with
  | zero => intro p hlen; omega
  | succ N ih =>
    intro p hlen kvp A B xc s nd lo hi ll rr cs hD hS hcs hord hp
    cases cs with
    | RED =>
      -- red sibling: parent must be black, dispatch to `delete_fixup_3`
      have hxc : xc = .BLACK := by
        cases xc with
        | BLACK => rfl
        | RED => exact absurd (hcs rfl) (by simp)
      subst hxc
      have hsr : ((node_t.node kvp A B .BLACK).get_child s.other).is_red = true :=
        hS.is_red_true
      have h1 : has_black_sibling_with_red_child (.node kvp A B .BLACK) s = false := by
        rw [hbswrc_char]; simp [hsr]
      have h2 : has_black_sibling_with_black_children (.node kvp A B .BLACK) s = false := by
        rw [hbswbc_char]; simp [hsr]
      have hEq : delete_fixup p (.node kvp A B .BLACK) s
          = clone_path p (delete_fixup_3 (.node kvp A B .BLACK) s) := by
        rw [delete_fixup.eq_def]
        simp [h1, h2]
      rw [hEq]
      have hfix := delete_fixup_3_ok kvp A B s nd lo hi hD hS hord
      have hfill := hp.fill _ hfix.2.1 (show BalancedRB _ .BLACK (ifaceH .BLACK nd) from hfix.1)
        (fun h => absurd h (hfix.1.ne_null_of_pos (by simp [ifaceH])))
      refine ⟨hfill.1, ⟨n₀, hfill.2.1⟩, ?_⟩
      rw [hfill.2.2, hfix.2.2]
    | BLACK =>
      have hsnr : ((node_t.node kvp A B xc).get_child s.other).is_red = false := hS.not_red
      by_cases hrc : ((node_t.node kvp A B xc).get_child s.other).has_red_child
      · -- black sibling with a red child: terminal `delete_fixup_1`
        have h1 : has_black_sibling_with_red_child (.node kvp A B xc) s = true := by
          rw [hbswrc_char]; simp [hsnr, hrc]
        have hEq : delete_fixup p (.node kvp A B xc) s
            = clone_path p (delete_fixup_1 (.node kvp A B xc) s) := by
          rw [delete_fixup.eq_def]
          simp [h1]
        rw [hEq]
        have hfix := delete_fixup_1_ok kvp A B xc s nd lo hi hD hS hrc hord
        have hfill := hp.fill _ hfix.2.1 hfix.1
          (fun h => absurd h (hfix.1.ne_null_of_pos (by cases xc <;> simp [ifaceH])))
        refine ⟨hfill.1, ⟨n₀, hfill.2.1⟩, ?_⟩
        rw [hfill.2.2, hfix.2.2]
      · -- black sibling with black children: recolor, possibly propagate
        have hrc' : ((node_t.node kvp A B xc).get_child s.other).has_red_child = false :=
          Bool.eq_false_iff.2 hrc
        have h1 : has_black_sibling_with_red_child (.node kvp A B xc) s = false := by
          rw [hbswrc_char]; simp [hsnr, hrc']
        have h2 : has_black_sibling_with_black_children (.node kvp A B xc) s = true := by
          rw [hbswbc_char]; simp [hsnr, hrc']
        have hfix := delete_fixup_2_ok kvp A B xc s nd lo hi hD hS hrc' hord
        match p, hp with
        | [], hp =>
          have hEq : delete_fixup [] (.node kvp A B xc) s
              = delete_fixup_2 (.node kvp A B xc) s := by
            rw [delete_fixup.eq_def]
            simp [h1, h2]
          rw [hEq]
          cases hp
          exact ⟨hfix.2.1, ⟨nd + 1, hfix.1⟩, by rw [hfix.2.2]; simp⟩
        | y :: rest, hp =>
          cases xc with
          | RED =>
            -- red parent: recoloring is terminal
            have hEq : delete_fixup (y :: rest) (.node kvp A B .RED) s
                = clone_path (y :: rest) (delete_fixup_2 (.node kvp A B .RED) s) := by
              rw [delete_fixup.eq_def]
              simp [h1, h2, node_t.get_color]
            rw [hEq]
            obtain ⟨ky, vy, ly, ry, rest', hyeq⟩ := hp.red_hole_head_black
            have hp' : PathOK .BLACK n₀ none none (y :: rest) lo hi .BLACK (nd + 1) ll rr := by
              rw [hyeq] at hp ⊢
              exact hp.recolor (by simp [node_t.get_color]) .BLACK
            have hfill := hp'.fill _ hfix.2.1 hfix.1
              (fun h => absurd h (hfix.1.ne_null_of_pos (by omega)))
            refine ⟨hfill.1, ⟨n₀, hfill.2.1⟩, ?_⟩
            rw [hfill.2.2, hfix.2.2]
          | BLACK =>
            -- black parent: the deficit propagates one level up
            cases hp with
            | @redL rest lo hi n ll rr ky vy ly ry hrest hbdd hbr hor =>
              have hks : key_side (.node (ky, vy) ly ry .RED) (.node kvp A B .BLACK)
                  = side_t.LEFT := by
                simp [key_side, node_t.key?, show kvp.1 < ky from hord.1.2]
              have hEq : delete_fixup ((node_t.node (ky, vy) ly ry .RED) :: rest)
                  (.node kvp A B .BLACK) s
                  = delete_fixup rest
                    (.node (ky, vy) (delete_fixup_2 (.node kvp A B .BLACK) s) ry .RED)
                    side_t.LEFT := by
                rw [delete_fixup.eq_def]
                simp [h1, h2, node_t.get_color, hks, node_t.set_child]
              rw [hEq]
              obtain ⟨hnp_bal, hnp_ord, hnp_fore⟩ := hfix
              have hrec := ih rest (by simp at hlen; omega) (ky, vy)
                (delete_fixup_2 (.node kvp A B .BLACK) s) ry .RED side_t.LEFT (nd + 1)
                lo hi ll rr .BLACK
                (by simpa [node_t.get_child] using hnp_bal)
                (by simpa [node_t.get_child, side_t.other] using hbr)
                (fun _ => rfl)
                ⟨hbdd, hnp_ord, hor⟩
                (by simpa [ifaceH] using hrest)
              refine ⟨hrec.1, hrec.2.1, ?_⟩
              rw [hrec.2.2]
              simp [node_t.foreach, hnp_fore]
            | @redR rest lo hi n ll rr ky vy ly ry hrest hbdd hbl hol =>
              have hks : key_side (.node (ky, vy) ly ry .RED) (.node kvp A B .BLACK)
                  = side_t.RIGHT := by
                simp [key_side, node_t.key?, not_lt_of_gt (show ky < kvp.1 from hord.1.1)]
              have hEq : delete_fixup ((node_t.node (ky, vy) ly ry .RED) :: rest)
                  (.node kvp A B .BLACK) s
                  = delete_fixup rest
                    (.node (ky, vy) ly (delete_fixup_2 (.node kvp A B .BLACK) s) .RED)
                    side_t.RIGHT := by
                rw [delete_fixup.eq_def]
                simp [h1, h2, node_t.get_color, hks, node_t.set_child]
              rw [hEq]
              obtain ⟨hnp_bal, hnp_ord, hnp_fore⟩ := hfix
              have hrec := ih rest (by simp at hlen; omega) (ky, vy)
                ly (delete_fixup_2 (.node kvp A B .BLACK) s) .RED side_t.RIGHT (nd + 1)
                lo hi ll rr .BLACK
                (by simpa [node_t.get_child] using hnp_bal)
                (by simpa [node_t.get_child, side_t.other] using hbl)
                (fun _ => rfl)
                ⟨hbdd, hol, hnp_ord⟩
                (by simpa [ifaceH] using hrest)
              refine ⟨hrec.1, hrec.2.1, ?_⟩
              rw [hrec.2.2]
              simp [node_t.foreach, hnp_fore]
            | @blackL rest lo hi n ll rr ky vy ly ry cr c' hrest hbdd hbr hor =>
              have hks : key_side (.node (ky, vy) ly ry .BLACK) (.node kvp A B .BLACK)
                  = side_t.LEFT := by
                simp [key_side, node_t.key?, show kvp.1 < ky from hord.1.2]
              have hEq : delete_fixup ((node_t.node (ky, vy) ly ry .BLACK) :: rest)
                  (.node kvp A B .BLACK) s
                  = delete_fixup rest
                    (.node (ky, vy) (delete_fixup_2 (.node kvp A B .BLACK) s) ry .BLACK)
                    side_t.LEFT := by
                rw [delete_fixup.eq_def]
                simp [h1, h2, node_t.get_color, hks, node_t.set_child]
              rw [hEq]
              obtain ⟨hnp_bal, hnp_ord, hnp_fore⟩ := hfix
              have hrec := ih rest (by simp at hlen; omega) (ky, vy)
                (delete_fixup_2 (.node kvp A B .BLACK) s) ry .BLACK side_t.LEFT (nd + 1)
                lo hi ll rr cr
                (by simpa [node_t.get_child] using hnp_bal)
                (by simpa [node_t.get_child, side_t.other] using hbr)
                (fun h => by simp at h)
                ⟨hbdd, hnp_ord, hor⟩
                (by simpa [ifaceH] using hrest)
              refine ⟨hrec.1, hrec.2.1, ?_⟩
              rw [hrec.2.2]
              simp [node_t.foreach, hnp_fore]
            | @blackR rest lo hi n ll rr ky vy ly ry cl c' hrest hbdd hbl hol =>
              have hks : key_side (.node (ky, vy) ly ry .BLACK) (.node kvp A B .BLACK)
                  = side_t.RIGHT := by
                simp [key_side, node_t.key?, not_lt_of_gt (show ky < kvp.1 from hord.1.1)]
              have hEq : delete_fixup ((node_t.node (ky, vy) ly ry .BLACK) :: rest)
                  (.node kvp A B .BLACK) s
                  = delete_fixup rest
                    (.node (ky, vy) ly (delete_fixup_2 (.node kvp A B .BLACK) s) .BLACK)
                    side_t.RIGHT := by
                rw [delete_fixup.eq_def]
                simp [h1, h2, node_t.get_color, hks, node_t.set_child]
              rw [hEq]
              obtain ⟨hnp_bal, hnp_ord, hnp_fore⟩ := hfix
              have hrec := ih rest (by simp at hlen; omega) (ky, vy)
                ly (delete_fixup_2 (.node kvp A B .BLACK) s) .BLACK side_t.RIGHT (nd + 1)
                lo hi ll rr cl
                (by simpa [node_t.get_child] using hnp_bal)
                (by simpa [node_t.get_child, side_t.other] using hbl)
                (fun h => by simp at h)
                ⟨hbdd, hol, hnp_ord⟩
                (by simpa [ifaceH] using hrest)
              refine ⟨hrec.1, hrec.2.1, ?_⟩
              rw [hrec.2.2]
              simp [node_t.foreach, hnp_fore]

theorem key_set_child (x : node_t α β) (s : side_t) (t : node_t α β) :
    (x.set_child s t).key? = x.key? := by
  cases x <;> cases s <;> simp [node_t.set_child, node_t.key?]

theorem key_side_congr (y : node_t α β) {a b : node_t α β} (h : a.key? = b.key?) :
    key_side y a = key_side y b := by
  simp [key_side, h]

/-- The depth-bounded rebuild consumes exactly the part of the path above
`depth` and behaves like the unbounded rebuild on it. -/
theorem clone_path_depth_append (q tail : path_t α β) (t : node_t α β) :
    clone_path_depth (q ++ tail) t tail.length = (clone_path q t, tail) := by
  induction q generalizing t with
  | nil =>
    cases tail with
    | nil => simp [clone_path_depth, clone_path]
    | cons y ys => simp [clone_path_depth, clone_path]
  | cons x q' ih =>
    rw [show (x :: q') ++ tail = x :: (q' ++ tail) from rfl]
    rw [clone_path_depth.eq_def]
    simp only [List.length_cons, List.length_append]
    rw [if_pos (by omega)]
    rw [ih]
    simp [clone_path]

/-- The explicit-side rebuild: after the first step the recomputed sides
agree with the key-comparison rebuild, because the carried subtree keeps
the key of the node it replaced. -/
theorem clone_path_side_run (q tail : path_t α β) (prev t : node_t α β)
    (hkey : t.key? = prev.key?) :
    clone_path_side (q ++ tail) t (key_side ((q ++ tail).headD .null) prev) tail.length
      = (clone_path q t, tail) := by
  induction q generalizing prev t with
  | nil =>
    cases tail with
    | nil => simp [clone_path_side, clone_path]
    | cons y ys => simp [clone_path_side, clone_path]
  | cons y q' ih =>
    rw [show (y :: q') ++ tail = y :: (q' ++ tail) from rfl]
    rw [clone_path_side.eq_def]
    simp only [List.length_cons, List.length_append, List.headD_cons]
    rw [if_pos (by omega)]
    rw [show key_side y prev = key_side y t from (key_side_congr y hkey).symm]
    rw [ih y (y.set_child (key_side y t) t) (key_set_child _ _ _)]
    simp [clone_path]

/-- Entry form of the previous lemma: the four-argument `clone_path`
removes the first node's child on the given side and then rebuilds like the
two-argument one. -/
theorem clone_path_side_cons (x : node_t α β) (q tail : path_t α β) (s : side_t)
    (t : node_t α β) :
    clone_path_side ((x :: q) ++ tail) t s tail.length
      = (clone_path q (x.set_child s t), tail) := by
  rw [show (x :: q) ++ tail = x :: (q ++ tail) from rfl]
  rw [clone_path_side.eq_def]
  simp only [List.length_cons, List.length_append]
  rw [if_pos (by omega)]
  exact clone_path_side_run q tail x (x.set_child s t) (key_set_child x s t)

/-- Characterization of the predecessor walk: descending the right spine of
a nonempty ordered balanced subtree reaches the rightmost node (which has
no right child), and the visited ancestors form a valid path whose upper
bound can be tightened to the predecessor's own key. -/
theorem find_pred_spec :
    ∀ (L : node_t α β) (cL : color_t) (h : Nat) (loL hiL : Option α) (acc : path_t α β),
      L ≠ .null → BalancedRB L cL h → OrderedB loL hiL L →
      ∃ (pk : α) (pv : β) (pl : node_t α β) (pc : color_t) (stail : path_t α β)
        (lo_p : Option α) (np : Nat) (ll_p : List (α × β)),
        find_pred_loop L acc = (.node (pk, pv) pl .null pc) :: (stail ++ acc) ∧
        PathOK cL h loL (some pk) stail lo_p (some pk) pc np ll_p [] ∧
        BalancedRB (.node (pk, pv) pl .null pc) pc np ∧
        OrderedB lo_p (some pk) pl ∧
        bdd loL pk hiL ∧ bddLo lo_p pk ∧
        L.foreach = ll_p ++ (node_t.node (pk, pv) pl .null pc).foreach := by
  intro L
  induction L with
  | null => intro _ _ _ _ _ hne _ _; exact absurd rfl hne
  | node kvp0 l0 r0 c0 ihl ihr =>
    intro cL h loL hiL acc _ hbal hord
    obtain ⟨hk0, hl0, hr0⟩ := hord
    by_cases hr0n : r0 = node_t.null
    · -- this node is the rightmost one
      subst hr0n
      refine ⟨kvp0.1, kvp0.2, l0, c0, [], loL, h, [], ?_, ?_, ?_, ?_, hk0, hk0.1, ?_⟩
      · simp [find_pred_loop]
      · have hc : cL = c0 := by
          have := hbal.color_eq; simp [node_t.get_color] at this; exact this.symm
        subst hc
        exact .root
      · have hc : cL = c0 := by
          have := hbal.color_eq; simp [node_t.get_color] at this; exact this.symm
        subst hc
        exact hbal
      · exact hl0
      · simp [node_t.foreach]
    · -- descend into the right child
      have hstep : find_pred_loop (.node kvp0 l0 r0 c0) acc
          = find_pred_loop r0 (node_t.node kvp0 l0 r0 c0 :: acc) := by
        simp [find_pred_loop]
      cases hbal with
      | @red _ _ _ _ hbl0 hbr0 =>
        obtain ⟨pk, pv, pl, pc, stail, lo_p, np, ll_p, heq, hpath, hbp, hop, hbd, hblo, hfore⟩ :=
          ihr .BLACK h (some kvp0.1) hiL (node_t.node kvp0 l0 r0 .RED :: acc) hr0n hbr0 hr0
        refine ⟨pk, pv, pl, pc, stail ++ [node_t.node kvp0 l0 r0 .RED], lo_p, np,
          l0.foreach ++ [kvp0] ++ ll_p, ?_, ?_, hbp, hop, ⟨bddLo_of_bddLo_of_lt hk0.1 hbd.1, hbd.2⟩, hblo, ?_⟩
        · rw [hstep, heq]; simp
        · have hone : PathOK .RED h loL (some pk)
              [node_t.node kvp0 l0 r0 .RED] (some kvp0.1) (some pk) .BLACK h
              ([] ++ l0.foreach ++ [kvp0]) [] :=
            .redR .root ⟨hk0.1, hbd.1⟩ hbl0 hl0
          have := hone.append hpath
          simpa using this
        · rw [show (node_t.node kvp0 l0 r0 .RED).foreach
              = l0.foreach ++ kvp0 :: r0.foreach from by simp [node_t.foreach]]
          rw [hfore]; simp
      | @black _ _ _ cl0 cr0 hh hbl0 hbr0 =>
        obtain ⟨pk, pv, pl, pc, stail, lo_p, np, ll_p, heq, hpath, hbp, hop, hbd, hblo, hfore⟩ :=
          ihr cr0 hh (some kvp0.1) hiL (node_t.node kvp0 l0 r0 .BLACK :: acc) hr0n hbr0 hr0
        refine ⟨pk, pv, pl, pc, stail ++ [node_t.node kvp0 l0 r0 .BLACK], lo_p, np,
          l0.foreach ++ [kvp0] ++ ll_p, ?_, ?_, hbp, hop, ⟨bddLo_of_bddLo_of_lt hk0.1 hbd.1, hbd.2⟩, hblo, ?_⟩
        · rw [hstep, heq]; simp
        · have hone : PathOK .BLACK (hh + 1) loL (some pk)
              [node_t.node kvp0 l0 r0 .BLACK] (some kvp0.1) (some pk) cr0 hh
              ([] ++ l0.foreach ++ [kvp0]) [] :=
            .blackR .root ⟨hk0.1, hbd.1⟩ hbl0 hl0
          have := hone.append hpath
          simpa using this
        · rw [show (node_t.node kvp0 l0 r0 .BLACK).foreach
              = l0.foreach ++ kvp0 :: r0.foreach from by simp [node_t.foreach]]
          rw [hfore]; simp

theorem clone_path_side_refl (tail : path_t α β) (t : node_t α β) (s : side_t) :
    clone_path_side tail t s tail.length = (t, tail) := by
  cases tail with
  | nil => simp [clone_path_side]
  | cons y ys => rw [clone_path_side.eq_def]; simp

theorem BalancedRB.node_build {kvp : α × β} {l r : node_t α β} {cl cr : color_t} {h : Nat}
    (fc : color_t) (hl : BalancedRB l cl h) (hr : BalancedRB r cr h)
    (hred : fc = .RED → cl = .BLACK ∧ cr = .BLACK) :
    BalancedRB (.node kvp l r fc) fc (if fc = .BLACK then h + 1 else h) := by
  cases fc with
  | BLACK => simpa using BalancedRB.black hl hr
  | RED =>
    obtain ⟨h1, h2⟩ := hred rfl
    subst h1; subst h2
    simpa using BalancedRB.red hl hr

theorem PathOK.bdd_mono {c₀ : color_t} {n₀ : Nat} {lo₀ hi₀ : Option α} {p : path_t α β}
    {lo hi : Option α} {c : color_t} {n : Nat} {ll rr : List (α × β)}
    (hp : PathOK c₀ n₀ lo₀ hi₀ p lo hi c n ll rr) :
    ∀ x, bdd lo x hi → bdd lo₀ x hi₀ := by
  induction hp with
  | root => exact fun x hx => hx
  | redL hrest hbdd _ _ ih => exact fun x hx => ih x ⟨hx.1, bddHi_of_lt_of_bddHi hx.2 hbdd.2⟩
  | redR hrest hbdd _ _ ih => exact fun x hx => ih x ⟨bddLo_of_bddLo_of_lt hbdd.1 hx.1, hx.2⟩
  | blackL hrest hbdd _ _ ih => exact fun x hx => ih x ⟨hx.1, bddHi_of_lt_of_bddHi hx.2 hbdd.2⟩
  | blackR hrest hbdd _ _ ih => exact fun x hx => ih x ⟨bddLo_of_bddLo_of_lt hbdd.1 hx.1, hx.2⟩

theorem eim_red_self (kvp : α × β) (L R : node_t α β) (fc : color_t) (rest : path_t α β)
    (pk : α) (pv : β)
    (heq : find_pred_loop L ((node_t.node kvp L R fc) :: rest)
      = (node_t.node (pk, pv) .null .null .RED) :: ((node_t.node kvp L R fc) :: rest)) :
    erase_intermediate_node ((node_t.node kvp L R fc) :: rest)
      = clone_path rest (.node (pk, pv) .null R fc) := by
  rw [erase_intermediate_node.eq_def]
  simp only [find_predecessor, List.headD_cons, node_t.get_child, heq, List.tail_cons,
    List.length_cons]
  rw [show (rest.length + 1 + 1) - (rest.length + 1) = 1 from by omega]
  simp only [show ¬ (1 > 1) from by omega, if_false, node_t.get_color, reduceIte]
  rw [show clone_path_side ((node_t.node kvp L R fc) :: rest) .null side_t.LEFT
      (rest.length + 1) = (.null, (node_t.node kvp L R fc) :: rest) from by
    simpa using clone_path_side_refl ((node_t.node kvp L R fc) :: rest) .null side_t.LEFT]
  simp [node_t.set_color, node_t.set_child]

theorem eim_red_deep (kvp : α × β) (L R : node_t α β) (fc : color_t) (rest : path_t α β)
    (pk : α) (pv : β) (P : node_t α β) (stail' : path_t α β)
    (heq : find_pred_loop L ((node_t.node kvp L R fc) :: rest)
      = (node_t.node (pk, pv) .null .null .RED)
          :: ((P :: stail') ++ ((node_t.node kvp L R fc) :: rest))) :
    erase_intermediate_node ((node_t.node kvp L R fc) :: rest)
      = clone_path rest
          (.node (pk, pv) (clone_path stail' (P.set_child .RIGHT .null)) R fc) := by
  rw [erase_intermediate_node.eq_def]
  simp only [find_predecessor, List.headD_cons, node_t.get_child, heq, List.tail_cons,
    List.length_cons, List.length_append]
  have hgt : List.length stail' + 1 + (List.length rest + 1) + 1 - (List.length rest + 1) > 1 := by
    omega
  rw [if_pos hgt]
  simp only [node_t.get_color, reduceIte]
  rw [show clone_path_side ((P :: stail') ++ ((node_t.node kvp L R fc) :: rest)) .null
      side_t.RIGHT (rest.length + 1)
      = (clone_path stail' (P.set_child .RIGHT .null), (node_t.node kvp L R fc) :: rest) from by
    simpa using clone_path_side_cons P stail' ((node_t.node kvp L R fc) :: rest) .RIGHT .null]
  simp [node_t.set_color, node_t.set_child]

theorem eim_black_child (kvp : α × β) (L R : node_t α β) (fc : color_t) (rest : path_t α β)
    (pk : α) (pv : β) (q : α × β) (a b : node_t α β) (plc : color_t) (stail : path_t α β)
    (heq : find_pred_loop L ((node_t.node kvp L R fc) :: rest)
      = (node_t.node (pk, pv) (.node q a b plc) .null .BLACK)
          :: (stail ++ ((node_t.node kvp L R fc) :: rest))) :
    erase_intermediate_node ((node_t.node kvp L R fc) :: rest)
      = clone_path rest
          (.node (pk, pv) (clone_path stail (.node q a b .BLACK)) R fc) := by
  rw [erase_intermediate_node.eq_def]
  simp only [find_predecessor, List.headD_cons, node_t.get_child, heq, List.tail_cons,
    List.length_cons, List.length_append]
  simp only [node_t.get_color, reduceIte, node_t.isNull, Bool.not_false, if_true]
  rw [show clone_path_depth (stail ++ ((node_t.node kvp L R fc) :: rest))
      ((node_t.node q a b plc).set_color .BLACK) (rest.length + 1)
      = (clone_path stail ((node_t.node q a b plc).set_color .BLACK),
          (node_t.node kvp L R fc) :: rest) from by
    simpa using clone_path_depth_append stail ((node_t.node kvp L R fc) :: rest)
      ((node_t.node q a b plc).set_color .BLACK)]
  simp [node_t.set_color, node_t.set_child]

theorem eim_black_leaf_self (kvp : α × β) (L R : node_t α β) (fc : color_t)
    (rest : path_t α β) (pk : α) (pv : β)
    (heq : find_pred_loop L ((node_t.node kvp L R fc) :: rest)
      = (node_t.node (pk, pv) .null .null .BLACK) :: ((node_t.node kvp L R fc) :: rest)) :
    erase_intermediate_node ((node_t.node kvp L R fc) :: rest)
      = delete_fixup
          (find_loop (clone_path rest (.node (pk, pv) .null R fc)) [] pk).1.tail
          ((find_loop (clone_path rest (.node (pk, pv) .null R fc)) [] pk).1.headD .null)
          .LEFT := by
  rw [erase_intermediate_node.eq_def]
  simp only [find_predecessor, List.headD_cons, node_t.get_child, heq, List.tail_cons,
    List.length_cons]
  rw [show (rest.length + 1 + 1) - (rest.length + 1) = 1 from by omega]
  simp only [show ¬ (1 > 1) from by omega, if_false, node_t.get_color, reduceIte,
    node_t.isNull, Bool.not_true]
  rw [show clone_path_side ((node_t.node kvp L R fc) :: rest) .null side_t.LEFT
      (rest.length + 1) = (.null, (node_t.node kvp L R fc) :: rest) from by
    simpa using clone_path_side_refl ((node_t.node kvp L R fc) :: rest) .null side_t.LEFT]
  simp [node_t.set_color, node_t.set_child]

theorem eim_black_leaf_deep (kvp : α × β) (L R : node_t α β) (fc : color_t)
    (rest : path_t α β) (pk : α) (pv : β) (Pk : α) (Pv : β) (Pl Pr : node_t α β)
    (Pc : color_t) (stail' : path_t α β)
    (heq : find_pred_loop L ((node_t.node kvp L R fc) :: rest)
      = (node_t.node (pk, pv) .null .null .BLACK)
          :: (((node_t.node (Pk, Pv) Pl Pr Pc) :: stail')
              ++ ((node_t.node kvp L R fc) :: rest))) :
    erase_intermediate_node ((node_t.node kvp L R fc) :: rest)
      = delete_fixup
          (find_loop (clone_path rest (.node (pk, pv)
              (clone_path stail' (.node (Pk, Pv) Pl .null Pc)) R fc)) [] Pk).1.tail
          ((find_loop (clone_path rest (.node (pk, pv)
              (clone_path stail' (.node (Pk, Pv) Pl .null Pc)) R fc)) [] Pk).1.headD .null)
          .RIGHT := by
  rw [erase_intermediate_node.eq_def]
  simp only [find_predecessor, List.headD_cons, node_t.get_child, heq, List.tail_cons,
    List.length_cons, List.length_append]
  have hgt : List.length stail' + 1 + (List.length rest + 1) + 1 - (List.length rest + 1) > 1 := by
    omega
  rw [if_pos hgt]
  simp only [node_t.get_color, reduceIte, node_t.isNull, Bool.not_true]
  rw [show clone_path_side (((node_t.node (Pk, Pv) Pl Pr Pc) :: stail')
        ++ ((node_t.node kvp L R fc) :: rest)) .null side_t.RIGHT (rest.length + 1)
      = (clone_path stail' ((node_t.node (Pk, Pv) Pl Pr Pc).set_child .RIGHT .null),
          (node_t.node kvp L R fc) :: rest) from by
    simpa using clone_path_side_cons (node_t.node (Pk, Pv) Pl Pr Pc) stail'
      ((node_t.node kvp L R fc) :: rest) .RIGHT .null]
  simp [node_t.set_color, node_t.set_child]

theorem erase_intermediate_ok {n₀ : Nat} (kvp : α × β) (L R : node_t α β) (fc : color_t)
    (rest : path_t α β) (lo hi : Option α) (n : Nat) (ll rr : List (α × β))
    (hL : L ≠ .null)
    (hbF : BalancedRB (.node kvp L R fc) fc n)
    (hoF : OrderedB lo hi (.node kvp L R fc))
    (hp : PathOK .BLACK n₀ none none rest lo hi fc n ll rr) :
    OrderedB none none (erase_intermediate_node (.node kvp L R fc :: rest)) ∧
    (∃ m, BalancedRB (erase_intermediate_node (.node kvp L R fc :: rest)) .BLACK m) ∧
    (erase_intermediate_node (.node kvp L R fc :: rest)).foreach
      = ll ++ (L.foreach ++ R.foreach) ++ rr := by
  have hCH : ∃ (cL cR : color_t) (h : Nat), BalancedRB L cL h ∧ BalancedRB R cR h ∧
      n = (if fc = .BLACK then h + 1 else h) ∧ (fc = .RED → cL = .BLACK ∧ cR = .BLACK) := by
    cases hbF with
    | red hbl hbr => exact ⟨.BLACK, .BLACK, _, hbl, hbr, by simp, fun _ => ⟨rfl, rfl⟩⟩
    | black hbl hbr => exact ⟨_, _, _, hbl, hbr, by simp, fun hx => by simp at hx⟩
  obtain ⟨cL, cR, h, hbL, hbR, hn, hred⟩ := hCH
  obtain ⟨pk, pv, pl, pc, stail, lo_p, np, ll_p, heq, hpath, hbp, hop, hbd, hblo, hforeL⟩ :=
    find_pred_spec L cL h lo (some kvp.1) ((node_t.node kvp L R fc) :: rest) hL hbL hoF.2.1
  have hbdhi : bdd lo pk hi := ⟨hbd.1, bddHi_of_lt_of_bddHi hbd.2 hoF.1.2⟩
  have hordR : OrderedB (some pk) hi R := hoF.2.2.weaken_lo hbd.2
  cases pc with
  | RED =>
    cases hbp with
    | red hbl0 hbr0 =>
    cases hbr0
    cases hbl0
    cases stail with
    | nil =>
      cases hpath
      rw [eim_red_self kvp L R fc rest pk pv (by simpa using heq)]
      have hbal : BalancedRB (.node (pk, pv) .null R fc) fc n := by
        rw [hn]; exact BalancedRB.node_build fc .null hbR (fun hx => ⟨rfl, (hred hx).2⟩)
      have hord : OrderedB lo hi (.node (pk, pv) .null R fc) := ⟨hbdhi, trivial, hordR⟩
      have hfill := hp.fill _ hord hbal (fun hh => by simp at hh)
      refine ⟨hfill.1, ⟨n₀, hfill.2.1⟩, ?_⟩
      rw [hfill.2.2]
      have hL' : L.foreach = [(pk, pv)] := by simpa [node_t.foreach] using hforeL
      simp [node_t.foreach, hL']
    | cons P stail' =>
      cases hpath with
      | @blackR _ lo2 _ _ ll2 _ Pk Pv Pl Pr clP _ hrest hbdd hbl hol =>
      rw [eim_red_deep kvp L R fc rest pk pv _ stail' heq]
      simp only [node_t.set_child]
      have hP' : BalancedRB (.node (Pk, Pv) Pl .null .BLACK) .BLACK 1 := .black hbl .null
      have hoP' : OrderedB lo2 (some pk) (.node (Pk, Pv) Pl .null .BLACK) :=
        ⟨hbdd, hol, trivial⟩
      have hfill1 := hrest.fill _ hoP' hP' (fun hh => by simp at hh)
      have hbal : BalancedRB (.node (pk, pv)
          (clone_path stail' (.node (Pk, Pv) Pl .null .BLACK)) R fc) fc n := by
        rw [hn]; exact BalancedRB.node_build fc hfill1.2.1 hbR hred
      have hord : OrderedB lo hi (.node (pk, pv)
          (clone_path stail' (.node (Pk, Pv) Pl .null .BLACK)) R fc) :=
        ⟨hbdhi, hfill1.1, hordR⟩
      have hfill2 := hp.fill _ hord hbal (fun hh => by simp at hh)
      refine ⟨hfill2.1, ⟨n₀, hfill2.2.1⟩, ?_⟩
      rw [hfill2.2.2]
      have hL' : L.foreach = (ll2 ++ Pl.foreach ++ [(Pk, Pv)]) ++ [(pk, pv)] := by
        simpa [node_t.foreach] using hforeL
      simp [node_t.foreach, hfill1.2.2, hL']
  | BLACK =>
    cases hbp with
    | black hbl0 hbr0 =>
    cases hbr0
    cases pl with
    | node q a b plc =>
      cases hbl0 with
      | red ha hb =>
      cases ha
      cases hb
      rw [eim_black_child kvp L R fc rest pk pv q .null .null .RED stail heq]
      have hnc : BalancedRB (.node q .null .null .BLACK) .BLACK 1 := .black .null .null
      have honc : OrderedB lo_p (some pk) (.node q .null .null .BLACK) :=
        ⟨hop.1, trivial, trivial⟩
      have hfill1 := hpath.fill _ honc hnc (fun hh => by simp at hh)
      have hbal : BalancedRB (.node (pk, pv)
          (clone_path stail (.node q .null .null .BLACK)) R fc) fc n := by
        rw [hn]; exact BalancedRB.node_build fc hfill1.2.1 hbR hred
      have hord : OrderedB lo hi (.node (pk, pv)
          (clone_path stail (.node q .null .null .BLACK)) R fc) :=
        ⟨hbdhi, hfill1.1, hordR⟩
      have hfill2 := hp.fill _ hord hbal (fun hh => by simp at hh)
      refine ⟨hfill2.1, ⟨n₀, hfill2.2.1⟩, ?_⟩
      rw [hfill2.2.2]
      have hL' : L.foreach = ll_p ++ [q, (pk, pv)] := by
        simpa [node_t.foreach] using hforeL
      simp [node_t.foreach, hfill1.2.2, hL']
    | null =>
      cases hbl0
      cases stail with
      | nil =>
        cases hpath
        rw [eim_black_leaf_self kvp L R fc rest pk pv (by simpa using heq)]
        have hkeyN : (node_t.node (pk, pv) .null R fc).key? = some pk := rfl
        have hfind := find_clone hp (node_t.node (pk, pv) .null R fc) pk hkeyN hbdhi pk [] hbdhi
        have hself : find_loop (node_t.node (pk, pv) .null R fc)
            (cloneStack rest (node_t.node (pk, pv) .null R fc) ++ []) pk
            = ((node_t.node (pk, pv) .null R fc)
                :: (cloneStack rest (node_t.node (pk, pv) .null R fc) ++ []), true) := by
          simp [find_loop]
        have hp5 : (find_loop (clone_path rest (node_t.node (pk, pv) .null R fc)) [] pk).1
            = (node_t.node (pk, pv) .null R fc)
                :: cloneStack rest (node_t.node (pk, pv) .null R fc) := by
          rw [hfind, hself]; simp
        rw [hp5]
        simp only [List.tail_cons, List.headD_cons]
        have hstack := hp.cloneStack_ok (node_t.node (pk, pv) .null R fc) pk hkeyN hbdhi
        have haux := delete_fixup_ok_aux
          (cloneStack rest (node_t.node (pk, pv) .null R fc)).length.succ
          (cloneStack rest (node_t.node (pk, pv) .null R fc)) (Nat.lt_succ_self _)
          (pk, pv) .null R fc .LEFT 0 lo hi ll rr cR
          (by simpa [node_t.get_child] using
            (BalancedRB.null : BalancedRB (.null : node_t α β) .BLACK 0))
          (by simpa [node_t.get_child, side_t.other] using hbR)
          (fun hx => (hred hx).2)
          ⟨hbdhi, trivial, hordR⟩
          (by rw [show ifaceH fc 0 = n from by cases fc <;> simp [ifaceH, hn]]; exact hstack)
        refine ⟨haux.1, haux.2.1, ?_⟩
        rw [haux.2.2]
        have hL' : L.foreach = [(pk, pv)] := by simpa [node_t.foreach] using hforeL
        simp [node_t.foreach, hL']
      | cons P stail' =>
        cases hpath with
        | @redR _ lo2 _ _ ll2 _ Pk Pv Pl Pr hrest hbdd hbl hol =>
          rw [eim_black_leaf_deep kvp L R fc rest pk pv Pk Pv Pl Pr .RED stail' heq]
          have hkeyN : (node_t.node (pk, pv)
              (clone_path stail' (.node (Pk, Pv) Pl .null .RED)) R fc).key? = some pk := rfl
          have hkeyP : (node_t.node (Pk, Pv) Pl .null .RED).key? = some Pk := rfl
          have hPkpk : Pk < pk := hbdd.2
          have hbdPk0 : bdd lo Pk (some pk) := hrest.bdd_mono Pk hbdd
          have hbdPk : bdd lo Pk hi := ⟨hbdPk0.1, bddHi_of_lt_of_bddHi hbdPk0.2 hbdhi.2⟩
          have h5a := find_clone hp (node_t.node (pk, pv)
              (clone_path stail' (.node (Pk, Pv) Pl .null .RED)) R fc) pk hkeyN hbdhi Pk [] hbdPk
          have h5b : find_loop (node_t.node (pk, pv)
              (clone_path stail' (.node (Pk, Pv) Pl .null .RED)) R fc)
              (cloneStack rest (node_t.node (pk, pv)
                (clone_path stail' (.node (Pk, Pv) Pl .null .RED)) R fc) ++ []) Pk
              = find_loop (clone_path stail' (.node (Pk, Pv) Pl .null .RED))
                ((node_t.node (pk, pv)
                  (clone_path stail' (.node (Pk, Pv) Pl .null .RED)) R fc)
                  :: (cloneStack rest (node_t.node (pk, pv)
                    (clone_path stail' (.node (Pk, Pv) Pl .null .RED)) R fc) ++ [])) Pk := by
            simp [find_loop, ne_of_gt hPkpk, gt_iff_lt, hPkpk]
          have h5c := find_clone hrest (node_t.node (Pk, Pv) Pl .null .RED) Pk hkeyP hbdd Pk
            ((node_t.node (pk, pv)
              (clone_path stail' (.node (Pk, Pv) Pl .null .RED)) R fc)
              :: (cloneStack rest (node_t.node (pk, pv)
                (clone_path stail' (.node (Pk, Pv) Pl .null .RED)) R fc) ++ [])) hbdd
          have h5d : find_loop (node_t.node (Pk, Pv) Pl .null .RED)
              (cloneStack stail' (node_t.node (Pk, Pv) Pl .null .RED)
                ++ ((node_t.node (pk, pv)
                  (clone_path stail' (.node (Pk, Pv) Pl .null .RED)) R fc)
                  :: (cloneStack rest (node_t.node (pk, pv)
                    (clone_path stail' (.node (Pk, Pv) Pl .null .RED)) R fc) ++ []))) Pk
              = ((node_t.node (Pk, Pv) Pl .null .RED)
                  :: (cloneStack stail' (node_t.node (Pk, Pv) Pl .null .RED)
                    ++ ((node_t.node (pk, pv)
                      (clone_path stail' (.node (Pk, Pv) Pl .null .RED)) R fc)
                      :: (cloneStack rest (node_t.node (pk, pv)
                        (clone_path stail' (.node (Pk, Pv) Pl .null .RED)) R fc) ++ []))),
                true) := by
            simp [find_loop]
          have hp5 : (find_loop (clone_path rest (node_t.node (pk, pv)
              (clone_path stail' (.node (Pk, Pv) Pl .null .RED)) R fc)) [] Pk).1
              = (node_t.node (Pk, Pv) Pl .null .RED)
                  :: (cloneStack stail' (node_t.node (Pk, Pv) Pl .null .RED)
                    ++ ((node_t.node (pk, pv)
                      (clone_path stail' (.node (Pk, Pv) Pl .null .RED)) R fc)
                      :: cloneStack rest (node_t.node (pk, pv)
                        (clone_path stail' (.node (Pk, Pv) Pl .null .RED)) R fc))) := by
            rw [h5a, h5b, h5c, h5d]; simp
          rw [hp5]
          simp only [List.tail_cons, List.headD_cons]
          have hstack := hp.cloneStack_ok (node_t.node (pk, pv)
            (clone_path stail' (.node (Pk, Pv) Pl .null .RED)) R fc) pk hkeyN hbdhi
          have hmid : PathOK .BLACK n₀ none none
              ((node_t.node (pk, pv)
                (clone_path stail' (.node (Pk, Pv) Pl .null .RED)) R fc)
                :: cloneStack rest (node_t.node (pk, pv)
                  (clone_path stail' (.node (Pk, Pv) Pl .null .RED)) R fc))
              lo (some pk) cL h ll ((pk, pv) :: (R.foreach ++ rr)) := by
            cases fc with
            | RED =>
              obtain ⟨hcL, hcR⟩ := hred rfl
              subst hcL
              subst hcR
              have hn' : n = h := by simpa using hn
              subst hn'
              exact .redL hstack hbdhi hbR hordR
            | BLACK =>
              have hn' : n = h + 1 := by simpa using hn
              subst hn'
              exact .blackL hstack hbdhi hbR hordR
          have hinner := hrest.cloneStack_ok (node_t.node (Pk, Pv) Pl .null .RED) Pk hkeyP hbdd
          have hfull := hmid.append hinner
          have haux := delete_fixup_ok_aux
            ((cloneStack stail' (node_t.node (Pk, Pv) Pl .null .RED)
              ++ ((node_t.node (pk, pv)
                (clone_path stail' (.node (Pk, Pv) Pl .null .RED)) R fc)
                :: cloneStack rest (node_t.node (pk, pv)
                  (clone_path stail' (.node (Pk, Pv) Pl .null .RED)) R fc))).length.succ)
            _ (Nat.lt_succ_self _)
            (Pk, Pv) Pl .null .RED .RIGHT 0 lo2 (some pk)
            (ll ++ ll2) ((pk, pv) :: (R.foreach ++ rr)) .BLACK
            (by simpa [node_t.get_child] using
              (BalancedRB.null : BalancedRB (.null : node_t α β) .BLACK 0))
            (by simpa [node_t.get_child, side_t.other] using hbl)
            (fun _ => rfl)
            ⟨hbdd, hol, trivial⟩
            (by simpa [ifaceH] using hfull)
          refine ⟨haux.1, haux.2.1, ?_⟩
          rw [haux.2.2]
          have hL' : L.foreach = (ll2 ++ Pl.foreach ++ [(Pk, Pv)]) ++ [(pk, pv)] := by
            simpa [node_t.foreach] using hforeL
          simp [node_t.foreach, hL']
        | @blackR _ lo2 _ _ ll2 _ Pk Pv Pl Pr clP _ hrest hbdd hbl hol =>
          rw [eim_black_leaf_deep kvp L R fc rest pk pv Pk Pv Pl Pr .BLACK stail' heq]
          have hkeyN : (node_t.node (pk, pv)
              (clone_path stail' (.node (Pk, Pv) Pl .null .BLACK)) R fc).key? = some pk := rfl
          have hkeyP : (node_t.node (Pk, Pv) Pl .null .BLACK).key? = some Pk := rfl
          have hPkpk : Pk < pk := hbdd.2
          have hbdPk0 : bdd lo Pk (some pk) := hrest.bdd_mono Pk hbdd
          have hbdPk : bdd lo Pk hi := ⟨hbdPk0.1, bddHi_of_lt_of_bddHi hbdPk0.2 hbdhi.2⟩
          have h5a := find_clone hp (node_t.node (pk, pv)
              (clone_path stail' (.node (Pk, Pv) Pl .null .BLACK)) R fc) pk hkeyN hbdhi Pk [] hbdPk
          have h5b : find_loop (node_t.node (pk, pv)
              (clone_path stail' (.node (Pk, Pv) Pl .null .BLACK)) R fc)
              (cloneStack rest (node_t.node (pk, pv)
                (clone_path stail' (.node (Pk, Pv) Pl .null .BLACK)) R fc) ++ []) Pk
              = find_loop (clone_path stail' (.node (Pk, Pv) Pl .null .BLACK))
                ((node_t.node (pk, pv)
                  (clone_path stail' (.node (Pk, Pv) Pl .null .BLACK)) R fc)
                  :: (cloneStack rest (node_t.node (pk, pv)
                    (clone_path stail' (.node (Pk, Pv) Pl .null .BLACK)) R fc) ++ [])) Pk := by
            simp [find_loop, ne_of_gt hPkpk, gt_iff_lt, hPkpk]
          have h5c := find_clone hrest (node_t.node (Pk, Pv) Pl .null .BLACK) Pk hkeyP hbdd Pk
            ((node_t.node (pk, pv)
              (clone_path stail' (.node (Pk, Pv) Pl .null .BLACK)) R fc)
              :: (cloneStack rest (node_t.node (pk, pv)
                (clone_path stail' (.node (Pk, Pv) Pl .null .BLACK)) R fc) ++ [])) hbdd
          have h5d : find_loop (node_t.node (Pk, Pv) Pl .null .BLACK)
              (cloneStack stail' (node_t.node (Pk, Pv) Pl .null .BLACK)
                ++ ((node_t.node (pk, pv)
                  (clone_path stail' (.node (Pk, Pv) Pl .null .BLACK)) R fc)
                  :: (cloneStack rest (node_t.node (pk, pv)
                    (clone_path stail' (.node (Pk, Pv) Pl .null .BLACK)) R fc) ++ []))) Pk
              = ((node_t.node (Pk, Pv) Pl .null .BLACK)
                  :: (cloneStack stail' (node_t.node (Pk, Pv) Pl .null .BLACK)
                    ++ ((node_t.node (pk, pv)
                      (clone_path stail' (.node (Pk, Pv) Pl .null .BLACK)) R fc)
                      :: (cloneStack rest (node_t.node (pk, pv)
                        (clone_path stail' (.node (Pk, Pv) Pl .null .BLACK)) R fc) ++ []))),
                true) := by
            simp [find_loop]
          have hp5 : (find_loop (clone_path rest (node_t.node (pk, pv)
              (clone_path stail' (.node (Pk, Pv) Pl .null .BLACK)) R fc)) [] Pk).1
              = (node_t.node (Pk, Pv) Pl .null .BLACK)
                  :: (cloneStack stail' (node_t.node (Pk, Pv) Pl .null .BLACK)
                    ++ ((node_t.node (pk, pv)
                      (clone_path stail' (.node (Pk, Pv) Pl .null .BLACK)) R fc)
                      :: cloneStack rest (node_t.node (pk, pv)
                        (clone_path stail' (.node (Pk, Pv) Pl .null .BLACK)) R fc))) := by
            rw [h5a, h5b, h5c, h5d]; simp
          rw [hp5]
          simp only [List.tail_cons, List.headD_cons]
          have hstack := hp.cloneStack_ok (node_t.node (pk, pv)
            (clone_path stail' (.node (Pk, Pv) Pl .null .BLACK)) R fc) pk hkeyN hbdhi
          have hmid : PathOK .BLACK n₀ none none
              ((node_t.node (pk, pv)
                (clone_path stail' (.node (Pk, Pv) Pl .null .BLACK)) R fc)
                :: cloneStack rest (node_t.node (pk, pv)
                  (clone_path stail' (.node (Pk, Pv) Pl .null .BLACK)) R fc))
              lo (some pk) cL h ll ((pk, pv) :: (R.foreach ++ rr)) := by
            cases fc with
            | RED =>
              obtain ⟨hcL, hcR⟩ := hred rfl
              subst hcL
              subst hcR
              have hn' : n = h := by simpa using hn
              subst hn'
              exact .redL hstack hbdhi hbR hordR
            | BLACK =>
              have hn' : n = h + 1 := by simpa using hn
              subst hn'
              exact .blackL hstack hbdhi hbR hordR
          have hinner := hrest.cloneStack_ok (node_t.node (Pk, Pv) Pl .null .BLACK) Pk hkeyP hbdd
          have hfull := hmid.append hinner
          have haux := delete_fixup_ok_aux
            ((cloneStack stail' (node_t.node (Pk, Pv) Pl .null .BLACK)
              ++ ((node_t.node (pk, pv)
                (clone_path stail' (.node (Pk, Pv) Pl .null .BLACK)) R fc)
                :: cloneStack rest (node_t.node (pk, pv)
                  (clone_path stail' (.node (Pk, Pv) Pl .null .BLACK)) R fc))).length.succ)
            _ (Nat.lt_succ_self _)
            (Pk, Pv) Pl .null .BLACK .RIGHT 0 lo2 (some pk)
            (ll ++ ll2) ((pk, pv) :: (R.foreach ++ rr)) clP
            (by simpa [node_t.get_child] using
              (BalancedRB.null : BalancedRB (.null : node_t α β) .BLACK 0))
            (by simpa [node_t.get_child, side_t.other] using hbl)
            (fun hx => by simp at hx)
            ⟨hbdd, hol, trivial⟩
            (by simpa [ifaceH] using hfull)
          refine ⟨haux.1, haux.2.1, ?_⟩
          rw [haux.2.2]
          have hL' : L.foreach = (ll2 ++ Pl.foreach ++ [(Pk, Pv)]) ++ [(pk, pv)] := by
            simpa [node_t.foreach] using hforeL
          simp [node_t.foreach, hL']

theorem erase_imp_ok {n₀ : Nat} (kvp : α × β) (L R : node_t α β) (fc : color_t)
    (rest : path_t α β) (lo hi : Option α) (n : Nat) (ll rr : List (α × β))
    (hbF : BalancedRB (.node kvp L R fc) fc n)
    (hoF : OrderedB lo hi (.node kvp L R fc))
    (hp : PathOK .BLACK n₀ none none rest lo hi fc n ll rr) :
    OrderedB none none (erase_imp (.node kvp L R fc :: rest)) ∧
    (∃ m, BalancedRB (erase_imp (.node kvp L R fc :: rest)) .BLACK m) ∧
    (erase_imp (.node kvp L R fc :: rest)).foreach
      = ll ++ (L.foreach ++ R.foreach) ++ rr := by
  cases L with
  | node Lq La Lb Lc =>
    cases R with
    | node Rq Ra Rb Rc =>
      -- two children: handled by `erase_intermediate_node`
      have hEq : erase_imp ((node_t.node kvp (.node Lq La Lb Lc) (.node Rq Ra Rb Rc) fc) :: rest)
          = erase_intermediate_node
              ((node_t.node kvp (.node Lq La Lb Lc) (.node Rq Ra Rb Rc) fc) :: rest) := by
        rw [erase_imp.eq_def]
        simp [node_t.get_child, node_t.isNull]
      rw [hEq]
      exact erase_intermediate_ok kvp _ _ fc rest lo hi n ll rr (by simp) hbF hoF hp
    | null =>
      -- only a left child: it is a red leaf, recolored black in place
      cases hbF with
      | red hbl hbr =>
        cases hbr
        cases hbl
      | black hbl hbr =>
        cases hbr
        cases hbl with
        | red ha hb =>
        cases ha
        cases hb
        have hEq : erase_imp ((node_t.node kvp
            (.node Lq .null .null .RED) .null .BLACK) :: rest)
            = clone_path rest (.node Lq .null .null .BLACK) := by
          rw [erase_imp.eq_def]
          simp [node_t.get_child, node_t.isNull, node_t.set_color]
        rw [hEq]
        have hord : OrderedB lo hi (.node Lq .null .null .BLACK) :=
          ⟨⟨hoF.2.1.1.1, bddHi_of_lt_of_bddHi hoF.2.1.1.2 hoF.1.2⟩, trivial, trivial⟩
        have hfill := hp.fill _ hord (.black .null .null) (fun hh => by simp at hh)
        refine ⟨hfill.1, ⟨n₀, hfill.2.1⟩, ?_⟩
        rw [hfill.2.2]
        simp [node_t.foreach]
  | null =>
    cases R with
    | node Rq Ra Rb Rc =>
      -- only a right child: it is a red leaf, recolored black in place
      cases hbF with
      | red hbl hbr =>
        cases hbl
        cases hbr
      | black hbl hbr =>
        cases hbl
        cases hbr with
        | red ha hb =>
        cases ha
        cases hb
        have hEq : erase_imp ((node_t.node kvp
            .null (.node Rq .null .null .RED) .BLACK) :: rest)
            = clone_path rest (.node Rq .null .null .BLACK) := by
          rw [erase_imp.eq_def]
          simp [node_t.get_child, node_t.isNull, node_t.set_color]
        rw [hEq]
        have hord : OrderedB lo hi (.node Rq .null .null .BLACK) :=
          ⟨⟨bddLo_of_bddLo_of_lt hoF.1.1 hoF.2.2.1.1, hoF.2.2.1.2⟩, trivial, trivial⟩
        have hfill := hp.fill _ hord (.black .null .null) (fun hh => by simp at hh)
        refine ⟨hfill.1, ⟨n₀, hfill.2.1⟩, ?_⟩
        rw [hfill.2.2]
        simp [node_t.foreach]
    | null =>
      -- a leaf
      cases fc with
      | RED =>
        -- a red leaf can be unlinked from its parent directly
        cases hbF with
        | red hbl hbr =>
        cases hbl
        cases hbr
        cases rest with
        | nil => cases hp
        | cons parent rest2 =>
          cases hp with
          | @blackL _ _ hi2 _ _ rr2 k v l r cr _ hrest hbdd hbr2 hor2 =>
            have hks : kvp.1 < k := hoF.1.2
            have hEq : erase_imp ((node_t.node kvp .null .null .RED)
                :: (node_t.node (k, v) l r .BLACK) :: rest2)
                = clone_path rest2 (.node (k, v) .null r .BLACK) := by
              rw [erase_imp.eq_def]
              simp [node_t.get_child, node_t.isNull, node_t.is_red, key_side, node_t.key?,
                hks, node_t.set_child]
            rw [hEq]
            have hfill := hrest.fill (.node (k, v) .null r .BLACK) ⟨hbdd, trivial, hor2⟩
              (.black .null hbr2) (fun hh => by simp at hh)
            refine ⟨hfill.1, ⟨n₀, hfill.2.1⟩, ?_⟩
            rw [hfill.2.2]
            simp [node_t.foreach]
          | @blackR _ lo2 _ _ ll2 _ k v l r cl _ hrest hbdd hbl2 hol2 =>
            have hks : k < kvp.1 := hoF.1.1
            have hEq : erase_imp ((node_t.node kvp .null .null .RED)
                :: (node_t.node (k, v) l r .BLACK) :: rest2)
                = clone_path rest2 (.node (k, v) l .null .BLACK) := by
              rw [erase_imp.eq_def]
              simp [node_t.get_child, node_t.isNull, node_t.is_red, key_side, node_t.key?,
                not_lt_of_gt hks, node_t.set_child]
            rw [hEq]
            have hfill := hrest.fill (.node (k, v) l .null .BLACK) ⟨hbdd, hol2, trivial⟩
              (.black hbl2 .null) (fun hh => by simp at hh)
            refine ⟨hfill.1, ⟨n₀, hfill.2.1⟩, ?_⟩
            rw [hfill.2.2]
            simp [node_t.foreach]
      | BLACK =>
        -- a black leaf: removal causes a deficit repaired by `delete_fixup`
        cases hbF with
        | black hbl hbr =>
        cases hbl
        cases hbr
        cases rest with
        | nil =>
          cases hp
          have hEq : erase_imp [node_t.node kvp .null .null .BLACK] = .null := by
            rw [erase_imp.eq_def]
            simp [node_t.get_child, node_t.isNull, node_t.is_red]
          rw [hEq]
          exact ⟨trivial, ⟨0, .null⟩, by simp [node_t.foreach]⟩
        | cons parent rest2 =>
          cases hp with
          | @redL _ _ hi2 _ _ rr2 k v l r hrest hbdd hbr2 hor2 =>
            have hks : kvp.1 < k := hoF.1.2
            have hEq : erase_imp ((node_t.node kvp .null .null .BLACK)
                :: (node_t.node (k, v) l r .RED) :: rest2)
                = delete_fixup rest2 (.node (k, v) .null r .RED) .LEFT := by
              rw [erase_imp.eq_def]
              simp [node_t.get_child, node_t.isNull, node_t.is_red, key_side, node_t.key?,
                hks, node_t.set_child]
            rw [hEq]
            have haux := delete_fixup_ok_aux rest2.length.succ rest2 (Nat.lt_succ_self _)
              (k, v) .null r .RED .LEFT 0 _ hi2 ll rr2 .BLACK
              (by simpa [node_t.get_child] using
                (BalancedRB.null : BalancedRB (.null : node_t α β) .BLACK 0))
              (by simpa [node_t.get_child, side_t.other] using hbr2)
              (fun _ => rfl)
              ⟨hbdd, trivial, hor2⟩
              (by simpa [ifaceH] using hrest)
            refine ⟨haux.1, haux.2.1, ?_⟩
            rw [haux.2.2]
            simp [node_t.foreach]
          | @redR _ lo2 _ _ ll2 _ k v l r hrest hbdd hbl2 hol2 =>
            have hks : k < kvp.1 := hoF.1.1
            have hEq : erase_imp ((node_t.node kvp .null .null .BLACK)
                :: (node_t.node (k, v) l r .RED) :: rest2)
                = delete_fixup rest2 (.node (k, v) l .null .RED) .RIGHT := by
              rw [erase_imp.eq_def]
              simp [node_t.get_child, node_t.isNull, node_t.is_red, key_side, node_t.key?,
                not_lt_of_gt hks, node_t.set_child]
            rw [hEq]
            have haux := delete_fixup_ok_aux rest2.length.succ rest2 (Nat.lt_succ_self _)
              (k, v) l .null .RED .RIGHT 0 lo2 _ ll2 rr .BLACK
              (by simpa [node_t.get_child] using
                (BalancedRB.null : BalancedRB (.null : node_t α β) .BLACK 0))
              (by simpa [node_t.get_child, side_t.other] using hbl2)
              (fun _ => rfl)
              ⟨hbdd, hol2, trivial⟩
              (by simpa [ifaceH] using hrest)
            refine ⟨haux.1, haux.2.1, ?_⟩
            rw [haux.2.2]
            simp [node_t.foreach]
          | @blackL _ _ hi2 _ _ rr2 k v l r cr _ hrest hbdd hbr2 hor2 =>
            have hks : kvp.1 < k := hoF.1.2
            have hEq : erase_imp ((node_t.node kvp .null .null .BLACK)
                :: (node_t.node (k, v) l r .BLACK) :: rest2)
                = delete_fixup rest2 (.node (k, v) .null r .BLACK) .LEFT := by
              rw [erase_imp.eq_def]
              simp [node_t.get_child, node_t.isNull, node_t.is_red, key_side, node_t.key?,
                hks, node_t.set_child]
            rw [hEq]
            have haux := delete_fixup_ok_aux rest2.length.succ rest2 (Nat.lt_succ_self _)
              (k, v) .null r .BLACK .LEFT 0 _ hi2 ll rr2 cr
              (by simpa [node_t.get_child] using
                (BalancedRB.null : BalancedRB (.null : node_t α β) .BLACK 0))
              (by simpa [node_t.get_child, side_t.other] using hbr2)
              (fun hx => by simp at hx)
              ⟨hbdd, trivial, hor2⟩
              (by simpa [ifaceH] using hrest)
            refine ⟨haux.1, haux.2.1, ?_⟩
            rw [haux.2.2]
            simp [node_t.foreach]
          | @blackR _ lo2 _ _ ll2 _ k v l r cl _ hrest hbdd hbl2 hol2 =>
            have hks : k < kvp.1 := hoF.1.1
            have hEq : erase_imp ((node_t.node kvp .null .null .BLACK)
                :: (node_t.node (k, v) l r .BLACK) :: rest2)
                = delete_fixup rest2 (.node (k, v) l .null .BLACK) .RIGHT := by
              rw [erase_imp.eq_def]
              simp [node_t.get_child, node_t.isNull, node_t.is_red, key_side, node_t.key?,
                not_lt_of_gt hks, node_t.set_child]
            rw [hEq]
            have haux := delete_fixup_ok_aux rest2.length.succ rest2 (Nat.lt_succ_self _)
              (k, v) l .null .BLACK .RIGHT 0 lo2 _ ll2 rr cl
              (by simpa [node_t.get_child] using
                (BalancedRB.null : BalancedRB (.null : node_t α β) .BLACK 0))
              (by simpa [node_t.get_child, side_t.other] using hbl2)
              (fun hx => by simp at hx)
              ⟨hbdd, hol2, trivial⟩
              (by simpa [ifaceH] using hrest)
            refine ⟨haux.1, haux.2.1, ?_⟩
            rw [haux.2.2]
            simp [node_t.foreach]

/-- Everything `erase` guarantees: the invariant is preserved, the contents
are the association-list removal, and the size shrinks exactly when the key
was present. -/
theorem erase_ok (m : immutable_map α β) (key : α) (hv : Valid m) :
    Valid (m.erase key) ∧ (m.erase key).foreach = listErase key m.foreach ∧
      (m.erase key).size_ = (if m.contains key then m.size_ - 1 else m.size_) := by
  obtain ⟨hord, ⟨n₀, hbal⟩, hsz⟩ := hv
  rcases hfp : find_loop m.root_ [] key with ⟨p, b⟩
  have hcont : m.contains key = b := by simp [immutable_map.contains, hfp]
  have hspec := find_loop_spec m.root_ none none .BLACK n₀ [] [] [] key hord hbal .root
    ⟨trivial, trivial⟩
  rw [hfp] at hspec
  cases b with
  | false =>
    obtain ⟨lo', hi', c', ll', rr', hpath, hbdd', hfull⟩ := hspec.2 rfl
    simp only [List.nil_append, List.append_nil] at hfull
    have hres : m.erase key = m := by
      simp [immutable_map.erase, hfp]
    have habs : ∀ kv ∈ m.foreach, kv.1 ≠ key := by
      intro kv hkv
      have hkv2 : kv ∈ ll' ++ rr' := by rw [hfull]; exact hkv
      rcases List.mem_append.1 hkv2 with h1 | h2
      · exact ne_of_lt (hpath.ll_lt hbdd'.1 kv h1)
      · exact ne_of_gt (hpath.rr_gt hbdd'.2 kv h2)
    rw [hres, hcont]
    exact ⟨⟨hord, ⟨n₀, hbal⟩, hsz⟩, (listErase_absent _ _ habs).symm, by simp⟩
  | true =>
    obtain ⟨kvp', l, r, xc, rest, lo', hi', n', ll', rr', hpeq, hkey', hpath, hbal', hord',
      hbdd', hfull⟩ := hspec.1 rfl
    simp only [List.nil_append, List.append_nil] at hfull
    have hres : m.erase key = ⟨erase_imp p, m.size_ - 1⟩ := by
      simp [immutable_map.erase, hfp]
    have hpeq2 : p = node_t.node kvp' l r xc :: rest := hpeq
    rw [hpeq2] at hres
    have heimp := erase_imp_ok kvp' l r xc rest lo' hi' n' ll' rr' hbal' hord' hpath
    have hll : ∀ kv ∈ ll' ++ l.foreach, kv.1 ≠ key := by
      intro kv hkv
      rcases List.mem_append.1 hkv with h1 | h2
      · exact ne_of_lt (hpath.ll_lt hbdd'.1 kv h1)
      · have := (hord'.2.1).foreach_bdd kv h2
        rw [hkey'] at this
        exact ne_of_lt this.2
    have hmfore : m.foreach = (ll' ++ l.foreach) ++ kvp' :: (r.foreach ++ rr') := by
      rw [show m.foreach = ll' ++ (node_t.node kvp' l r xc).foreach ++ rr' from hfull.symm]
      simp [node_t.foreach]
    have hforeach : (m.erase key).foreach = listErase key m.foreach := by
      rw [hres]
      show (erase_imp (node_t.node kvp' l r xc :: rest)).foreach = _
      rw [heimp.2.2]
      rw [hmfore, listErase_splice _ _ kvp' key hll hkey']
      simp
    refine ⟨⟨?_, ?_, ?_⟩, hforeach, ?_⟩
    · rw [hres]; exact heimp.1
    · rw [hres]; exact heimp.2.1
    · rw [hforeach]
      have hsz2 : (m.erase key).size_ = m.size_ - 1 := by rw [hres]
      rw [hsz2, hsz]
      rw [hmfore, listErase_splice _ _ kvp' key hll hkey']
      simp
      omega
    · rw [hcont, hres]; simp

/-- The node-level `validate` succeeds with depth `n` exactly on subtrees
satisfying the color and black-height invariants (it does not look at the
keys). -/
theorem validate_ok_iff : ∀ (t : node_t α β) (n : Nat),
    t.validate = .ok n ↔ ∃ c, BalancedRB t c n := by
  intro t
  induction t with
  | null =>
    intro n
    constructor
    · intro h
      simp [node_t.validate] at h
      exact ⟨.BLACK, h ▸ .null⟩
    · rintro ⟨c, hc⟩
      obtain ⟨hc1, hn⟩ := hc.null_inv
      subst hn
      rfl
  | node kvp l r c ihl ihr =>
    intro n
    constructor
    · intro h
      simp only [node_t.validate] at h
      by_cases hrr : c = .RED ∧ (l.is_red ∨ r.is_red)
      · rw [if_pos hrr] at h
        exact absurd h (by simp)
      · rw [if_neg hrr] at h
        rcases hvl : l.validate with e1 | d1 <;> rw [hvl] at h
        · simp at h
        rcases hvr : r.validate with e2 | d2 <;> rw [hvr] at h
        · simp at h
        by_cases hd : d1 = d2
        · subst hd
          simp only [ne_eq, not_true_eq_false, if_false, ite_not] at h
          obtain ⟨cl, hcl⟩ := (ihl d1).1 hvl
          obtain ⟨cr, hcr⟩ := (ihr d1).1 hvr
          cases c with
          | RED =>
            have hnored : ¬(l.is_red ∨ r.is_red) := fun hx => hrr ⟨rfl, hx⟩
            have hlb : cl = .BLACK :=
              hcl.black_of_not_red (by simpa using fun hx => hnored (Or.inl hx))
            have hrb : cr = .BLACK :=
              hcr.black_of_not_red (by simpa using fun hx => hnored (Or.inr hx))
            subst hlb
            subst hrb
            have hn : d1 = n := by simpa using h
            exact ⟨.RED, hn ▸ .red hcl hcr⟩
          | BLACK =>
            have hn : d1 + 1 = n := by simpa using h
            exact ⟨.BLACK, hn ▸ .black hcl hcr⟩
        · simp [hd] at h
    · rintro ⟨c2, hc⟩
      cases hc with
      | red hbl hbr =>
        have hvl : l.validate = .ok n := (ihl n).2 ⟨.BLACK, hbl⟩
        have hvr : r.validate = .ok n := (ihr n).2 ⟨.BLACK, hbr⟩
        simp only [node_t.validate]
        rw [if_neg (by simp [hbl.not_red, hbr.not_red])]
        rw [hvl, hvr]
        simp
      | @black _ _ _ cl cr m hbl hbr =>
        have hvl : l.validate = .ok m := (ihl m).2 ⟨cl, hbl⟩
        have hvr : r.validate = .ok m := (ihr m).2 ⟨cr, hbr⟩
        simp only [node_t.validate]
        rw [if_neg (by simp)]
        rw [hvl, hvr]
        simp

/-- The map-level `validate` succeeds exactly on roots satisfying the color
and black-height invariants with a black root. -/
theorem map_validate_iff (m : immutable_map α β) :
    m.validate = .ok () ↔ ∃ n, BalancedRB m.root_ .BLACK n := by
  constructor
  · intro h
    rw [immutable_map.validate] at h
    by_cases hred : m.root_.is_red
    · rw [if_pos hred] at h
      exact absurd h (by simp)
    · rw [if_neg hred] at h
      rcases hv : m.root_.validate with e | d <;> rw [hv] at h
      · exact absurd h (by simp)
      · obtain ⟨c, hb⟩ := (validate_ok_iff m.root_ d).1 hv
        have : c = .BLACK := hb.black_of_not_red (by simpa using hred)
        subst this
        exact ⟨d, hb⟩
  · rintro ⟨n, hb⟩
    rw [immutable_map.validate]
    rw [if_neg (by simp [hb.not_red])]
    rw [(validate_ok_iff m.root_ n).2 ⟨.BLACK, hb⟩]

/-- The maps reachable from the empty map through the two mutators. -/
inductive Reachable : immutable_map α β → Prop where
  | empty : Reachable .empty
  | insert {m : immutable_map α β} (kvp : α × β) :
      Reachable m → Reachable (m.insert kvp)
  | erase {m : immutable_map α β} (key : α) :
      Reachable m → Reachable (m.erase key)

/-- Every reachable map satisfies the full invariant. -/
theorem Reachable.valid {m : immutable_map α β} (h : Reachable m) : Valid m := by
  induction h with
  | empty => exact empty_valid
  | insert kvp _ ih => exact (insert_ok _ kvp ih).1
  | erase key _ ih => exact (erase_ok _ key ih).1

theorem lookupKey_listInsert (kvp : α × β) (L : List (α × β)) :
    lookupKey (listInsert kvp L) kvp.1 = some kvp.2 := by
  induction L with
  | nil => simp [listInsert, lookupKey]
  | cons kv rest ih =>
    by_cases h1 : kv.1 < kvp.1
    · simp [listInsert, h1, lookupKey, ne_of_lt h1, ih]
    · by_cases h2 : kv.1 = kvp.1
      · simp [listInsert, h1, h2, lookupKey]
      · simp [listInsert, h1, h2, lookupKey]

theorem lookupKey_none_forall (L : List (α × β)) (k : α) (h : lookupKey L k = none) :
    ∀ kv ∈ L, kv.1 ≠ k := by
  induction L with
  | nil => intro kv hkv; simp at hkv
  | cons x rest ih =>
    intro kv hkv
    rw [lookupKey] at h
    by_cases hx : x.1 = k
    · simp [hx] at h
    · rw [if_neg hx] at h
      rcases List.mem_cons.1 hkv with rfl | hm
      · exact hx
      · exact ih h kv hm

theorem listErase_listInsert (kvp : α × β) (L : List (α × β))
    (h : ∀ kv ∈ L, kv.1 ≠ kvp.1) :
    listErase kvp.1 (listInsert kvp L) = L := by
  induction L with
  | nil => simp [listInsert, listErase]
  | cons kv rest ih =>
    have hne : kv.1 ≠ kvp.1 := h kv (List.mem_cons_self kv rest)
    by_cases h1 : kv.1 < kvp.1
    · simp only [listInsert, if_pos h1, listErase, if_neg hne]
      rw [ih fun x hx => h x (List.mem_cons_of_mem kv hx)]
    · simp [listInsert, h1, hne, listErase]

/-- A perfect all-black tree of the given black height over an open rational
interval; a witness family for arbitrarily long search paths in trees that
satisfy every red-black invariant. -/
def fullBlack : Nat → ℚ → ℚ → node_t ℚ Unit
  | 0, _, _ => .null
  | m + 1, lo, hi =>
    .node ((lo + hi) / 2, ())
      (fullBlack m lo ((lo + hi) / 2)) (fullBlack m ((lo + hi) / 2) hi) .BLACK

theorem fullBlack_balanced : ∀ (m : Nat) (lo hi : ℚ),
    BalancedRB (fullBlack m lo hi) .BLACK m := by
  intro m
  induction m with
  | zero => intro lo hi; exact .null
  | succ m ih => intro lo hi; exact .black (ih _ _) (ih _ _)

theorem fullBlack_ordered : ∀ (m : Nat) (lo hi : ℚ), lo < hi →
    OrderedB (some lo) (some hi) (fullBlack m lo hi) := by
  intro m
  induction m with
  | zero => intro lo hi _; trivial
  | succ m ih =>
    intro lo hi hlt
    have h1 : lo < (lo + hi) / 2 := by linarith
    have h2 : (lo + hi) / 2 < hi := by linarith
    exact ⟨⟨h1, h2⟩, ih _ _ h1, ih _ _ h2⟩

theorem fullBlack_find_len : ∀ (m : Nat) (lo hi : ℚ) (acc : path_t ℚ Unit), lo < hi →
    ((find_loop (fullBlack m lo hi) acc lo).1).length = m + acc.length := by
  intro m
  induction m with
  | zero => intro lo hi acc _; simp [fullBlack, find_loop]
  | succ m ih =>
    intro lo hi acc hlt
    have h1 : lo < (lo + hi) / 2 := by linarith
    rw [show fullBlack (m + 1) lo hi = .node ((lo + hi) / 2, ())
      (fullBlack m lo ((lo + hi) / 2)) (fullBlack m ((lo + hi) / 2) hi) .BLACK from rfl]
    rw [find_loop]
    simp only [ne_of_gt h1, if_false, gt_iff_lt, h1, if_true]
    rw [ih lo ((lo + hi) / 2) _ h1]
    simp
    omega

/-- C1: every map built by any finite sequence of `insert`/`erase` from the
empty map satisfies all red-black invariants: binary-search-tree ordering,
and (through the balance predicate with black root and through `validate`
succeeding) no red node with a red child, equal black height on every
downward path, and a black root. -/
theorem reachable_maps_satisfy_invariants (m : immutable_map α β) (h : Reachable m) :
    OrderedB none none m.root_ ∧ (∃ n, BalancedRB m.root_ .BLACK n) ∧
      m.validate = .ok () := by
  have hv := h.valid
  exact ⟨hv.1, hv.2.1, (map_validate_iff m).2 hv.2.1⟩

/-- Witness for C1: the README sequence insert 10, 15, 20 then erase 15. -/
theorem reachable_maps_satisfy_invariants_witness :
    OrderedB none none (((((immutable_map.empty : immutable_map ℤ ℚ).insert
        (10, 3.14)).insert (15, 6.28)).insert (20, 3.14)).erase 15).root_ ∧
    (∃ n, BalancedRB (((((immutable_map.empty : immutable_map ℤ ℚ).insert
        (10, 3.14)).insert (15, 6.28)).insert (20, 3.14)).erase 15).root_ .BLACK n) ∧
    (((((immutable_map.empty : immutable_map ℤ ℚ).insert (10, 3.14)).insert
        (15, 6.28)).insert (20, 3.14)).erase 15).validate = .ok () :=
  reachable_maps_satisfy_invariants _
    (Reachable.erase 15 (.insert (20, 3.14) (.insert (15, 6.28)
      (.insert (10, 3.14) .empty))))

/-- C3: `at` after `insert` returns the inserted value; re-inserting an
existing key keeps the size and replaces the value; inserting an absent key
grows the size by one. -/
theorem insert_at_size_algebra (m : immutable_map α β) (k : α) (v v1 v2 : β)
    (hv : Valid m) :
    (m.insert (k, v)).atKey k = some v ∧
    ((m.insert (k, v1)).insert (k, v2)).size = (m.insert (k, v1)).size ∧
    ((m.insert (k, v1)).insert (k, v2)).atKey k = some v2 ∧
    (m.contains k = false → (m.insert (k, v)).size = m.size + 1) := by
  have h1 := insert_ok m (k, v) hv
  have h1' := insert_ok m (k, v1) hv
  have h2 := insert_ok (m.insert (k, v1)) (k, v2) h1'.1
  refine ⟨?_, ?_, ?_, ?_⟩
  · rw [atKey_spec _ _ h1.1, h1.2.1]
    exact lookupKey_listInsert (k, v) m.foreach
  · have hc : (m.insert (k, v1)).contains k = true := by
      rw [contains_spec _ _ h1'.1, h1'.2.1,
        show lookupKey (listInsert (k, v1) m.foreach) k = some v1 from
          lookupKey_listInsert (k, v1) m.foreach]
      rfl
    simp only [immutable_map.size]
    rw [h2.2.2, hc]
    simp
  · rw [atKey_spec _ _ h2.1, h2.2.1]
    exact lookupKey_listInsert (k, v2) _
  · intro hc
    simp only [immutable_map.size]
    rw [h1.2.2, hc]
    simp

/-- Witness for C3: the singleton map over ℤ/ℚ. -/
theorem insert_at_size_algebra_witness :
    (((immutable_map.empty : immutable_map ℤ ℚ).insert (1, 2)).insert (7, 5)).atKey 7
        = some 5 ∧
    ((((immutable_map.empty : immutable_map ℤ ℚ).insert (1, 2)).insert (7, 6)).insert
        (7, 8)).size
      = (((immutable_map.empty : immutable_map ℤ ℚ).insert (1, 2)).insert (7, 6)).size ∧
    ((((immutable_map.empty : immutable_map ℤ ℚ).insert (1, 2)).insert (7, 6)).insert
        (7, 8)).atKey 7 = some 8 ∧
    (((immutable_map.empty : immutable_map ℤ ℚ).insert (1, 2)).contains 7 = false →
      (((immutable_map.empty : immutable_map ℤ ℚ).insert (1, 2)).insert (7, 5)).size
        = ((immutable_map.empty : immutable_map ℤ ℚ).insert (1, 2)).size + 1) :=
  insert_at_size_algebra ((immutable_map.empty : immutable_map ℤ ℚ).insert (1, 2))
    7 5 6 8 (insert_ok _ (1, 2) empty_valid).1

/-- C4: erasing a freshly inserted absent key restores the size and the
in-order traversal; erasing an absent key changes nothing. -/
theorem erase_insert_roundtrip (m : immutable_map α β) (k : α) (v : β)
    (hv : Valid m) (habs : m.contains k = false) :
    ((m.insert (k, v)).erase k).size = m.size ∧
    ((m.insert (k, v)).erase k).foreach = m.foreach ∧
    (m.erase k).size = m.size ∧ (m.erase k).foreach = m.foreach := by
  have h1 := insert_ok m (k, v) hv
  have h2 := erase_ok (m.insert (k, v)) k h1.1
  have he := erase_ok m k hv
  have habs' : ∀ kv ∈ m.foreach, kv.1 ≠ k := by
    apply lookupKey_none_forall
    have hcs := contains_spec m k hv
    rw [habs] at hcs
    cases hls : lookupKey m.foreach k with
    | none => rfl
    | some w => rw [hls] at hcs; simp at hcs
  have hc1 : (m.insert (k, v)).contains k = true := by
    rw [contains_spec _ _ h1.1, h1.2.1,
      show lookupKey (listInsert (k, v) m.foreach) k = some v from
        lookupKey_listInsert (k, v) m.foreach]
    rfl
  refine ⟨?_, ?_, ?_, ?_⟩
  · simp only [immutable_map.size]
    rw [h2.2.2, hc1, h1.2.2, habs]
    simp
  · rw [h2.2.1, h1.2.1]
    exact listErase_listInsert (k, v) m.foreach habs'
  · simp only [immutable_map.size]
    rw [he.2.2, habs]
    simp
  · rw [he.2.1]
    exact listErase_absent m.foreach k habs'

/-- Witness for C4: inserting then erasing key 7 in the singleton {1 ↦ 2}. -/
theorem erase_insert_roundtrip_witness :
    ((((immutable_map.empty : immutable_map ℤ ℚ).insert (1, 2)).insert (7, 5)).erase
        7).size = ((immutable_map.empty : immutable_map ℤ ℚ).insert (1, 2)).size ∧
    ((((immutable_map.empty : immutable_map ℤ ℚ).insert (1, 2)).insert (7, 5)).erase
        7).foreach = ((immutable_map.empty : immutable_map ℤ ℚ).insert (1, 2)).foreach ∧
    (((immutable_map.empty : immutable_map ℤ ℚ).insert (1, 2)).erase 7).size
        = ((immutable_map.empty : immutable_map ℤ ℚ).insert (1, 2)).size ∧
    (((immutable_map.empty : immutable_map ℤ ℚ).insert (1, 2)).erase 7).foreach
        = ((immutable_map.empty : immutable_map ℤ ℚ).insert (1, 2)).foreach :=
  erase_insert_roundtrip ((immutable_map.empty : immutable_map ℤ ℚ).insert (1, 2))
    7 5 (insert_ok _ (1, 2) empty_valid).1
    (by rw [contains_spec _ _ (insert_ok _ (1, 2) empty_valid).1,
      (insert_ok (immutable_map.empty : immutable_map ℤ ℚ) (1, 2) empty_valid).2.1]
        ; decide)

/-- C5: for every reachable map, the traversal visits the pairs in strictly
ascending key order (hence each exactly once) and visits exactly `size()`
pairs. -/
theorem foreach_sorted_and_sized (m : immutable_map α β) (h : Reachable m) :
    m.foreach.Pairwise (fun a b => a.1 < b.1) ∧ m.foreach.length = m.size := by
  have hv := h.valid
  exact ⟨hv.1.foreach_pairwise, hv.2.2.symm⟩

/-- Witness for C5: the README map after the three inserts. -/
theorem foreach_sorted_and_sized_witness :
    ((((immutable_map.empty : immutable_map ℤ ℚ).insert (10, 3.14)).insert
        (15, 6.28)).insert (20, 3.14)).foreach.Pairwise (fun a b => a.1 < b.1) ∧
    ((((immutable_map.empty : immutable_map ℤ ℚ).insert (10, 3.14)).insert
        (15, 6.28)).insert (20, 3.14)).foreach.length
      = ((((immutable_map.empty : immutable_map ℤ ℚ).insert (10, 3.14)).insert
        (15, 6.28)).insert (20, 3.14)).size :=
  foreach_sorted_and_sized _
    (Reachable.insert (20, 3.14) (.insert (15, 6.28) (.insert (10, 3.14) .empty)))

/-- C6: refuted — the path storage IS fixed to the compile-time constant
`sizeof(size_t)*16` (128 slots on a 64-bit platform), and valid red-black
trees exist whose search path is longer than 128 nodes: a perfect all-black
tree of black height 129 satisfies every invariant, yet searching it pushes
129 nodes, so `path::push` would write past the fixed array.  This theorem
exhibits the family. -/
theorem search_path_exceeds_fixed_capacity :
    ∃ (T : node_t ℚ Unit) (key : ℚ),
      OrderedB none none T ∧ (∃ n, BalancedRB T .BLACK n) ∧
        128 < ((find_loop T [] key).1).length := by
  refine ⟨fullBlack 129 0 1, 0, ?_, ⟨129, fullBlack_balanced 129 0 1⟩, ?_⟩
  · exact (fullBlack_ordered 129 0 1 (by norm_num)).weaken
      (fun x _ => trivial) (fun x _ => trivial)
  · rw [fullBlack_find_len 129 0 1 [] (by norm_num)]
    simp

/-- C7 (amended): `validate` succeeds exactly when the color and
black-height invariants hold with a black root; it does not inspect the
binary-search-tree ordering of the keys. -/
theorem validate_characterization_colors_only (m : immutable_map α β) :
    m.validate = .ok () ↔ ∃ n, BalancedRB m.root_ .BLACK n :=
  map_validate_iff m

/-- C7 counterexample: a three-node all-black tree whose keys violate the
binary-search-tree order (left child key 2 above root key 1, right child
key 0 below it) passes `validate`, so `validate` does not check the
ordering invariant the claim attributes to it. -/
theorem validate_accepts_unordered_tree :
    (immutable_map.mk (node_t.node ((1 : ℤ), ()) (.node (2, ()) .null .null .BLACK)
        (.node (0, ()) .null .null .BLACK) .BLACK) 3).validate = .ok () ∧
    ¬ OrderedB none none (node_t.node ((1 : ℤ), ()) (.node (2, ()) .null .null .BLACK)
        (.node (0, ()) .null .null .BLACK) .BLACK) := by
  constructor
  · rfl
  · decide

/-- C8: `at` returns `none` (the C++ throws `KeyNotFound`) exactly when the
key is absent, returns the stored value otherwise, and `erase` of an absent
key is the identity (total, never fails). -/
theorem atKey_none_iff_absent (m : immutable_map α β) (k : α) (hv : Valid m) :
    (m.atKey k = none ↔ m.contains k = false) ∧
    (∀ v, m.atKey k = some v → lookupKey m.foreach k = some v) ∧
    (m.contains k = false → m.erase k = m) := by
  have ha := atKey_spec m k hv
  have hc := contains_spec m k hv
  refine ⟨?_, ?_, ?_⟩
  · rw [ha, hc]
    cases lookupKey m.foreach k <;> simp
  · intro v hvv
    rw [← ha]
    exact hvv
  · intro hfalse
    have hb : (find_loop m.root_ [] k).2 = false := by
      simpa [immutable_map.contains] using hfalse
    simp [immutable_map.erase, hb]

/-- Witness for C8: the singleton {1 ↦ 2} and the absent key 7. -/
theorem atKey_none_iff_absent_witness :
    (((immutable_map.empty : immutable_map ℤ ℚ).insert (1, 2)).atKey 7 = none ↔
      ((immutable_map.empty : immutable_map ℤ ℚ).insert (1, 2)).contains 7 = false) ∧
    (∀ v, ((immutable_map.empty : immutable_map ℤ ℚ).insert (1, 2)).atKey 7 = some v →
      lookupKey ((immutable_map.empty : immutable_map ℤ ℚ).insert (1, 2)).foreach 7
        = some v) ∧
    (((immutable_map.empty : immutable_map ℤ ℚ).insert (1, 2)).contains 7 = false →
      ((immutable_map.empty : immutable_map ℤ ℚ).insert (1, 2)).erase 7
        = (immutable_map.empty : immutable_map ℤ ℚ).insert (1, 2)) :=
  atKey_none_iff_absent ((immutable_map.empty : immutable_map ℤ ℚ).insert (1, 2)) 7
    (insert_ok _ (1, 2) empty_valid).1

/-- C10: at every invocation of `delete_fixup` during an erase the parent's
child opposite the deficit side — the sibling the unguarded
`get_child(...)->...` dereferences read — is a proper node: the deficit side
has black height `nd` while the sibling subtree is balanced at `nd + 1 ≥ 1`
and a subtree of positive black height cannot be null. -/
theorem delete_fixup_sibling_nonnull (kvp : α × β) (A B : node_t α β) (xc : color_t)
    (s : side_t) (nd : Nat) (cs : color_t)
    (hD : BalancedRB ((node_t.node kvp A B xc).get_child s) .BLACK nd)
    (hS : BalancedRB ((node_t.node kvp A B xc).get_child s.other) cs (nd + 1)) :
    (node_t.node kvp A B xc).get_child s.other ≠ .null :=
  hS.ne_null_of_pos (Nat.succ_pos nd)

/-- Witness for C10: a parent with a null left child and a black right
sibling of black height one. -/
theorem delete_fixup_sibling_nonnull_witness :
    (node_t.node ((0 : ℤ), (0 : ℚ)) .null (.node (1, 0) .null .null .BLACK)
        .BLACK).get_child side_t.RIGHT ≠ .null :=
  delete_fixup_sibling_nonnull ((0 : ℤ), (0 : ℚ)) .null
    (.node (1, 0) .null .null .BLACK) .BLACK .LEFT 0 .BLACK
    (by exact .null) (by exact .black .null .null)

/-- C9: the README scenario — from empty, insert (10, 3.14), (15, 6.28),
(20, 3.14), then erase 15: the final map has size 2, does not contain 11,
`at 10` gives 3.14, its traversal is [(10, 3.14), (20, 3.14)], and the
predecessor version (before the erase) still has size 3 and contains 15. -/
theorem readme_scenario :
    (((((immutable_map.empty : immutable_map ℤ ℚ).insert (10, 3.14)).insert
        (15, 6.28)).insert (20, 3.14)).erase 15).size = 2 ∧
    (((((immutable_map.empty : immutable_map ℤ ℚ).insert (10, 3.14)).insert
        (15, 6.28)).insert (20, 3.14)).erase 15).contains 11 = false ∧
    (((((immutable_map.empty : immutable_map ℤ ℚ).insert (10, 3.14)).insert
        (15, 6.28)).insert (20, 3.14)).erase 15).atKey 10 = some 3.14 ∧
    (((((immutable_map.empty : immutable_map ℤ ℚ).insert (10, 3.14)).insert
        (15, 6.28)).insert (20, 3.14)).erase 15).foreach
      = [(10, 3.14), (20, 3.14)] ∧
    ((((immutable_map.empty : immutable_map ℤ ℚ).insert (10, 3.14)).insert
        (15, 6.28)).insert (20, 3.14)).size = 3 ∧
    ((((immutable_map.empty : immutable_map ℤ ℚ).insert (10, 3.14)).insert
        (15, 6.28)).insert (20, 3.14)).contains 15 = true := by
  have h0 : Valid (immutable_map.empty : immutable_map ℤ ℚ) := empty_valid
  have e0 : (immutable_map.empty : immutable_map ℤ ℚ).foreach = [] := rfl
  have s0 : (immutable_map.empty : immutable_map ℤ ℚ).size_ = 0 := rfl
  have h1 := insert_ok (immutable_map.empty : immutable_map ℤ ℚ) (10, 3.14) h0
  have f1 : ((immutable_map.empty : immutable_map ℤ ℚ).insert (10, 3.14)).foreach
      = [(10, 3.14)] := by rw [h1.2.1, e0]; rfl
  have c0 : (immutable_map.empty : immutable_map ℤ ℚ).contains 10 = false := by
    rw [contains_spec _ _ h0, e0]; rfl
  have s1 : ((immutable_map.empty : immutable_map ℤ ℚ).insert (10, 3.14)).size_ = 1 := by
    rw [h1.2.2]
    simp only [c0, s0]
    rfl
  have h2 := insert_ok _ (15, 6.28) h1.1
  have f2 : (((immutable_map.empty : immutable_map ℤ ℚ).insert (10, 3.14)).insert
      (15, 6.28)).foreach = [(10, 3.14), (15, 6.28)] := by
    rw [h2.2.1, f1]; simp [listInsert]
  have c1 : ((immutable_map.empty : immutable_map ℤ ℚ).insert (10, 3.14)).contains 15
      = false := by
    rw [contains_spec _ _ h1.1, f1]; simp [lookupKey]
  have s2 : (((immutable_map.empty : immutable_map ℤ ℚ).insert (10, 3.14)).insert
      (15, 6.28)).size_ = 2 := by
    rw [h2.2.2]
    simp only [c1, s1]
    rfl
  have h3 := insert_ok _ (20, 3.14) h2.1
  have f3 : ((((immutable_map.empty : immutable_map ℤ ℚ).insert (10, 3.14)).insert
      (15, 6.28)).insert (20, 3.14)).foreach
      = [(10, 3.14), (15, 6.28), (20, 3.14)] := by
    rw [h3.2.1, f2]; simp [listInsert]
  have c2 : (((immutable_map.empty : immutable_map ℤ ℚ).insert (10, 3.14)).insert
      (15, 6.28)).contains 20 = false := by
    rw [contains_spec _ _ h2.1, f2]; simp [lookupKey]
  have s3 : ((((immutable_map.empty : immutable_map ℤ ℚ).insert (10, 3.14)).insert
      (15, 6.28)).insert (20, 3.14)).size_ = 3 := by
    rw [h3.2.2]
    simp only [c2, s2]
    rfl
  have c3 : ((((immutable_map.empty : immutable_map ℤ ℚ).insert (10, 3.14)).insert
      (15, 6.28)).insert (20, 3.14)).contains 15 = true := by
    rw [contains_spec _ _ h3.1, f3]; simp [lookupKey]
  have h4 := erase_ok _ 15 h3.1
  have f4 : (((((immutable_map.empty : immutable_map ℤ ℚ).insert (10, 3.14)).insert
      (15, 6.28)).insert (20, 3.14)).erase 15).foreach
      = [(10, 3.14), (20, 3.14)] := by
    rw [h4.2.1, f3]; simp [listErase]
  have s4 : (((((immutable_map.empty : immutable_map ℤ ℚ).insert (10, 3.14)).insert
      (15, 6.28)).insert (20, 3.14)).erase 15).size_ = 2 := by
    rw [h4.2.2]
    simp only [c3, s3]
    rfl
  have c4 : (((((immutable_map.empty : immutable_map ℤ ℚ).insert (10, 3.14)).insert
      (15, 6.28)).insert (20, 3.14)).erase 15).contains 11 = false := by
    rw [contains_spec _ _ h4.1, f4]; simp [lookupKey]
  have a4 : (((((immutable_map.empty : immutable_map ℤ ℚ).insert (10, 3.14)).insert
      (15, 6.28)).insert (20, 3.14)).erase 15).atKey 10 = some 3.14 := by
    rw [atKey_spec _ _ h4.1, f4]; simp [lookupKey]
  exact ⟨s4, c4, a4, f4, s3, c3⟩

/-! ### A store-level embedding of the two mutators

The value-level embedding above abstracts the persistence of the structure
away.  To state it, the same functions are embedded once more against an
explicit store: `shared_ptr<const node>` becomes an address into an
append-only heap, every `std::make_shared` (each `clone()` and each node
constructor call) becomes an allocation at the end of the heap, and the
in-place writes the C++ performs on nodes created earlier in the same
operation — the only writes the type `shared_ptr<const node>` admits, since
`set_pair`/`set_child`/`set_color` need a non-const node — are folded into
the value the cell is allocated with.  No primitive of this embedding
overwrites an existing cell, which is exactly the property the C++ enforces
through constness; the frame theorem below exposes it as: the heap after a
mutator extends the heap before it, and the tree read from any old address
is unchanged.  The unbounded `while` walks (`find`, `find_predecessor`) take
explicit fuel; under well-formedness every child address is smaller than its
parent's, so `h.length + 1` steps always suffice. -/

/-- One heap cell: the immutable payload of a `node` object. -/
structure hcell (α β : Type) where
  kvp : α × β
  left : Option Nat
  right : Option Nat
  color : color_t
  deriving DecidableEq, Repr

/-- The append-only heap: the address of a cell is its index. -/
abbrev hheap (α β : Type) := List (hcell α β)

/-- Dereference a nullable pointer. -/
def hget (h : hheap α β) : Option Nat → Option (hcell α β)
  | none => none
  | some i => h.get? i

/-- Dereference, keeping the address. -/
def hread (h : hheap α β) : Option Nat → Option (Nat × hcell α β)
  | none => none
  | some i => (h.get? i).map fun c => (i, c)

/-- `get_child(side)` on a cell. -/
def hcell.child (c : hcell α β) : side_t → Option Nat
  | .LEFT => c.left
  | .RIGHT => c.right

/-- `set_child(side, x)` on an unpublished cell. -/
def hcell.setChild : hcell α β → side_t → Option Nat → hcell α β
  | c, .LEFT, x => { c with left := x }
  | c, .RIGHT, x => { c with right := x }

/-- `set_color(c)` on an unpublished cell. -/
def hcell.setColor (c : hcell α β) (col : color_t) : hcell α β :=
  { c with color := col }

/-- `std::make_shared`: the cell is appended and its address returned. -/
def halloc (h : hheap α β) (c : hcell α β) : hheap α β × Nat :=
  (h ++ [c], h.length)

/-- `clone()` followed by setter calls on the clone before it is published:
one allocation holding the final value.  On a dangling address (never
reached from the public API) nothing is allocated. -/
def hclone_with (h : hheap α β) (a : Nat) (f : hcell α β → hcell α β) :
    hheap α β × Nat :=
  match h.get? a with
  | some c => halloc h (f c)
  | none => (h, a)

/-- The same for a nullable pointer; cloning null keeps null (the guarded
call sites never do). -/
def hclone_opt (h : hheap α β) (a : Option Nat) (f : hcell α β → hcell α β) :
    hheap α β × Option Nat :=
  match a with
  | none => (h, none)
  | some i =>
    match hclone_with h i f with
    | (h1, j) => (h1, some j)

/-- `n && n->is_red()`. -/
def his_red (h : hheap α β) (a : Option Nat) : Bool :=
  match hget h a with
  | some c => if c.color = .RED then true else false
  | none => false

/-- `is_black()`; null behaves as black exactly as in the value embedding. -/
def his_black (h : hheap α β) (a : Option Nat) : Bool :=
  match hget h a with
  | some c => if c.color = .BLACK then true else false
  | none => true

/-- `get_color()`. -/
def hget_color (h : hheap α β) (a : Option Nat) : color_t :=
  match hget h a with
  | some c => c.color
  | none => .BLACK

/-- `get_child(side)` through an address. -/
def hget_child (h : hheap α β) (a : Nat) (s : side_t) : Option Nat :=
  match h.get? a with
  | some c => c.child s
  | none => none

/-- The key comparison `parent->get_key() > n->get_key() ? LEFT : RIGHT`. -/
def hkey_side (h : hheap α β) (parent n : Option Nat) : side_t :=
  match hget h parent, hget h n with
  | some a, some b => if a.kvp.1 > b.kvp.1 then .LEFT else .RIGHT
  | _, _ => .RIGHT

/-- The static `find` loop over the store, with fuel for the `while`. -/
def hfind_loop (h : hheap α β) : Nat → Option Nat → List Nat → α → List Nat × Bool
  | 0, _, p, _ => (p, false)
  | fuel + 1, a, p, key =>
    match hread h a with
    | none => (p, false)
    | some (i, c) =>
      let p' := i :: p
      if c.kvp.1 = key then (p', true)
      else if c.kvp.1 > key then hfind_loop h fuel (c.child .LEFT) p' key
      else hfind_loop h fuel (c.child .RIGHT) p' key

/-- The two-argument `clone_path(p, n)`. -/
def hclone_path (h : hheap α β) : List Nat → Option Nat → hheap α β × Option Nat
  | [], n => (h, n)
  | parent :: rest, n =>
    match hclone_with h parent (fun c => c.setChild (hkey_side h (some parent) n) n) with
    | (h1, a1) => hclone_path h1 rest (some a1)

/-- The three-argument `clone_path(p, n, depth)`. -/
def hclone_path_depth (h : hheap α β) :
    List Nat → Option Nat → Nat → hheap α β × Option Nat × List Nat
  | [], n, _ => (h, n, [])
  | parent :: rest, n, depth =>
    if (parent :: rest).length > depth then
      match hclone_with h parent (fun c => c.setChild (hkey_side h (some parent) n) n) with
      | (h1, a1) => hclone_path_depth h1 rest (some a1) depth
    else (h, n, parent :: rest)

/-- The four-argument `clone_path(p, n, side, depth)`. -/
def hclone_path_side (h : hheap α β) :
    List Nat → Option Nat → side_t → Nat → hheap α β × Option Nat × List Nat
  | [], n, _, _ => (h, n, [])
  | parent :: rest, n, side, depth =>
    if (parent :: rest).length > depth then
      match hclone_with h parent (fun c => c.setChild side n) with
      | (h1, a1) => hclone_path_side h1 rest (some a1) (hkey_side h rest.head? (some parent)) depth
    else (h, n, parent :: rest)

/-- `insert_fix(p, n)` over the store. -/
def hinsert_fix (h : hheap α β) : List Nat → Nat → hheap α β × Option Nat
  | [], n =>
    match hclone_with h n (fun c => c.setColor .BLACK) with
    | (h1, n1) => (h1, some n1)
  | parent :: rest, n =>
    if his_black h (some parent) then hclone_path h (parent :: rest) (some n)
    else
      match rest with
      | [] => (h, none)
      | grand_parent :: rest2 =>
        let parent_side := hkey_side h (some grand_parent) (some parent)
        let node_side := hkey_side h (some parent) (some n)
        let uncle := hget_child h grand_parent parent_side.other
        if his_red h uncle then
          match hclone_with h parent
            (fun c => (c.setColor .BLACK).setChild node_side (some n)) with
          | (h1, np) =>
            match hclone_opt h1 uncle (fun c => c.setColor .BLACK) with
            | (h2, nu) =>
              match hclone_with h2 grand_parent (fun c =>
                ((c.setColor .RED).setChild parent_side (some np)).setChild
                  parent_side.other nu) with
              | (h3, ngp) => hinsert_fix h3 rest2 ngp
        else
          if parent_side ≠ node_side then
            match hclone_with h parent
              (fun c => c.setChild node_side (hget_child h n parent_side)) with
            | (h1, np) =>
              match hclone_with h1 grand_parent (fun c =>
                (c.setChild parent_side (hget_child h n node_side)).setColor .RED) with
              | (h2, ngp) =>
                match hclone_with h2 n (fun c =>
                  ((c.setChild parent_side (some np)).setChild node_side
                    (some ngp)).setColor .BLACK) with
                | (h3, nn) => hclone_path h3 rest2 (some nn)
          else
            match hclone_with h grand_parent (fun c =>
              (c.setChild parent_side (hget_child h parent parent_side.other)).setColor
                .RED) with
            | (h1, ngp) =>
              match hclone_with h1 parent (fun c =>
                ((c.setChild parent_side.other (some ngp)).setChild parent_side
                  (some n)).setColor .BLACK) with
              | (h2, np) => hclone_path h2 rest2 (some np)

/-- `has_black_sibling_with_red_child(parent, side)` over the store. -/
def hhas_black_sibling_with_red_child (h : hheap α β) (parent : Option Nat)
    (side : side_t) : Bool :=
  match hget h parent with
  | none => false
  | some pc =>
    let sibling := pc.child side.other
    if his_red h sibling then false
    else
      match hget h sibling with
      | some sc => his_red h sc.left || his_red h sc.right
      | none => false

/-- `has_black_sibling_with_black_children(parent, side)` over the store. -/
def hhas_black_sibling_with_black_children (h : hheap α β) (parent : Option Nat)
    (side : side_t) : Bool :=
  match hget h parent with
  | none => false
  | some pc =>
    let sibling := pc.child side.other
    if his_red h sibling then false
    else
      match hget h sibling with
      | some sc => !(his_red h sc.left || his_red h sc.right)
      | none => true

/-- `delete_fixup_1(parent, side)` over the store. -/
def hdelete_fixup_1 (h : hheap α β) (parent : Option Nat) (side : side_t) :
    hheap α β × Option Nat :=
  match hread h parent with
  | none => (h, none)
  | some (_, pc) =>
    let parent_color := pc.color
    let sibling := pc.child side.other
    match hread h sibling with
    | none => (h, none)
    | some (_, sc) =>
      let child_1 := sc.child side
      if his_red h child_1 then
        match hread h child_1 with
        | none => (h, none)
        | some (_, c1) =>
          match halloc h ((pc.setColor .BLACK).setChild side.other (c1.child side)) with
          | (h1, np) =>
            match halloc h1 (sc.setChild side (c1.child side.other)) with
            | (h2, ns) =>
              match halloc h2 (((c1.setColor parent_color).setChild side
                (some np)).setChild side.other (some ns)) with
              | (h3, nc1) => (h3, some nc1)
      else
        let child_2 := sc.child side.other
        match hread h child_2 with
        | none => (h, none)
        | some (_, c2) =>
          match halloc h ((pc.setColor .BLACK).setChild side.other (sc.child side)) with
          | (h1, np) =>
            match halloc h1 (c2.setColor .BLACK) with
            | (h2, nc2) =>
              match halloc h2 (((sc.setColor parent_color).setChild side
                (some np)).setChild side.other (some nc2)) with
              | (h3, ns) => (h3, some ns)

/-- `delete_fixup_2(parent, side)` over the store. -/
def hdelete_fixup_2 (h : hheap α β) (parent : Option Nat) (side : side_t) :
    hheap α β × Option Nat :=
  match hread h parent with
  | none => (h, none)
  | some (_, pc) =>
    match hread h (pc.child side.other) with
    | none => (h, none)
    | some (_, sc) =>
      match halloc h (sc.setColor .RED) with
      | (h1, ns) =>
        match halloc h1 ((pc.setColor .BLACK).setChild side.other (some ns)) with
        | (h2, np) => (h2, some np)

/-- `delete_fixup_3(parent, side)` over the store. -/
def hdelete_fixup_3 (h : hheap α β) (parent : Option Nat) (side : side_t) :
    hheap α β × Option Nat :=
  match hread h parent with
  | none => (h, none)
  | some (_, pc) =>
    match hread h (pc.child side.other) with
    | none => (h, none)
    | some (_, sc) =>
      match halloc h ((pc.setColor .RED).setChild side.other (sc.child side)) with
      | (h1, np) =>
        match
          (if hhas_black_sibling_with_red_child h1 (some np) side then
            hdelete_fixup_1 h1 (some np) side
          else if hhas_black_sibling_with_black_children h1 (some np) side then
            hdelete_fixup_2 h1 (some np) side
          else (h1, some np)) with
        | (h2, np') =>
          match halloc h2 ((sc.setColor pc.color).setChild side np') with
          | (h3, ns) => (h3, some ns)

/-- `delete_fixup(p, parent, side)` over the store. -/
def hdelete_fixup (h : hheap α β) : List Nat → Option Nat → side_t → hheap α β × Option Nat
  | p, parent, side =>
    if hhas_black_sibling_with_red_child h parent side then
      match hdelete_fixup_1 h parent side with
      | (h1, np) => hclone_path h1 p np
    else if hhas_black_sibling_with_black_children h parent side then
      let parent_color := hget_color h parent
      match hdelete_fixup_2 h parent side with
      | (h1, np) =>
        match p with
        | grand_parent :: rest =>
          if parent_color = .BLACK then
            let parent_side := hkey_side h (some grand_parent) parent
            match hclone_with h1 grand_parent (fun c => c.setChild parent_side np) with
            | (h2, ngp) => hdelete_fixup h2 rest (some ngp) parent_side
          else hclone_path h1 (grand_parent :: rest) np
        | [] => (h1, np)
    else
      match hdelete_fixup_3 h parent side with
      | (h1, np) => hclone_path h1 p np

/-- The `find_predecessor` walk, with fuel for the `while`. -/
def hfind_pred_loop (h : hheap α β) : Nat → Option Nat → List Nat → List Nat
  | 0, _, p => p
  | fuel + 1, a, p =>
    match hread h a with
    | none => p
    | some (i, c) => hfind_pred_loop h fuel c.right (i :: p)

/-- `find_predecessor(p)` over the store. -/
def hfind_predecessor (h : hheap α β) (p : List Nat) : List Nat :=
  hfind_pred_loop h (h.length + 1)
    (match p.head? with
     | some i => hget_child h i .LEFT
     | none => none) p

/-- `erase_intermediate_node(p)` over the store. -/
def herase_intermediate_node (h : hheap α β) (p : List Nat) : hheap α β × Option Nat :=
  match p with
  | [] => (h, none)
  | erased_node :: _ =>
    match h.get? erased_node with
    | none => (h, none)
    | some ec =>
      let node_color := ec.color
      let depth := p.length
      let p1 := hfind_predecessor h p
      match p1 with
      | [] => (h, none)
      | predecessor :: _ =>
        match h.get? predecessor with
        | none => (h, none)
        | some pc =>
          let predecessor_depth := p1.length
          let predecessor_side : side_t :=
            if predecessor_depth - depth > 1 then .RIGHT else .LEFT
          let predecessor_color := pc.color
          if predecessor_color = .RED then
            match hclone_path_side h p1.tail none predecessor_side depth with
            | (h1, st, p3) =>
              match hclone_with h1 predecessor (fun c =>
                (((c.setColor node_color).setChild .LEFT st).setChild
                  .RIGHT ec.right)) with
              | (h2, nn) => hclone_path h2 p3.tail (some nn)
          else
            match pc.left with
            | some predecessor_left =>
              match hclone_with h predecessor_left (fun c => c.setColor .BLACK) with
              | (h1, nc) =>
                match hclone_path_depth h1 p1.tail (some nc) depth with
                | (h2, st, p3) =>
                  match hclone_with h2 predecessor (fun c =>
                    (((c.setColor node_color).setChild .LEFT st).setChild
                      .RIGHT ec.right)) with
                  | (h3, nn) => hclone_path h3 p3.tail (some nn)
            | none =>
              let p2 := p1.tail
              let sel_key :=
                if predecessor_side = .LEFT then some pc.kvp.1
                else
                  match hget h p2.head? with
                  | some c2 => some c2.kvp.1
                  | none => none
              match sel_key with
              | none => (h, none)
              | some skey =>
                match hclone_path_side h p2 none predecessor_side depth with
                | (h1, st, p3) =>
                  match hclone_with h1 predecessor (fun c =>
                    (((c.setColor node_color).setChild .LEFT st).setChild
                      .RIGHT ec.right)) with
                  | (h2, nn) =>
                    match hclone_path h2 p3.tail (some nn) with
                    | (h3, temp_root) =>
                      match (hfind_loop h3 (h3.length + 1) temp_root [] skey).1 with
                      | new_parent :: p6 =>
                        hdelete_fixup h3 p6 (some new_parent) predecessor_side
                      | [] => (h3, none)

/-- `erase_imp(p)` over the store. -/
def herase_imp (h : hheap α β) (p : List Nat) : hheap α β × Option Nat :=
  match p with
  | [] => (h, none)
  | n :: rest =>
    match h.get? n with
    | none => (h, none)
    | some c =>
      match c.left, c.right with
      | some _, some _ => herase_intermediate_node h p
      | some lc, none =>
        match hclone_with h lc (fun d => d.setColor .BLACK) with
        | (h1, a1) => hclone_path h1 rest (some a1)
      | none, some rc =>
        match hclone_with h rc (fun d => d.setColor .BLACK) with
        | (h1, a1) => hclone_path h1 rest (some a1)
      | none, none =>
        if c.color = .RED then
          match rest with
          | [] => (h, none)
          | parent :: rest2 =>
            let parent_side := hkey_side h (some parent) (some n)
            match hclone_with h parent (fun d => d.setChild parent_side none) with
            | (h1, a1) => hclone_path h1 rest2 (some a1)
        else
          match rest with
          | [] => (h, none)
          | parent :: rest2 =>
            let parent_side := hkey_side h (some parent) (some n)
            match hclone_with h parent (fun d => d.setChild parent_side none) with
            | (h1, a1) => hdelete_fixup h1 rest2 (some a1) parent_side

/-- `insert_imp(kvp)` over the store: the heap, root and size of the new
version. -/
def hinsert (h : hheap α β) (root : Option Nat) (size : Nat) (kvp : α × β) :
    hheap α β × Option Nat × Nat :=
  let fp := hfind_loop h (h.length + 1) root [] kvp.1
  if fp.2 then
    match fp.1 with
    | found :: rest =>
      match hclone_with h found (fun c => { c with kvp := kvp }) with
      | (h1, a1) =>
        match hclone_path h1 rest (some a1) with
        | (h2, r2) => (h2, r2, size)
    | [] => (h, root, size)
  else
    match root with
    | none =>
      match halloc h ⟨kvp, none, none, .BLACK⟩ with
      | (h1, a1) => (h1, some a1, size + 1)
    | some _ =>
      match halloc h ⟨kvp, none, none, .RED⟩ with
      | (h1, a1) =>
        match hinsert_fix h1 fp.1 a1 with
        | (h2, r2) => (h2, r2, size + 1)

/-- `erase(key)` over the store: the heap, root and size of the new
version. -/
def herase (h : hheap α β) (root : Option Nat) (size : Nat) (key : α) :
    hheap α β × Option Nat × Nat :=
  let fp := hfind_loop h (h.length + 1) root [] key
  if fp.2 then
    match herase_imp h fp.1 with
    | (h1, r1) => (h1, r1, size - 1)
  else (h, root, size)

/-- `h'` holds every cell of `h` at the same address, plus newly allocated
ones: the heap only grew. -/
def HeapExtends (h h' : hheap α β) : Prop := ∃ extra, h' = h ++ extra

theorem heap_extends_self (h : hheap α β) : HeapExtends h h := ⟨[], by simp⟩

theorem HeapExtends.htrans {h1 h2 h3 : hheap α β} (a : HeapExtends h1 h2)
    (b : HeapExtends h2 h3) : HeapExtends h1 h3 := by
  obtain ⟨e1, he1⟩ := a
  obtain ⟨e2, he2⟩ := b
  exact ⟨e1 ++ e2, by rw [he2, he1, List.append_assoc]⟩

theorem halloc_extends (h : hheap α β) (c : hcell α β) :
    HeapExtends h (halloc h c).1 := ⟨[c], rfl⟩

theorem HeapExtends.of_eq {γ : Type} {h h1 : hheap α β} {e : hheap α β × γ} {x : γ}
    (hx : HeapExtends h e.1) (he : e = (h1, x)) : HeapExtends h h1 := by
  rw [he] at hx
  exact hx

theorem hclone_with_extends (h : hheap α β) (a : Nat) (f : hcell α β → hcell α β) :
    HeapExtends h (hclone_with h a f).1 := by
  unfold hclone_with
  rcases h.get? a with _ | c
  · exact heap_extends_self h
  · exact halloc_extends h (f c)

theorem hclone_opt_extends (h : hheap α β) (a : Option Nat) (f : hcell α β → hcell α β) :
    HeapExtends h (hclone_opt h a f).1 := by
  rcases a with _ | i
  · exact heap_extends_self h
  · show HeapExtends h (match hclone_with h i f with | (h1, j) => (h1, some j)).1
    rcases hcw : hclone_with h i f with ⟨h1, j⟩
    exact (hclone_with_extends h i f).of_eq hcw

theorem hclone_path_extends : ∀ (p : List Nat) (h : hheap α β) (n : Option Nat),
    HeapExtends h (hclone_path h p n).1 := by
  intro p
  induction p with
  | nil => intro h n; exact heap_extends_self h
  | cons parent rest ih =>
    intro h n
    rw [hclone_path]
    rcases hcw : hclone_with h parent
      (fun c => c.setChild (hkey_side h (some parent) n) n) with ⟨h1, a1⟩
    exact ((hclone_with_extends h parent _).of_eq hcw).htrans (ih h1 (some a1))

theorem hclone_path_depth_extends : ∀ (p : List Nat) (h : hheap α β) (n : Option Nat)
    (depth : Nat), HeapExtends h (hclone_path_depth h p n depth).1 := by
  intro p
  induction p with
  | nil => intro h n depth; exact heap_extends_self h
  | cons parent rest ih =>
    intro h n depth
    rw [hclone_path_depth]
    by_cases hlen : (parent :: rest).length > depth
    · rw [if_pos hlen]
      rcases hcw : hclone_with h parent
        (fun c => c.setChild (hkey_side h (some parent) n) n) with ⟨h1, a1⟩
      exact ((hclone_with_extends h parent _).of_eq hcw).htrans (ih h1 (some a1) depth)
    · rw [if_neg hlen]
      exact heap_extends_self h

theorem hclone_path_side_extends : ∀ (p : List Nat) (h : hheap α β) (n : Option Nat)
    (side : side_t) (depth : Nat), HeapExtends h (hclone_path_side h p n side depth).1 := by
  intro p
  induction p with
  | nil => intro h n side depth; exact heap_extends_self h
  | cons parent rest ih =>
    intro h n side depth
    rw [hclone_path_side]
    by_cases hlen : (parent :: rest).length > depth
    · rw [if_pos hlen]
      rcases hcw : hclone_with h parent (fun c => c.setChild side n) with ⟨h1, a1⟩
      exact ((hclone_with_extends h parent _).of_eq hcw).htrans (ih h1 (some a1) _ depth)
    · rw [if_neg hlen]
      exact heap_extends_self h

theorem hinsert_fix_extends : ∀ (N : Nat) (p : List Nat), p.length ≤ N →
    ∀ (h : hheap α β) (n : Nat), HeapExtends h (hinsert_fix h p n).1 := by
  intro N
  induction N with
  | zero =>
    intro p hlen h n
    have hp : p = [] := by
      cases p with
      | nil => rfl
      | cons x xs => simp at hlen
    subst hp
    show HeapExtends h (match hclone_with h n (fun c => c.setColor .BLACK) with
      | (h1, n1) => (h1, some n1)).1
    rcases hcw : hclone_with h n (fun c => c.setColor .BLACK) with ⟨h1, n1⟩
    exact (hclone_with_extends h n _).of_eq hcw
  | succ N ih =>
    intro p hlen h n
    cases p with
    | nil =>
      show HeapExtends h (match hclone_with h n (fun c => c.setColor .BLACK) with
        | (h1, n1) => (h1, some n1)).1
      rcases hcw : hclone_with h n (fun c => c.setColor .BLACK) with ⟨h1, n1⟩
      exact (hclone_with_extends h n _).of_eq hcw
    | cons parent rest =>
      rw [hinsert_fix.eq_def]
      simp only []
      by_cases hblk : his_black h (some parent)
      · rw [if_pos hblk]
        exact hclone_path_extends _ h _
      · rw [if_neg hblk]
        cases rest with
        | nil => exact heap_extends_self h
        | cons grand_parent rest2 =>
          by_cases hur : his_red h (hget_child h grand_parent
            (hkey_side h (some grand_parent) (some parent)).other)
          · simp only [hur, if_true]
            rcases hcw1 : hclone_with h parent (fun c =>
              (c.setColor .BLACK).setChild (hkey_side h (some parent) (some n)) (some n))
              with ⟨h1, np⟩
            rcases hcw2 : hclone_opt h1 (hget_child h grand_parent
              (hkey_side h (some grand_parent) (some parent)).other)
              (fun c => c.setColor .BLACK) with ⟨h2, nu⟩
            rcases hcw3 : hclone_with h2 grand_parent (fun c =>
              ((c.setColor .RED).setChild (hkey_side h (some grand_parent) (some parent))
                (some np)).setChild
                (hkey_side h (some grand_parent) (some parent)).other nu) with ⟨h3, ngp⟩
            refine (((hclone_with_extends h parent _).of_eq hcw1).htrans
              (((hclone_opt_extends h1 _ _).of_eq hcw2).htrans
                (((hclone_with_extends h2 grand_parent _).of_eq hcw3).htrans ?_)))
            exact ih rest2 (by simp at hlen; omega) h3 ngp
          · simp only [hur, if_false]
            by_cases hside : (hkey_side h (some grand_parent) (some parent))
                ≠ (hkey_side h (some parent) (some n))
            · rw [if_pos hside]
              rcases hcw1 : hclone_with h parent (fun c =>
                c.setChild (hkey_side h (some parent) (some n))
                  (hget_child h n (hkey_side h (some grand_parent) (some parent))))
                with ⟨h1, np⟩
              rcases hcw2 : hclone_with h1 grand_parent (fun c =>
                (c.setChild (hkey_side h (some grand_parent) (some parent))
                  (hget_child h n (hkey_side h (some parent) (some n)))).setColor .RED)
                with ⟨h2, ngp⟩
              rcases hcw3 : hclone_with h2 n (fun c =>
                ((c.setChild (hkey_side h (some grand_parent) (some parent))
                  (some np)).setChild (hkey_side h (some parent) (some n))
                  (some ngp)).setColor .BLACK) with ⟨h3, nn⟩
              exact (((hclone_with_extends h parent _).of_eq hcw1).htrans
                (((hclone_with_extends h1 grand_parent _).of_eq hcw2).htrans
                  (((hclone_with_extends h2 n _).of_eq hcw3).htrans
                    (hclone_path_extends rest2 h3 (some nn)))))
            · rw [if_neg hside]
              rcases hcw1 : hclone_with h grand_parent (fun c =>
                (c.setChild (hkey_side h (some grand_parent) (some parent))
                  (hget_child h parent
                    (hkey_side h (some grand_parent) (some parent)).other)).setColor .RED)
                with ⟨h1, ngp⟩
              rcases hcw2 : hclone_with h1 parent (fun c =>
                ((c.setChild (hkey_side h (some grand_parent) (some parent)).other
                  (some ngp)).setChild (hkey_side h (some grand_parent) (some parent))
                  (some n)).setColor .BLACK) with ⟨h2, np⟩
              exact (((hclone_with_extends h grand_parent _).of_eq hcw1).htrans
                (((hclone_with_extends h1 parent _).of_eq hcw2).htrans
                  (hclone_path_extends rest2 h2 (some np))))

theorem hdelete_fixup_1_extends (h : hheap α β) (parent : Option Nat) (side : side_t) :
    HeapExtends h (hdelete_fixup_1 h parent side).1 := by
  rw [hdelete_fixup_1]
  simp only []
  split
  · exact heap_extends_self h
  · split
    · exact heap_extends_self h
    · split
      · split
        · exact heap_extends_self h
        · exact (halloc_extends h _).htrans
            ((halloc_extends _ _).htrans (halloc_extends _ _))
      · split
        · exact heap_extends_self h
        · exact (halloc_extends h _).htrans
            ((halloc_extends _ _).htrans (halloc_extends _ _))

theorem hdelete_fixup_2_extends (h : hheap α β) (parent : Option Nat) (side : side_t) :
    HeapExtends h (hdelete_fixup_2 h parent side).1 := by
  rw [hdelete_fixup_2]
  simp only []
  split
  · exact heap_extends_self h
  · split
    · exact heap_extends_self h
    · exact (halloc_extends h _).htrans (halloc_extends _ _)

theorem hdelete_fixup_3_extends (h : hheap α β) (parent : Option Nat) (side : side_t) :
    HeapExtends h (hdelete_fixup_3 h parent side).1 := by
  rw [hdelete_fixup_3]
  simp only []
  split
  · exact heap_extends_self h
  · split
    · exact heap_extends_self h
    · split
      · exact ((halloc_extends h _).htrans (hdelete_fixup_1_extends _ _ _)).htrans
          (halloc_extends _ _)
      · split
        · exact ((halloc_extends h _).htrans (hdelete_fixup_2_extends _ _ _)).htrans
            (halloc_extends _ _)
        · exact (halloc_extends h _).htrans (halloc_extends _ _)

theorem hdelete_fixup_extends : ∀ (p : List Nat) (h : hheap α β) (parent : Option Nat)
    (side : side_t), HeapExtends h (hdelete_fixup h p parent side).1 := by
  intro p
  induction p with
  | nil =>
    intro h parent side
    rw [hdelete_fixup]
    simp only []
    split
    · exact (hdelete_fixup_1_extends h parent side).htrans (hclone_path_extends _ _ _)
    · split
      · exact hdelete_fixup_2_extends h parent side
      · exact (hdelete_fixup_3_extends h parent side).htrans (hclone_path_extends _ _ _)
  | cons gp rest ih =>
    intro h parent side
    rw [hdelete_fixup]
    simp only []
    split
    · exact (hdelete_fixup_1_extends h parent side).htrans (hclone_path_extends _ _ _)
    · split
      · split
        · exact (hdelete_fixup_2_extends h parent side).htrans
            ((hclone_with_extends _ gp _).htrans (ih _ _ _))
        · exact (hdelete_fixup_2_extends h parent side).htrans (hclone_path_extends _ _ _)
      · exact (hdelete_fixup_3_extends h parent side).htrans (hclone_path_extends _ _ _)

theorem herase_intermediate_node_extends (h : hheap α β) (p : List Nat) :
    HeapExtends h (herase_intermediate_node h p).1 := by
  rw [herase_intermediate_node.eq_def]
  simp only []
  split
  · exact heap_extends_self h
  · split
    · exact heap_extends_self h
    · split
      · exact heap_extends_self h
      · split
        · exact heap_extends_self h
        · split
          · exact ((hclone_path_side_extends _ h _ _ _).htrans
              ((hclone_with_extends _ _ _).htrans (hclone_path_extends _ _ _)))
          · split
            · exact ((hclone_with_extends h _ _).htrans
                ((hclone_path_depth_extends _ _ _ _).htrans
                  ((hclone_with_extends _ _ _).htrans (hclone_path_extends _ _ _))))
            · split
              · exact heap_extends_self h
              · split
                · exact ((hclone_path_side_extends _ h _ _ _).htrans
                    ((hclone_with_extends _ _ _).htrans
                      ((hclone_path_extends _ _ _).htrans
                        (hdelete_fixup_extends _ _ _ _))))
                · exact ((hclone_path_side_extends _ h _ _ _).htrans
                    ((hclone_with_extends _ _ _).htrans (hclone_path_extends _ _ _)))

theorem herase_imp_extends (h : hheap α β) (p : List Nat) :
    HeapExtends h (herase_imp h p).1 := by
  rw [herase_imp.eq_def]
  simp only []
  split
  · exact heap_extends_self h
  · split
    · exact heap_extends_self h
    · split
      · exact herase_intermediate_node_extends h _
      · exact (hclone_with_extends h _ _).htrans (hclone_path_extends _ _ _)
      · exact (hclone_with_extends h _ _).htrans (hclone_path_extends _ _ _)
      · split
        · split
          · exact heap_extends_self h
          · exact (hclone_with_extends h _ _).htrans (hclone_path_extends _ _ _)
        · split
          · exact heap_extends_self h
          · exact (hclone_with_extends h _ _).htrans (hdelete_fixup_extends _ _ _ _)

theorem hinsert_extends (h : hheap α β) (root : Option Nat) (size : Nat) (kvp : α × β) :
    HeapExtends h (hinsert h root size kvp).1 := by
  rw [hinsert.eq_def]
  simp only []
  split
  · split
    · exact (hclone_with_extends h _ _).htrans (hclone_path_extends _ _ _)
    · exact heap_extends_self h
  · split
    · exact halloc_extends h _
    · exact (halloc_extends h _).htrans
        (hinsert_fix_extends (List.length _) _ (le_refl _) _ _)

theorem herase_extends (h : hheap α β) (root : Option Nat) (size : Nat) (key : α) :
    HeapExtends h (herase h root size key).1 := by
  rw [herase.eq_def]
  simp only []
  split
  · exact herase_imp_extends h _
  · exact heap_extends_self h

/-- Reading the value tree out of the store, with fuel; under
well-formedness every child address is strictly below its parent's, so any
fuel exceeding the root address reaches the whole tree. -/
def interp (h : hheap α β) : Option Nat → Nat → node_t α β
  | _, 0 => .null
  | none, _ => .null
  | some i, fuel + 1 =>
    match h.get? i with
    | none => .null
    | some c => .node c.kvp (interp h c.left fuel) (interp h c.right fuel) c.color

/-- A well-formed heap: every stored child address is strictly below the
cell's own address, as allocation order guarantees. -/
def hWF (h : hheap α β) : Prop :=
  ∀ i c, h.get? i = some c →
    (∀ j ∈ c.left, j < i) ∧ (∀ j ∈ c.right, j < i)

/-- Cells below the old length are untouched by an extension, so the tree
read from any old address is unchanged. -/
theorem interp_append (h extra : hheap α β) (hwf : hWF h) :
    ∀ (fuel : Nat) (a : Option Nat), (∀ x ∈ a, x < h.length) →
      interp (h ++ extra) a fuel = interp h a fuel := by
  intro fuel
  induction fuel with
  | zero => intro a ha; cases a <;> rfl
  | succ fuel ih =>
    intro a ha
    cases a with
    | none => rfl
    | some i =>
      have hi : i < h.length := ha i rfl
      rw [show interp (h ++ extra) (some i) (fuel + 1)
          = (match (h ++ extra).get? i with
            | none => node_t.null
            | some c => node_t.node c.kvp (interp (h ++ extra) c.left fuel)
                (interp (h ++ extra) c.right fuel) c.color) from rfl]
      rw [show interp h (some i) (fuel + 1)
          = (match h.get? i with
            | none => node_t.null
            | some c => node_t.node c.kvp (interp h c.left fuel)
                (interp h c.right fuel) c.color) from rfl]
      rw [List.get?_append hi]

      cases hg : h.get? i with
      | none => rfl
      | some c =>
        have hok := hwf i c hg
        simp only []
        rw [ih c.left (fun x hx => lt_trans (hok.1 x hx) hi),
          ih c.right (fun x hx => lt_trans (hok.2 x hx) hi)]

/-- C2: the two mutators return a new version and leave every existing one
untouched: the heap after `insert`/`erase` is the old heap plus freshly
allocated cells only, so the tree — hence the contents and in-order
traversal — read from any pre-existing address is identical to what it was
before the call (and the receiver's `size_` is a by-value field the callee
never writes). -/
theorem mutators_preserve_existing_versions (h : hheap α β) (root a : Option Nat)
    (size : Nat) (kvp : α × β) (key : α) (fuel : Nat)
    (hwf : hWF h) (ha : ∀ x ∈ a, x < h.length) :
    HeapExtends h (hinsert h root size kvp).1 ∧
    HeapExtends h (herase h root size key).1 ∧
    interp (hinsert h root size kvp).1 a fuel = interp h a fuel ∧
    interp (herase h root size key).1 a fuel = interp h a fuel ∧
    (interp (hinsert h root size kvp).1 a fuel).foreach = (interp h a fuel).foreach ∧
    (interp (herase h root size key).1 a fuel).foreach = (interp h a fuel).foreach := by
  obtain ⟨e1, he1⟩ := hinsert_extends h root size kvp
  obtain ⟨e2, he2⟩ := herase_extends h root size key
  have hi1 : interp (hinsert h root size kvp).1 a fuel = interp h a fuel := by
    rw [he1]; exact interp_append h e1 hwf fuel a ha
  have hi2 : interp (herase h root size key).1 a fuel = interp h a fuel := by
    rw [he2]; exact interp_append h e2 hwf fuel a ha
  exact ⟨⟨e1, he1⟩, ⟨e2, he2⟩, hi1, hi2, by rw [hi1], by rw [hi2]⟩

/-- Witness for C2: the one-cell heap {10 ↦ 3.14}, inserting (15, 6.28) and
erasing 10. -/
theorem mutators_preserve_existing_versions_witness :
    HeapExtends [(⟨((10 : ℤ), (3.14 : ℚ)), none, none, .BLACK⟩ : hcell ℤ ℚ)]
      (hinsert [⟨((10 : ℤ), (3.14 : ℚ)), none, none, .BLACK⟩] (some 0) 1 (15, 6.28)).1 ∧
    HeapExtends [(⟨((10 : ℤ), (3.14 : ℚ)), none, none, .BLACK⟩ : hcell ℤ ℚ)]
      (herase [⟨((10 : ℤ), (3.14 : ℚ)), none, none, .BLACK⟩] (some 0) 1 10).1 ∧
    interp (hinsert [(⟨((10 : ℤ), (3.14 : ℚ)), none, none, .BLACK⟩ : hcell ℤ ℚ)]
        (some 0) 1 (15, 6.28)).1 (some 0) 2
      = interp [⟨((10 : ℤ), (3.14 : ℚ)), none, none, .BLACK⟩] (some 0) 2 ∧
    interp (herase [(⟨((10 : ℤ), (3.14 : ℚ)), none, none, .BLACK⟩ : hcell ℤ ℚ)]
        (some 0) 1 10).1 (some 0) 2
      = interp [⟨((10 : ℤ), (3.14 : ℚ)), none, none, .BLACK⟩] (some 0) 2 ∧
    (interp (hinsert [(⟨((10 : ℤ), (3.14 : ℚ)), none, none, .BLACK⟩ : hcell ℤ ℚ)]
        (some 0) 1 (15, 6.28)).1 (some 0) 2).foreach
      = (interp [⟨((10 : ℤ), (3.14 : ℚ)), none, none, .BLACK⟩] (some 0) 2).foreach ∧
    (interp (herase [(⟨((10 : ℤ), (3.14 : ℚ)), none, none, .BLACK⟩ : hcell ℤ ℚ)]
        (some 0) 1 10).1 (some 0) 2).foreach
      = (interp [⟨((10 : ℤ), (3.14 : ℚ)), none, none, .BLACK⟩] (some 0) 2).foreach :=
  mutators_preserve_existing_versions [⟨((10 : ℤ), (3.14 : ℚ)), none, none, .BLACK⟩]
    (some 0) (some 0) 1 (15, 6.28) 10 2
    (by
      intro i c hc
      cases i with
      | zero =>
        simp only [List.get?] at hc
        cases hc
        exact ⟨by simp, by simp⟩
      | succ n => simp [List.get?] at hc)
    (by
      intro x hx
      have hx0 : 0 = x := by simpa using hx
      simp only [List.length_singleton]
      omega)
